import Mathlib

/-!
# 24C02 EEPROM driver (`i2c_24c02.cpp`): shallow embedding and verified properties

The driver talks to the chip through the Flipper firmware I2C layer
(`furi_hal_i2c_acquire`, `furi_hal_i2c_tx_ext`, `furi_hal_i2c_rx_ext`,
`furi_hal_i2c_rx`, `furi_hal_i2c_release`, `furi_delay_ms`).  That layer and the
chip are the environment of the program; they are modelled by the type `Bus`
below.  Every driver method is a function from a `Bus` to a result and a new
`Bus`; `uint8_t` quantities are natural numbers reduced modulo 256 at every
place where the C++ code stores into a `uint8_t`.
-/

namespace EEPROM

/-! ## Constants of `i2c_24c02.hpp` -/

/-- Memory size of the 24C02 in bytes (`#define EEPROM_24C02_SIZE 256`). -/
abbrev EEPROM_24C02_SIZE : Nat := 256

/-- Page write size (`#define EEPROM_24C02_PAGE_SIZE 8`). -/
abbrev EEPROM_24C02_PAGE_SIZE : Nat := 8

/-- Conversion of an integer value to `uint8_t`. -/
def u8 (n : Nat) : Nat := n % 256

/-- Conversion of an integer value to `uint16_t`. -/
def u16 (n : Nat) : Nat := n % 65536

/-! ## The environment: I2C bus, chip and clock -/

/-- Start framing of a transfer (`FuriHalI2cBeginStart`, `FuriHalI2cBeginRestart`). -/
inductive I2cBegin where
  | FuriHalI2cBeginStart
  | FuriHalI2cBeginRestart
deriving DecidableEq

/-- End framing of a transfer (`FuriHalI2cEndStop`, `FuriHalI2cEndAwaitRestart`). -/
inductive I2cEnd where
  | FuriHalI2cEndStop
  | FuriHalI2cEndAwaitRestart
deriving DecidableEq

/-- One observable action of the driver on its environment, in program order.
`tx` and `rx` record the 8-bit slave address, the bytes sent (respectively the
number of bytes requested), the framing and whether the transfer was
acknowledged. -/
inductive Event where
  | acquire
  | release
  | tx (address : Nat) (data : List Nat) (begin_ : I2cBegin) (end_ : I2cEnd) (ok : Bool)
  | rx (address : Nat) (size : Nat) (begin_ : I2cBegin) (end_ : I2cEnd) (ok : Bool)
  | delay (ms : Nat)
deriving DecidableEq

/-- The environment of the driver.
* `mem` : contents of the chip, by memory address `0..255`;
* `ptr` : the chip's internal address counter;
* `outcome k` : whether the `k`-th transfer on the bus (counted from 0, transmit
  and receive phases alike) is acknowledged, so that any pattern of bus
  successes and failures is an `outcome`;
* `count` : number of transfers performed so far;
* `log` : the actions performed so far, oldest first. -/
structure Bus where
  mem : Nat → Nat
  ptr : Nat
  outcome : Nat → Bool
  count : Nat
  log : List Event

/-- Address counter of the chip after one byte of a page write: the low three
bits (the column inside the 8-byte page) increment and wrap, the page stays. -/
def pageInc (p : Nat) : Nat :=
  (p / EEPROM_24C02_PAGE_SIZE) * EEPROM_24C02_PAGE_SIZE + (p + 1) % EEPROM_24C02_PAGE_SIZE

/-- Chip side of a page write: store the data bytes one by one at the address
counter, which wraps inside the page. -/
def deviceStore : List Nat → (Nat → Nat) × Nat → (Nat → Nat) × Nat
  | [], s => s
  | d :: ds, (m, p) => deviceStore ds ((fun x => if x = p then d else m x), pageInc p)

/-- Chip side of an acknowledged transmit: the first byte is the memory address,
loaded into the address counter; the following bytes are stored. -/
def deviceWrite (data : List Nat) (b : Bus) : Bus :=
  match data with
  | [] => b
  | a :: ds =>
    let s := deviceStore ds (b.mem, a % EEPROM_24C02_SIZE)
    { b with mem := s.1, ptr := s.2 }

/-- Chip side of an acknowledged receive of `size` bytes: consecutive bytes from
the address counter on, the counter rolling over at the end of the memory. -/
def deviceRead (size : Nat) (b : Bus) : List Nat :=
  (List.range size).map (fun i => b.mem ((b.ptr + i) % EEPROM_24C02_SIZE))

/-- Model of `furi_hal_i2c_acquire(&furi_hal_i2c_handle_external)`. -/
def furi_hal_i2c_acquire (b : Bus) : Bus :=
  { b with log := b.log ++ [Event.acquire] }

/-- Model of `furi_hal_i2c_release(&furi_hal_i2c_handle_external)`. -/
def furi_hal_i2c_release (b : Bus) : Bus :=
  { b with log := b.log ++ [Event.release] }

/-- Model of `furi_delay_ms(ms)`. -/
def furi_delay_ms (ms : Nat) (b : Bus) : Bus :=
  { b with log := b.log ++ [Event.delay ms] }

/-- Model of `furi_hal_i2c_tx_ext(handle, address, false, data, size, begin, end, timeout)`:
`data` is the list of the `size` bytes handed over.  The transfer is acknowledged
when the bus says so; only then does the chip see the bytes. -/
def furi_hal_i2c_tx_ext (address : Nat) (data : List Nat) (begin_ : I2cBegin) (end_ : I2cEnd)
    (b : Bus) : Bool × Bus :=
  let ok := b.outcome b.count
  let b1 := if ok then deviceWrite data b else b
  (ok, { b1 with count := b.count + 1,
                 log := b.log ++ [Event.tx address data begin_ end_ ok] })

/-- Model of `furi_hal_i2c_rx_ext(handle, address, false, data, size, begin, end, timeout)`:
returns the acknowledgement and the bytes stored into `data` (none when the
transfer is not acknowledged). -/
def furi_hal_i2c_rx_ext (address : Nat) (size : Nat) (begin_ : I2cBegin) (end_ : I2cEnd)
    (b : Bus) : (Bool × List Nat) × Bus :=
  let ok := b.outcome b.count
  let bytes := if ok then deviceRead size b else []
  let p := if ok then (b.ptr + size) % EEPROM_24C02_SIZE else b.ptr
  ((ok, bytes), { b with ptr := p, count := b.count + 1,
                         log := b.log ++ [Event.rx address size begin_ end_ ok] })

/-- Model of `furi_hal_i2c_rx(handle, address, data, size, timeout)`: a complete
start...stop receive. -/
def furi_hal_i2c_rx (address : Nat) (size : Nat) (b : Bus) : (Bool × List Nat) × Bus :=
  furi_hal_i2c_rx_ext address size I2cBegin.FuriHalI2cBeginStart I2cEnd.FuriHalI2cEndStop b

/-! ## The driver class `EEPROM24C02` -/

/-- The driver object: its only member is `_i2c_addr_8bit`. -/
structure EEPROM24C02 where
  _i2c_addr_8bit : Nat
deriving DecidableEq

/-- Constructor `EEPROM24C02(uint8_t i2c_address_7bit)`. -/
def EEPROM24C02.new (i2c_address_7bit : Nat) : EEPROM24C02 :=
  { _i2c_addr_8bit := u8 (u8 i2c_address_7bit <<< 1) }

/-- Method `EEPROM24C02::setAddress`. -/
def EEPROM24C02.setAddress (_self : EEPROM24C02) (i2c_address_7bit : Nat) : EEPROM24C02 :=
  { _i2c_addr_8bit := u8 (u8 i2c_address_7bit <<< 1) }

/-- Method `EEPROM24C02::getAddress`. -/
def EEPROM24C02.getAddress (self : EEPROM24C02) : Nat :=
  u8 (self._i2c_addr_8bit >>> 1)

/-- Method `EEPROM24C02::isAvailable`: a one-byte read of a dummy byte. -/
def EEPROM24C02.isAvailable (self : EEPROM24C02) (b : Bus) : Bool × Bus :=
  let b := furi_hal_i2c_acquire b
  let r := furi_hal_i2c_rx self._i2c_addr_8bit 1 b
  let b := furi_hal_i2c_release r.2
  (r.1.1, b)

/-- Method `EEPROM24C02::readByte`: returns the result and the bytes stored into
`data` (one byte when the receive phase succeeded). -/
def EEPROM24C02.readByte (self : EEPROM24C02) (memory_addr : Nat) (b : Bus) :
    (Bool × List Nat) × Bus :=
  let memory_addr := u8 memory_addr
  let b := furi_hal_i2c_acquire b
  let t := furi_hal_i2c_tx_ext self._i2c_addr_8bit [memory_addr]
    I2cBegin.FuriHalI2cBeginStart I2cEnd.FuriHalI2cEndAwaitRestart b
  let success_tx := t.1
  let r := if success_tx then
      furi_hal_i2c_rx_ext self._i2c_addr_8bit 1
        I2cBegin.FuriHalI2cBeginRestart I2cEnd.FuriHalI2cEndStop t.2
    else ((false, []), t.2)
  let success_rx := r.1.1
  let b := furi_hal_i2c_release r.2
  ((success_tx && success_rx, r.1.2), b)

/-- Method `EEPROM24C02::writeByte`. -/
def EEPROM24C02.writeByte (self : EEPROM24C02) (memory_addr data : Nat) (b : Bus) : Bool × Bus :=
  let write_buffer := [u8 memory_addr, u8 data]
  let b := furi_hal_i2c_acquire b
  let t := furi_hal_i2c_tx_ext self._i2c_addr_8bit write_buffer
    I2cBegin.FuriHalI2cBeginStart I2cEnd.FuriHalI2cEndStop b
  let success := t.1
  let b := furi_hal_i2c_release t.2
  let b := if success then furi_delay_ms 10 b else b
  (success, b)

/-- Method `EEPROM24C02::readBytes`.  `buffer_null` says whether the destination pointer
is `nullptr`; the result carries the bytes stored into the destination. -/
def EEPROM24C02.readBytes (self : EEPROM24C02) (start_addr : Nat) (buffer_null : Bool)
    (length : Nat) (b : Bus) : (Bool × List Nat) × Bus :=
  let start_addr := u8 start_addr
  let length := u8 length
  if length = 0 ∨ buffer_null = true then ((false, []), b)
  else
    let b := furi_hal_i2c_acquire b
    let t := furi_hal_i2c_tx_ext self._i2c_addr_8bit [start_addr]
      I2cBegin.FuriHalI2cBeginStart I2cEnd.FuriHalI2cEndAwaitRestart b
    let success_tx := t.1
    let r := if success_tx then
        furi_hal_i2c_rx_ext self._i2c_addr_8bit length
          I2cBegin.FuriHalI2cBeginRestart I2cEnd.FuriHalI2cEndStop t.2
      else ((false, []), t.2)
    let success_rx := r.1.1
    let b := furi_hal_i2c_release r.2
    ((success_tx && success_rx, r.1.2), b)

/-- The `while(bytes_written < length)` loop of `EEPROM24C02::writeBytes`, with
`start_addr` and `length` already `uint8_t` values.  `buffer` is the source
pointer, seen as the map from an index to the byte read there.  The first
argument bounds the number of iterations: `none` means that the bound was
reached with the loop condition still true. -/
def EEPROM24C02.writeBytesLoop (self : EEPROM24C02) (start_addr : Nat) (buffer : Nat → Nat)
    (length : Nat) : Nat → Nat → Bus → Option (Bool × Bus)
  | 0, bytes_written, b =>
    if bytes_written < length then none else some (true, b)
  | fuel + 1, bytes_written, b =>
    if bytes_written < length then
      let current_addr := u8 (start_addr + bytes_written)
      let page_offset := u8 (current_addr % EEPROM_24C02_PAGE_SIZE)
      let bytes_in_page := u8 (EEPROM_24C02_PAGE_SIZE - page_offset)
      let bytes_to_write := u8 (if length - bytes_written < bytes_in_page
        then length - bytes_written else bytes_in_page)
      -- write_buffer[0] is the address, write_buffer[i + 1] = buffer[bytes_written + i]
      let write_buffer := u8 (start_addr + bytes_written) ::
        (List.range bytes_to_write).map (fun i => buffer (bytes_written + i))
      let b := furi_hal_i2c_acquire b
      let t := furi_hal_i2c_tx_ext self._i2c_addr_8bit (write_buffer.take (bytes_to_write + 1))
        I2cBegin.FuriHalI2cBeginStart I2cEnd.FuriHalI2cEndStop b
      let success := t.1
      let b := furi_hal_i2c_release t.2
      if !success then some (false, b)
      else
        let b := furi_delay_ms 10 b
        EEPROM24C02.writeBytesLoop self start_addr buffer length fuel
          (u8 (bytes_written + bytes_to_write)) b
    else some (true, b)

/-- Iteration bound handed to the loops of the model: more than any 8-bit loop
counter can take. -/
abbrev loopFuel : Nat := 256

/-- Method `EEPROM24C02::writeBytes`.  `buffer` is `none` for `nullptr`. -/
def EEPROM24C02.writeBytes (self : EEPROM24C02) (start_addr : Nat) (buffer : Option (Nat → Nat))
    (length : Nat) (b : Bus) : Option (Bool × Bus) :=
  let start_addr := u8 start_addr
  let length := u8 length
  match buffer with
  | none => some (false, b)
  | some buf =>
    if length = 0 then some (false, b)
    else EEPROM24C02.writeBytesLoop self start_addr buf length loopFuel 0 b

/-- The local array `uint8_t erase_buffer[EEPROM_24C02_PAGE_SIZE]` after the loop
that fills it with `0xFF`, seen through the pointer handed to `writeBytes`:
indices `0..7` are the array; an index from 8 on is outside the array and reads
whatever lies behind it in memory (`beyond`). -/
def erase_buffer (beyond : Nat → Nat) : Nat → Nat :=
  fun i => if i < EEPROM_24C02_PAGE_SIZE then 0xFF else beyond (i - EEPROM_24C02_PAGE_SIZE)

/-- The `for(uint8_t page = 0; page < SIZE / PAGE_SIZE; page++)` loop of
`EEPROM24C02::eraseAll`. -/
def EEPROM24C02.eraseAllLoop (self : EEPROM24C02) (beyond : Nat → Nat) :
    Nat → Nat → Bus → Option (Bool × Bus)
  | 0, page, b =>
    if page < EEPROM_24C02_SIZE / EEPROM_24C02_PAGE_SIZE then none else some (true, b)
  | fuel + 1, page, b =>
    if page < EEPROM_24C02_SIZE / EEPROM_24C02_PAGE_SIZE then
      let start_addr := u8 (page * EEPROM_24C02_PAGE_SIZE)
      match EEPROM24C02.writeBytes self start_addr (some (erase_buffer beyond))
          EEPROM_24C02_PAGE_SIZE b with
      | none => none
      | some (ok, b) =>
        if !ok then some (false, b)
        else EEPROM24C02.eraseAllLoop self beyond fuel (u8 (page + 1)) b
    else some (true, b)

/-- Method `EEPROM24C02::eraseAll`. -/
def EEPROM24C02.eraseAll (self : EEPROM24C02) (beyond : Nat → Nat) (b : Bus) :
    Option (Bool × Bus) :=
  EEPROM24C02.eraseAllLoop self beyond loopFuel 0 b

/-- Method `EEPROM24C02::eraseRange`. -/
def EEPROM24C02.eraseRange (self : EEPROM24C02) (beyond : Nat → Nat) (start_addr length : Nat)
    (b : Bus) : Option (Bool × Bus) :=
  let start_addr := u8 start_addr
  let length := u8 length
  if length = 0 then some (false, b)
  else
    let end_addr := u16 (start_addr + length)
    let length := if end_addr > EEPROM_24C02_SIZE then u8 (EEPROM_24C02_SIZE - start_addr)
      else length
    EEPROM24C02.writeBytes self start_addr (some (erase_buffer beyond)) length b

/-! ## Reading the log -/

/-- The payloads `[memory address, data bytes...]` of the transmit transfers of
a log, in order. -/
def txPayloads : List Event → List (List Nat)
  | [] => []
  | Event.tx _ data _ _ _ :: es => data :: txPayloads es
  | _ :: es => txPayloads es

/-- The acknowledgement flags of the transfers (transmit and receive) of a log. -/
def transferOks : List Event → List Bool
  | [] => []
  | Event.tx _ _ _ _ ok :: es => ok :: transferOks es
  | Event.rx _ _ _ _ ok :: es => ok :: transferOks es
  | _ :: es => transferOks es

/-- The actions performed between two states of the bus. -/
def eventsSince (b b1 : Bus) : List Event := b1.log.drop b.log.length

/-- A bus and chip at power-up of the model: given contents and outcomes, empty log. -/
def Bus.init (mem : Nat → Nat) (outcome : Nat → Bool) : Bus :=
  { mem := mem, ptr := 0, outcome := outcome, count := 0, log := [] }

/-- A pointer to the first byte of an array holding exactly the bytes `l`. -/
def ofList (l : List Nat) : Nat → Nat := fun i => l.getD i 0

/-! ## Auxiliary definitions of the proofs: chunks of the `writeBytes` loop -/

/-- Number of data bytes of the chunk that starts `w` bytes into the request:
`min(remaining length, page_size - page_offset)`. -/
def chunkLen (start length w : Nat) : Nat :=
  min (length - w) (EEPROM_24C02_PAGE_SIZE - (start + w) % EEPROM_24C02_PAGE_SIZE)

/-- Bytes transmitted for the chunk that starts `w` bytes into the request. -/
def chunkPayload (start : Nat) (buf : Nat → Nat) (length w : Nat) : List Nat :=
  (start + w) % 256 :: (List.range (chunkLen start length w)).map (fun i => buf (w + i))

/-- The bus after one chunk transaction: acquire, transmit, release. -/
def chunkBus (self : EEPROM24C02) (payload : List Nat) (b : Bus) : Bus :=
  furi_hal_i2c_release (furi_hal_i2c_tx_ext self._i2c_addr_8bit payload
    I2cBegin.FuriHalI2cBeginStart I2cEnd.FuriHalI2cEndStop (furi_hal_i2c_acquire b)).2

/-- Offsets into the request at which the successive chunks start, from offset
`w` on. -/
def chunkStarts (start length : Nat) : Nat → Nat → List Nat
  | 0, _ => []
  | fuel + 1, w =>
    if w < length then w :: chunkStarts start length fuel (w + chunkLen start length w) else []

/-- The effect of the loop on the bus for a given list of chunk offsets: one
transaction per chunk, then the settle delay, stopping at the first transaction
that is not acknowledged. -/
def runChunks (self : EEPROM24C02) (start : Nat) (buf : Nat → Nat) (length : Nat) :
    List Nat → Bus → Bool × Bus
  | [], b => (true, b)
  | w :: ws, b =>
    if b.outcome b.count = true then
      runChunks self start buf length ws
        (furi_delay_ms 10 (chunkBus self (chunkPayload start buf length w) b))
    else (false, chunkBus self (chunkPayload start buf length w) b)

/-- The log entries of one acknowledged chunk followed by its settle delay. -/
def chunkEvents (self : EEPROM24C02) (payload : List Nat) : List Event :=
  [Event.acquire, Event.tx self._i2c_addr_8bit payload I2cBegin.FuriHalI2cBeginStart
    I2cEnd.FuriHalI2cEndStop true, Event.release, Event.delay 10]

/-- Total number of data bytes of a list of payloads `[address, data...]`. -/
def dataBytes (ps : List (List Nat)) : Nat := (ps.map (fun p => p.length - 1)).sum

/-- The payload of the page write that `eraseAll` issues for page `p`. -/
def pagePayload (p : Nat) : List Nat := (8 * p) :: List.replicate 8 0xFF

/-- The log of a two-phase read: acquire, address phase, receive phase only
when the address phase was acknowledged, release. -/
def readEvents (dev memory_addr size : Nat) (ok_tx ok_rx : Bool) : List Event :=
  [Event.acquire,
   Event.tx dev [memory_addr] I2cBegin.FuriHalI2cBeginStart I2cEnd.FuriHalI2cEndAwaitRestart
     ok_tx] ++
  (if ok_tx = true then
    [Event.rx dev size I2cBegin.FuriHalI2cBeginRestart I2cEnd.FuriHalI2cEndStop ok_rx]
   else []) ++ [Event.release]

/-! ## The application (`i2c_24c02_app.cpp`): progressive read and erase -/

/-- Conversion of an integer value to `uint32_t`. -/
def u32 (n : Nat) : Nat := n % 4294967296

/-- Subtraction `a - b` of two `uint32_t` values, modulo `2^32`. -/
def sub32 (a b : Nat) : Nat := (u32 a + 4294967296 - u32 b) % 4294967296

/-- Text handed to the canvas.  Text produced by `snprintf` is kept as the
arguments of its format: `percent v` for `"%d%%"`, `hexLine` for
`"0x%02X: %02X %02X %02X %02X"`. -/
inductive CanvasText where
  | lit (s : String)
  | percent (v : Nat)
  | hexLine (addr b0 b1 b2 b3 : Nat)
deriving DecidableEq

/-- One call of the canvas interface while a screen is drawn. -/
inductive CanvasOp where
  | canvas_clear
  | canvas_set_font (primary : Bool)
  | canvas_draw_str (x y : Nat) (text : CanvasText)
  | canvas_draw_frame (x y w h : Nat)
  | canvas_draw_box (x y w h : Nat)
  | elements_button_left (s : String)
  | elements_button_center (s : String)
deriving DecidableEq

/-- Application states (`AppState`). -/
inductive AppState where
  | AppState_Main
  | AppState_Read
  | AppState_Write
  | AppState_LoadFile
  | AppState_ConfirmLoad
  | AppState_SaveFile
  | AppState_Delete
  | AppState_Erase
  | AppState_Settings
  | AppState_About
deriving DecidableEq

/-- Keys of an input event (`InputKey`). -/
inductive InputKey where
  | InputKeyUp
  | InputKeyDown
  | InputKeyRight
  | InputKeyLeft
  | InputKeyOk
  | InputKeyBack
deriving DecidableEq

/-- Types of an input event (`InputType`). -/
inductive InputType where
  | InputTypePress
  | InputTypeRelease
  | InputTypeShort
  | InputTypeLong
  | InputTypeRepeat
deriving DecidableEq

/-- The storage service of the firmware, as far as the application uses it:
`files path` is the content of the file at `path` if it exists; `outcome k` tells
whether the `k`-th call (open, read or write) succeeds; `count` is the number of
calls so far.  Directories are not modelled. -/
structure Storage where
  files : String → Option (List Nat)
  outcome : Nat → Bool
  count : Nat

/-- The environment of the application.
* `bus` : the I2C bus and the chip;
* `tick k` : the value the `k`-th call of `furi_get_tick` returns, and
  `ticks_read` the number of calls so far;
* `stack j` : the byte found at index `j` of a local array that has not been
  written (or behind it);
* `canvas` : the canvas calls made so far, oldest first;
* `storage` : the storage service. -/
structure Env where
  bus : Bus
  tick : Nat → Nat
  ticks_read : Nat
  stack : Nat → Nat
  canvas : List CanvasOp
  storage : Storage

/-- Model of `furi_get_tick()`: the current tick as a `uint32_t`. -/
def furi_get_tick (e : Env) : Nat × Env :=
  (u32 (e.tick e.ticks_read), { e with ticks_read := e.ticks_read + 1 })

/-- One canvas call. -/
def canvasCall (op : CanvasOp) (e : Env) : Env :=
  { e with canvas := e.canvas ++ [op] }

/-- The members of `EEPROMApp` used by the embedded functions: the progressive
operations and their screens, the file operations and the embedded branches of
the input callback. -/
structure EEPROMApp where
  current_state : AppState
  main_cursor : Nat
  i2c_address : Nat
  eeprom_connected : Bool
  running : Bool
  file_path : String
  file_loaded : Bool
  file_data : Nat → Nat
  file_size : Nat
  confirm_load_yes : Bool
  save_path : String
  eeprom : EEPROM24C02
  memory_data : Nat → Nat
  current_address : Nat
  operation_success : Bool
  show_message : Bool
  message_text : String
  message_timer : Nat
  show_progress : Bool
  progress_value : Nat
  erasing : Bool
  erase_current_addr : Nat
  erase_last_update : Nat
  reading : Bool
  read_current_addr : Nat
  read_last_update : Nat
  read_total_bytes : Nat

/-- Function `show_message(app, message, success)`; `message_text` holds 63
characters at most. -/
def show_message (app : EEPROMApp) (message : String) (success : Bool) (e : Env) :
    EEPROMApp × Env :=
  let t := furi_get_tick e
  ({ app with message_text := message.take 63,
              operation_success := success,
              show_message := true,
              message_timer := u32 (t.1 + 2000) }, t.2)

/-- The array `memory` after `bytes` have been stored from index `off` on. -/
def storeAt (memory : Nat → Nat) (off : Nat) (bytes : List Nat) : Nat → Nat :=
  fun x => if off ≤ x ∧ x < off + bytes.length then bytes.getD (x - off) 0 else memory x

/-- The local array `uint8_t erase_data[8]` of `process_erase_step` after its
first `chunk_size` entries have been set to `0xFF`, seen through the pointer
handed to `writeBytes`; the other indices were never written. -/
def erase_data (stack : Nat → Nat) (chunk_size : Nat) : Nat → Nat :=
  fun j => if j < chunk_size then 0xFF else stack j

/-- Function `process_erase_step(app)`.  `none` only when the loop bound of
the model of `writeBytes` is reached. -/
def process_erase_step (app : EEPROMApp) (e : Env) : Option (EEPROMApp × Env) :=
  let t := furi_get_tick e
  let current_time := t.1
  let e := t.2
  if sub32 current_time app.erase_last_update ≥ 50 then
    if app.erase_current_addr ≥ 255 then
      some (show_message { app with erasing := false, show_progress := false }
        "Erase Success!" true e)
    else if app.erase_current_addr ≥ 255 then
      some (show_message { app with erasing := false, show_progress := false }
        "Erase Success!" true e)
    else
      let chunk_size := u8 (if app.erase_current_addr + 8 ≤ 255 then 8
        else 255 - app.erase_current_addr)
      match app.eeprom.writeBytes app.erase_current_addr
          (some (erase_data e.stack chunk_size)) chunk_size e.bus with
      | none => none
      | some (success, bus) =>
        let e := { e with bus := bus }
        if !success then
          some (show_message { app with erasing := false, show_progress := false }
            "Erase Failed!" false e)
        else
          some ({ app with erase_current_addr := u8 (app.erase_current_addr + chunk_size),
                           progress_value := u8 (app.erase_current_addr + chunk_size),
                           erase_last_update := current_time }, e)
  else some (app, e)

/-- Function `process_read_step(app)`. -/
def process_read_step (app : EEPROMApp) (e : Env) : EEPROMApp × Env :=
  let t := furi_get_tick e
  let current_time := t.1
  let e := t.2
  if sub32 current_time app.read_last_update ≥ 30 then
    if app.read_current_addr ≥ app.read_total_bytes then
      show_message { app with reading := false, show_progress := false } "" true e
    else
      let chunk_size := u8 (if app.read_current_addr + 16 ≤ app.read_total_bytes then 16
        else app.read_total_bytes - app.read_current_addr)
      let r := app.eeprom.readBytes app.read_current_addr false chunk_size e.bus
      let success := r.1.1
      let app := { app with memory_data := storeAt app.memory_data app.read_current_addr r.1.2 }
      let e := { e with bus := r.2 }
      if !success then
        show_message { app with reading := false, show_progress := false } "Read Failed!" false e
      else
        ({ app with read_current_addr := u8 (app.read_current_addr + chunk_size),
                    progress_value := u8 (app.read_current_addr + chunk_size),
                    read_last_update := current_time }, e)
  else (app, e)

/-- Function `read_memory_range(app)`: starts the progressive read. -/
def read_memory_range (app : EEPROMApp) (e : Env) : (Bool × EEPROMApp) × Env :=
  let t := furi_get_tick e
  ((true, { app with reading := true,
                     read_current_addr := 0,
                     read_last_update := t.1,
                     show_progress := true,
                     progress_value := 0,
                     read_total_bytes := 255 }), t.2)

/-- Function `erase_memory_range(app, start_addr, length)`: starts the
progressive erase; both arguments are unused. -/
def erase_memory_range (app : EEPROMApp) (_start_addr _length : Nat) (e : Env) :
    (Bool × EEPROMApp) × Env :=
  let t := furi_get_tick e
  ((true, { app with erasing := true,
                     erase_current_addr := 0,
                     erase_last_update := t.1,
                     show_progress := true,
                     progress_value := 0 }), t.2)

/-- Division of the C++ code: `none` stands for a division by zero. -/
def cdiv (a b : Nat) : Option Nat := if b = 0 then none else some (a / b)

/-- The hex dump loop of `draw_read_screen`:
`for(i = 0; i < 3 && current_address + i * 4 < 256; i++)`. -/
def drawHexDump (app : EEPROMApp) : Nat → Nat → Env → Env
  | 0, _, e => e
  | fuel + 1, i, e =>
    if i < 3 ∧ app.current_address + i * 4 < 256 then
      let addr := u8 (app.current_address + i * 4)
      let e := canvasCall (CanvasOp.canvas_draw_str 2 (22 + i * 9)
        (CanvasText.hexLine addr (app.memory_data addr) (app.memory_data (addr + 1))
          (app.memory_data (addr + 2)) (app.memory_data (addr + 3)))) e
      drawHexDump app fuel (u8 (i + 1)) e
    else e

/-- The message line of a screen:
`if(app->show_message && furi_get_tick() < app->message_timer)`. -/
def drawMessage (app : EEPROMApp) (x y : Nat) (e : Env) : Env :=
  if app.show_message = true then
    let t := furi_get_tick e
    if t.1 < app.message_timer then
      canvasCall (CanvasOp.canvas_draw_str x y (CanvasText.lit app.message_text)) t.2
    else t.2
  else e

/-- Function `draw_read_screen(canvas, app)`: one redraw tick of the read
screen.  `none` stands for the division by zero in the progress bar. -/
def draw_read_screen (app : EEPROMApp) (e : Env) : Option (EEPROMApp × Env) :=
  let e := canvasCall CanvasOp.canvas_clear e
  let e := canvasCall (CanvasOp.canvas_set_font true) e
  let e := canvasCall (CanvasOp.canvas_draw_str 2 10 (CanvasText.lit "Read Memory")) e
  let s := if app.reading = true then process_read_step app e else (app, e)
  let app := s.1
  let e := s.2
  let e := canvasCall (CanvasOp.canvas_set_font false) e
  let r : Option Env :=
    if app.show_progress = true ∧ app.reading = true then
      let e := canvasCall (CanvasOp.canvas_draw_str 2 24 (CanvasText.lit "Reading EEPROM...")) e
      let e := canvasCall (CanvasOp.canvas_draw_frame 12 32 100 7) e
      match cdiv (app.progress_value * 98) app.read_total_bytes,
          cdiv (app.progress_value * 100) app.read_total_bytes with
      | some w, some pct =>
        let fill_width := u8 w
        let e := if fill_width > 0 then canvasCall (CanvasOp.canvas_draw_box 13 33 fill_width 5) e
          else e
        some (canvasCall (CanvasOp.canvas_draw_str 54 48 (CanvasText.percent pct)) e)
      | _, _ => none
    else
      let e := drawHexDump app 3 0 e
      some (drawMessage app 2 48 e)
  match r with
  | none => none
  | some e =>
    let e := canvasCall (CanvasOp.elements_button_left "Back") e
    some (app, canvasCall (CanvasOp.elements_button_center "Read") e)

/-- Function `draw_erase_screen(canvas, app)`: one redraw tick of the erase
screen.  `none` only when the loop bound of the model of `writeBytes` is
reached. -/
def draw_erase_screen (app : EEPROMApp) (e : Env) : Option (EEPROMApp × Env) :=
  let e := canvasCall CanvasOp.canvas_clear e
  let e := canvasCall (CanvasOp.canvas_set_font true) e
  let e := canvasCall (CanvasOp.canvas_draw_str 2 10 (CanvasText.lit "Erase Memory")) e
  let e := canvasCall (CanvasOp.canvas_set_font false) e
  let e := canvasCall (CanvasOp.canvas_draw_str 2 24 (CanvasText.lit "Erase all to 0xFF")) e
  match (if app.erasing = true then process_erase_step app e else some (app, e)) with
  | none => none
  | some (app, e) =>
    if app.show_progress = true then
      let e := canvasCall (CanvasOp.canvas_draw_frame 12 34 100 7) e
      let fill_width := u8 ((app.progress_value * 98) / 255)
      let e := if fill_width > 0 then canvasCall (CanvasOp.canvas_draw_box 13 35 fill_width 5) e
        else e
      some (app, canvasCall (CanvasOp.canvas_draw_str 54 46
        (CanvasText.percent ((app.progress_value * 100) / 255))) e)
    else
      let e := drawMessage app 2 36 e
      let e := canvasCall (CanvasOp.elements_button_left "Back") e
      some (app, canvasCall (CanvasOp.elements_button_center "Erase") e)

/-- Repeated calls of `process_read_step`. -/
def readSteps : Nat → EEPROMApp → Env → EEPROMApp × Env
  | 0, app, e => (app, e)
  | n + 1, app, e => readSteps n (process_read_step app e).1 (process_read_step app e).2

/-- Whether each of the next `n` calls of `process_read_step` finds its
throttle interval elapsed (`current_time - read_last_update >= 30`). -/
def readStepsDue : Nat → EEPROMApp → Env → Bool
  | 0, _, _ => true
  | n + 1, app, e =>
    decide (sub32 (furi_get_tick e).1 app.read_last_update ≥ 30) &&
      readStepsDue n (process_read_step app e).1 (process_read_step app e).2

/-- Repeated redraw ticks of the read screen. -/
def readRedraws : Nat → EEPROMApp → Env → Option (EEPROMApp × Env)
  | 0, app, e => some (app, e)
  | n + 1, app, e =>
    match draw_read_screen app e with
    | none => none
    | some (app, e) => readRedraws n app e

/-- Repeated redraw ticks of the erase screen. -/
def eraseRedraws : Nat → EEPROMApp → Env → Option (EEPROMApp × Env)
  | 0, app, e => some (app, e)
  | n + 1, app, e =>
    match draw_erase_screen app e with
    | none => none
    | some (app, e) => eraseRedraws n app e

/-- The sizes requested by the receive transfers of a log, in order. -/
def rxSizes : List Event → List Nat
  | [] => []
  | Event.rx _ size _ _ _ :: es => size :: rxSizes es
  | _ :: es => rxSizes es

/-- An application state for the examples: driver at `0x50`, nothing running. -/
def sampleApp : EEPROMApp :=
  { current_state := AppState.AppState_Main, main_cursor := 0, i2c_address := 0x50,
    eeprom_connected := true, running := true, file_path := "", file_loaded := false,
    file_data := fun _ => 0, file_size := 0, confirm_load_yes := false, save_path := "",
    eeprom := EEPROM24C02.new 0x50, memory_data := fun _ => 0xFF, current_address := 0,
    operation_success := false, show_message := false, message_text := "", message_timer := 0,
    show_progress := false, progress_value := 0, erasing := false, erase_current_addr := 0,
    erase_last_update := 0, reading := false, read_current_addr := 0, read_last_update := 0,
    read_total_bytes := 0 }

/-- An application state for the examples: a read and an erase in progress at
cursor 0, both last stepped at tick 100. -/
def sampleBusy : EEPROMApp :=
  { sampleApp with reading := true, read_total_bytes := 255, read_last_update := 100,
                   erasing := true, erase_last_update := 100, show_progress := true }

/-- An environment for the examples: chip contents `mem`, bus outcomes
`outcome`, clock values `tick`, nothing drawn yet, no file stored, every storage
call succeeding. -/
def Env.init (mem : Nat → Nat) (outcome : Nat → Bool) (tick : Nat → Nat) : Env :=
  { bus := Bus.init mem outcome, tick := tick, ticks_read := 0, stack := fun _ => 0,
    canvas := [],
    storage := { files := fun _ => none, outcome := fun _ => true, count := 0 } }

/-- An environment for the examples: every transfer acknowledged, the `k`-th
clock reading is `100 * (k + 2)`. -/
def sampleEnvOk : Env := Env.init (fun x => x) (fun _ => true) (fun k => 100 * (k + 2))

/-- An environment for the examples: no transfer acknowledged, the `k`-th clock
reading is `100 * (k + 2)`. -/
def sampleEnvFail : Env := Env.init (fun x => x) (fun _ => false) (fun k => 100 * (k + 2))

/-! ## Predicates on logs and repeated erase steps -/

/-- Bus discipline of a log, read from a state `held` (whether the bus is
acquired): acquire only while released, release only while held, transmit and
receive only while held, delay only while released, and the log ends with the
bus released. -/
def busDiscipline : Bool → List Event → Bool
  | held, [] => !held
  | false, Event.acquire :: es => busDiscipline true es
  | true, Event.release :: es => busDiscipline false es
  | true, Event.tx _ _ _ _ _ :: es => busDiscipline true es
  | true, Event.rx _ _ _ _ _ :: es => busDiscipline true es
  | false, Event.delay _ :: es => busDiscipline false es
  | _, _ :: _ => false

/-- Whether a log is a sequence of blocks acquire, one transmit, release, each
optionally followed by delays: every acquire/release pair encloses exactly one
transaction.  The state is 0 (released), 1 (acquired, nothing sent yet) or 2
(acquired, transaction done). -/
def oneChunkPerHold : Nat → List Event → Bool
  | s, [] => decide (s = 0)
  | 0, Event.acquire :: es => oneChunkPerHold 1 es
  | 0, Event.delay _ :: es => oneChunkPerHold 0 es
  | 1, Event.tx _ _ _ _ _ :: es => oneChunkPerHold 2 es
  | 2, Event.release :: es => oneChunkPerHold 0 es
  | _, _ :: _ => false

/-- Repeated calls of `process_erase_step`. -/
def eraseSteps : Nat → EEPROMApp → Env → Option (EEPROMApp × Env)
  | 0, app, e => some (app, e)
  | n + 1, app, e =>
    match process_erase_step app e with
    | none => none
    | some (app, e) => eraseSteps n app e

/-- An application state for the examples: both operations last stepped at tick
`2^32 - 6`, shortly before the tick counter wraps. -/
def sampleWrapped : EEPROMApp :=
  { sampleBusy with read_last_update := 4294967290, erase_last_update := 4294967290 }

/-- An environment for the examples: every transfer acknowledged, the clock
reads 34 (40 ticks after `2^32 - 6`). -/
def sampleEnvWrapped : Env := Env.init (fun x => x) (fun _ => true) (fun _ => 34)

/-- An environment for the examples: a chip holding `0x00` everywhere, every
transfer acknowledged, the `k`-th clock reading is `100 * (k + 2)`. -/
def sampleEnvZero : Env := Env.init (fun _ => 0) (fun _ => true) (fun k => 100 * (k + 2))

/-! ## File operations and callbacks of the application -/

/-- Model of `storage_file_open(file, path, FSAM_WRITE, FSOM_CREATE_ALWAYS)`:
when the call succeeds the file exists and is empty. -/
def storage_file_open_write (path : String) (st : Storage) : Bool × Storage :=
  let ok := st.outcome st.count
  (ok, { st with files := if ok then (fun p => if p = path then some [] else st.files p)
                          else st.files,
                 count := st.count + 1 })

/-- Model of `storage_file_open(file, path, FSAM_READ, FSOM_OPEN_EXISTING)`:
succeeds only on an existing file. -/
def storage_file_open_read (path : String) (st : Storage) : Bool × Storage :=
  (st.outcome st.count && (st.files path).isSome, { st with count := st.count + 1 })

/-- Model of `storage_file_size(file)` for the open file at `path`. -/
def storage_file_size (path : String) (st : Storage) : Nat :=
  ((st.files path).getD []).length

/-- Model of `storage_file_write(file, data, size)` on the file just created at
`path`: returns the number of bytes written, all of them when the call succeeds,
none otherwise. -/
def storage_file_write (path : String) (data : List Nat) (st : Storage) : Nat × Storage :=
  let ok := st.outcome st.count
  (if ok then data.length else 0,
   { st with files := if ok then (fun p => if p = path then some data else st.files p)
                      else st.files,
             count := st.count + 1 })

/-- Model of `storage_file_read(file, buffer, size)` on the file just opened at
`path`: returns the bytes read, the first `size` bytes of the file (fewer when the
file is shorter) when the call succeeds, none otherwise. -/
def storage_file_read (path : String) (size : Nat) (st : Storage) : List Nat × Storage :=
  (if st.outcome st.count then ((st.files path).getD []).take size else [],
   { st with count := st.count + 1 })

/-- Function `save_memory_to_file(app)`.  `ensure_app_directory` only creates a
directory and has no effect on the model. -/
def save_memory_to_file (app : EEPROMApp) (e : Env) : (Bool × EEPROMApp) × Env :=
  let r := app.eeprom.readBytes 0 false 255 e.bus
  let app := { app with memory_data := storeAt app.memory_data 0 r.1.2 }
  let e := { e with bus := r.2 }
  if r.1.1 = true then
    let p := if app.save_path = "" then
        let t := furi_get_tick e
        ("/ext/24cxxprog/eeprom_backup_" ++ toString t.1 ++ ".bin", t.2)
      else (app.save_path, e)
    let save_path := p.1
    let e := p.2
    let o := storage_file_open_write save_path e.storage
    let e := { e with storage := o.2 }
    if o.1 = true then
      let w := storage_file_write save_path ((List.range 255).map app.memory_data) e.storage
      let e := { e with storage := w.2 }
      if w.1 = 255 then
        let m := show_message app "Memory saved!" true e
        ((true, { m.1 with current_state := AppState.AppState_Main }), m.2)
      else
        let m := show_message app "Write error!" false e
        ((false, m.1), m.2)
    else
      let m := show_message app "Cannot create file!" false e
      ((false, m.1), m.2)
  else
    let m := show_message app "Read error!" false e
    ((false, m.1), m.2)

/-- Function `load_file_from_sd(app)`. -/
def load_file_from_sd (app : EEPROMApp) (e : Env) : (Bool × EEPROMApp) × Env :=
  let o := storage_file_open_read app.file_path e.storage
  let e := { e with storage := o.2 }
  if o.1 = true then
    let size := storage_file_size app.file_path e.storage
    let size := if size > 256 then 256 else size
    let app := { app with file_size := u8 size }
    let r := storage_file_read app.file_path app.file_size e.storage
    let app := { app with file_data := storeAt app.file_data 0 r.1 }
    let e := { e with storage := r.2 }
    if r.1.length = app.file_size then
      ((true, { app with file_loaded := true }), e)
    else
      let m := show_message app "Read error!" false e
      ((false, m.1), m.2)
  else
    let m := show_message app "File not found!" false e
    ((false, m.1), m.2)

/-- Function `eeprom_app_alloc()`, for the members of the model.  `raw` is the
content of the memory returned by `malloc`: members the function does not
initialise keep it, among them `memory_data[255]`. -/
def eeprom_app_alloc (raw : EEPROMApp) (e : Env) : EEPROMApp × Env :=
  let eeprom := EEPROM24C02.new 0x50
  let r := eeprom.isAvailable e.bus
  ({ raw with
      i2c_address := 0x50,
      eeprom := eeprom,
      eeprom_connected := r.1,
      running := true,
      current_state := AppState.AppState_Main,
      main_cursor := 0,
      current_address := 0,
      show_message := false,
      show_progress := false,
      progress_value := 0,
      erasing := false,
      erase_current_addr := 0,
      erase_last_update := 0,
      reading := false,
      read_current_addr := 0,
      read_last_update := 0,
      read_total_bytes := 0,
      file_path := "",
      file_loaded := false,
      file_size := 0,
      confirm_load_yes := false,
      save_path := "",
      memory_data := fun i => if i < 255 then 0xFF else raw.memory_data i },
   { e with bus := r.2 })

/-- Function `eeprom_input_callback(input_event, context)`, for the branches
that use only members of the model: the main menu (except the items Write,
Load File and Delete), the read screen, the load confirmation, the erase screen
and the about screen.  `none` stands for a branch that is not embedded, or for
the loop bound of the model of `writeBytes`. -/
def eeprom_input_callback (type : InputType) (key : InputKey) (app : EEPROMApp) (e : Env) :
    Option (EEPROMApp × Env) :=
  let r : Option (EEPROMApp × Env) :=
    if type = InputType.InputTypeShort ∨ type = InputType.InputTypeRepeat then
      match app.current_state with
      | AppState.AppState_Main =>
        match key with
        | InputKey.InputKeyUp =>
          some (if app.main_cursor > 0 then { app with main_cursor := u8 (app.main_cursor - 1) }
            else app, e)
        | InputKey.InputKeyDown =>
          some (if app.main_cursor < 7 then { app with main_cursor := u8 (app.main_cursor + 1) }
            else app, e)
        | InputKey.InputKeyOk =>
          if app.main_cursor = 0 then
            let s := read_memory_range { app with current_state := AppState.AppState_Read } e
            some (s.1.2, s.2)
          else if app.main_cursor = 3 then
            some ({ app with current_state := AppState.AppState_SaveFile }, e)
          else if app.main_cursor = 5 then
            some ({ app with current_state := AppState.AppState_Erase }, e)
          else if app.main_cursor = 6 then
            some ({ app with current_state := AppState.AppState_Settings }, e)
          else if app.main_cursor = 7 then
            some ({ app with current_state := AppState.AppState_About }, e)
          else if app.main_cursor = 1 ∨ app.main_cursor = 2 ∨ app.main_cursor = 4 then none
          else some (app, e)
        | _ => some (app, e)
      | AppState.AppState_Read =>
        match key with
        | InputKey.InputKeyUp =>
          some (if app.current_address > 0 then
            { app with current_address := u8 (app.current_address + 256 - 4) } else app, e)
        | InputKey.InputKeyDown =>
          some (if app.current_address < 252 then
            { app with current_address := u8 (app.current_address + 4) } else app, e)
        | InputKey.InputKeyOk =>
          let s := read_memory_range app e
          some (s.1.2, s.2)
        | InputKey.InputKeyBack => some ({ app with current_state := AppState.AppState_Main }, e)
        | _ => some (app, e)
      | AppState.AppState_ConfirmLoad =>
        match key with
        | InputKey.InputKeyLeft => some ({ app with confirm_load_yes := true }, e)
        | InputKey.InputKeyRight => some ({ app with confirm_load_yes := false }, e)
        | InputKey.InputKeyOk =>
          if app.confirm_load_yes = true then
            match app.eeprom.writeBytes 0 (some app.file_data) app.file_size e.bus with
            | none => none
            | some (success, bus) =>
              let e := { e with bus := bus }
              if success = true then
                let m := show_message app "File written to EEPROM!" true e
                some ({ m.1 with
                  memory_data := fun i => if i < 256 then m.1.file_data i else m.1.memory_data i,
                  current_state := AppState.AppState_Main }, m.2)
              else
                let m := show_message app "Write failed!" false e
                some ({ m.1 with current_state := AppState.AppState_Main }, m.2)
          else some ({ app with current_state := AppState.AppState_Main }, e)
        | InputKey.InputKeyBack => some ({ app with current_state := AppState.AppState_Main }, e)
        | _ => some (app, e)
      | AppState.AppState_Erase =>
        match key with
        | InputKey.InputKeyOk =>
          let s := erase_memory_range app 0 255 e
          some (s.1.2, s.2)
        | InputKey.InputKeyBack => some ({ app with current_state := AppState.AppState_Main }, e)
        | _ => some (app, e)
      | AppState.AppState_About =>
        if key = InputKey.InputKeyOk ∨ key = InputKey.InputKeyBack then
          some ({ app with current_state := AppState.AppState_Main }, e)
        else some (app, e)
      | _ => none
    else some (app, e)
  match r with
  | none => none
  | some (app, e) =>
    if type = InputType.InputTypeLong ∧ key = InputKey.InputKeyBack then
      some ({ app with running := false }, e)
    else some (app, e)

/-- Function `eeprom_draw_callback(canvas, context)`, for the read screen and
the erase screen; `none` for the screens that are not embedded (and as in
`draw_read_screen`, `draw_erase_screen`). -/
def eeprom_draw_callback (app : EEPROMApp) (e : Env) : Option (EEPROMApp × Env) :=
  match app.current_state with
  | AppState.AppState_Read => draw_read_screen app e
  | AppState.AppState_Erase => draw_erase_screen app e
  | _ => none

/-- What the GUI delivers to the application: a short press of a key, or a
redraw tick. -/
inductive UiEvent where
  | press (key : InputKey)
  | redraw
deriving DecidableEq

/-- The application state after a sequence of GUI events. -/
def runEvents : List UiEvent → EEPROMApp → Env → Option (EEPROMApp × Env)
  | [], app, e => some (app, e)
  | UiEvent.press key :: evs, app, e =>
    match eeprom_input_callback InputType.InputTypeShort key app e with
    | none => none
    | some (app, e) => runEvents evs app e
  | UiEvent.redraw :: evs, app, e =>
    match eeprom_draw_callback app e with
    | none => none
    | some (app, e) => runEvents evs app e

/-- An environment for the examples: as `sampleEnvOk`, with a file `dump.bin` of
`size` bytes `0, 1, 2, ...` (modulo 256). -/
def sampleEnvFile (size : Nat) : Env :=
  { sampleEnvOk with
    storage := { files := fun p => if p = "/ext/24cxxprog/dump.bin"
                    then some ((List.range size).map (fun i => i % 256)) else none,
                 outcome := fun _ => true, count := 0 } }

/-- A sequence of key presses and redraw ticks for the examples: start the erase
from the erase screen, leave the screen, then enter the read screen. -/
def traceEraseThenRead : List UiEvent :=
  List.replicate 5 (UiEvent.press InputKey.InputKeyDown) ++
  [UiEvent.press InputKey.InputKeyOk, UiEvent.press InputKey.InputKeyOk,
   UiEvent.press InputKey.InputKeyBack] ++
  List.replicate 5 (UiEvent.press InputKey.InputKeyUp) ++
  [UiEvent.press InputKey.InputKeyOk]

/-- A sequence of key presses and redraw ticks for the examples: enter the read
screen (which starts the read), let one redraw tick pass, leave it and enter the
erase screen, where one redraw tick passes. -/
def traceReadThenEraseScreen : List UiEvent :=
  [UiEvent.press InputKey.InputKeyOk, UiEvent.redraw, UiEvent.press InputKey.InputKeyBack] ++
  List.replicate 5 (UiEvent.press InputKey.InputKeyDown) ++
  [UiEvent.press InputKey.InputKeyOk, UiEvent.redraw]

/-! # Theorems

## One iteration of the `writeBytes` loop and the loop as a run over the chunk offsets -/

theorem chunkLen_pos (start : Nat) {length w : Nat} (hw : w < length) : 0 < chunkLen start length w := by
  unfold chunkLen
  have := Nat.mod_lt (start + w) (show 0 < EEPROM_24C02_PAGE_SIZE by decide)
  omega

theorem chunkLen_le_rem (start length w : Nat) : chunkLen start length w ≤ length - w := by
  unfold chunkLen; exact Nat.min_le_left _ _

theorem chunkLen_le_page (start length w : Nat) :
    (start + w) % 8 + chunkLen start length w ≤ 8 := by
  unfold chunkLen
  have := Nat.mod_lt (start + w) (show 0 < EEPROM_24C02_PAGE_SIZE by decide)
  simp only [EEPROM_24C02_PAGE_SIZE] at *
  omega

theorem writeBytesLoop_step (self : EEPROM24C02) (start length fuel w : Nat) (buf : Nat → Nat)
    (b : Bus) (hl : length < 256) (hw : w < length) :
    self.writeBytesLoop start buf length (fuel + 1) w b =
      if b.outcome b.count = true then
        self.writeBytesLoop start buf length fuel (w + chunkLen start length w)
          (furi_delay_ms 10 (chunkBus self (chunkPayload start buf length w) b))
      else some (false, chunkBus self (chunkPayload start buf length w) b) := by
  have hc1 := chunkLen_le_rem start length w
  have hc2 := chunkLen_le_page start length w
  have hlen : u8 (if length - w < u8 (EEPROM_24C02_PAGE_SIZE -
      u8 (u8 (start + w) % EEPROM_24C02_PAGE_SIZE)) then length - w
      else u8 (EEPROM_24C02_PAGE_SIZE - u8 (u8 (start + w) % EEPROM_24C02_PAGE_SIZE)))
      = chunkLen start length w := by
    unfold chunkLen u8
    simp only [EEPROM_24C02_PAGE_SIZE]
    split <;> omega
  have hnext : u8 (w + chunkLen start length w) = w + chunkLen start length w := by
    unfold u8; omega
  rw [EEPROM24C02.writeBytesLoop]
  simp only [hw, if_true, hlen, hnext]
  have hpay : (u8 (start + w) :: (List.range (chunkLen start length w)).map
      (fun i => buf (w + i))).take (chunkLen start length w + 1)
      = chunkPayload start buf length w := by
    unfold chunkPayload u8
    rw [List.take_succ_cons, List.take_of_length_le (by simp)]
  rw [hpay]
  cases h : b.outcome b.count <;>
    simp [chunkBus, furi_hal_i2c_tx_ext, furi_hal_i2c_acquire, h]

theorem writeBytesLoop_eq_run (self : EEPROM24C02) (start length : Nat) (buf : Nat → Nat)
    (hl : length < 256) :
    ∀ (fuel w : Nat) (b : Bus), length - w ≤ fuel →
      self.writeBytesLoop start buf length fuel w b =
        some (runChunks self start buf length (chunkStarts start length fuel w) b) := by
  intro fuel
  induction fuel with
  | zero =>
    intro w b h
    have hw : ¬ w < length := by omega
    simp [EEPROM24C02.writeBytesLoop, chunkStarts, runChunks, hw]
  | succ fuel ih =>
    intro w b h
    by_cases hw : w < length
    · rw [writeBytesLoop_step self start length fuel w buf b hl hw]
      have hpos := chunkLen_pos start hw
      simp only [chunkStarts, hw, if_true, runChunks]
      split
      · exact ih _ _ (by omega)
      · rfl
    · simp [EEPROM24C02.writeBytesLoop, chunkStarts, runChunks, hw]

/-! ### Fields of the bus after a chunk -/

theorem chunkBus_log (self : EEPROM24C02) (payload : List Nat) (b : Bus) :
    (chunkBus self payload b).log = b.log ++ [Event.acquire,
      Event.tx self._i2c_addr_8bit payload I2cBegin.FuriHalI2cBeginStart
        I2cEnd.FuriHalI2cEndStop (b.outcome b.count), Event.release] := by
  simp [chunkBus, furi_hal_i2c_release, furi_hal_i2c_tx_ext, furi_hal_i2c_acquire]

theorem chunkBus_count (self : EEPROM24C02) (payload : List Nat) (b : Bus) :
    (chunkBus self payload b).count = b.count + 1 := by
  simp [chunkBus, furi_hal_i2c_release, furi_hal_i2c_tx_ext, furi_hal_i2c_acquire]

theorem chunkBus_outcome (self : EEPROM24C02) (payload : List Nat) (b : Bus) :
    (chunkBus self payload b).outcome = b.outcome := by
  simp only [chunkBus, furi_hal_i2c_release, furi_hal_i2c_tx_ext, furi_hal_i2c_acquire]
  split <;> cases payload <;> rfl

theorem chunkBus_mem (self : EEPROM24C02) (a : Nat) (ds : List Nat) (b : Bus)
    (h : b.outcome b.count = true) :
    (chunkBus self (a :: ds) b).mem = (deviceStore ds (b.mem, a % 256)).1 := by
  simp [chunkBus, furi_hal_i2c_release, furi_hal_i2c_tx_ext, furi_hal_i2c_acquire, h,
    deviceWrite]

theorem txPayloads_append (l1 l2 : List Event) :
    txPayloads (l1 ++ l2) = txPayloads l1 ++ txPayloads l2 := by
  induction l1 with
  | nil => rfl
  | cons e es ih => cases e <;> simp [txPayloads, ih]

theorem eventsSince_append (b b1 : Bus) (evs : List Event) (h : b1.log = b.log ++ evs) :
    eventsSince b b1 = evs := by
  simp [eventsSince, h]

/-- On a bus that acknowledges everything the run over the chunk list succeeds;
its log grows by the events of the chunks, the transfer counter by their number. -/
theorem runChunks_ok (self : EEPROM24C02) (start : Nat) (buf : Nat → Nat) (length : Nat) :
    ∀ (ws : List Nat) (b : Bus), (∀ k, b.outcome k = true) →
      (runChunks self start buf length ws b).1 = true ∧
      (runChunks self start buf length ws b).2.log = b.log ++
        ws.flatMap (fun w => chunkEvents self (chunkPayload start buf length w)) ∧
      (runChunks self start buf length ws b).2.outcome = b.outcome := by
  intro ws
  induction ws with
  | nil => intro b _; simp [runChunks]
  | cons w ws ih =>
    intro b hok
    have hout : (furi_delay_ms 10 (chunkBus self (chunkPayload start buf length w) b)).outcome
        = b.outcome := by
      simp [furi_delay_ms, chunkBus_outcome]
    obtain ⟨h1, h2, h3⟩ := ih (furi_delay_ms 10 (chunkBus self (chunkPayload start buf length w) b))
      (by intro k; rw [hout]; exact hok k)
    simp only [runChunks, hok b.count, if_true]
    refine ⟨h1, ?_, by rw [h3, hout]⟩
    rw [h2]
    simp [furi_delay_ms, chunkBus_log, hok b.count, chunkEvents, List.flatMap_cons]

theorem txPayloads_flatMap_chunkEvents (self : EEPROM24C02) (f : Nat → List Nat) (ws : List Nat) :
    txPayloads (ws.flatMap (fun w => chunkEvents self (f w))) = ws.map f := by
  induction ws with
  | nil => rfl
  | cons w ws ih =>
    rw [List.flatMap_cons, txPayloads_append, ih]
    simp [chunkEvents, txPayloads]

/-! ### Arithmetic of the chunk offsets -/

theorem chunkStarts_succ (start length fuel w : Nat) (hw : w < length) :
    chunkStarts start length (fuel + 1) w =
      w :: chunkStarts start length fuel (w + chunkLen start length w) := by
  simp only [chunkStarts, hw, if_true]

theorem chunkStarts_mem (start length : Nat) :
    ∀ (fuel w x : Nat), x ∈ chunkStarts start length fuel w → w ≤ x ∧ x < length := by
  intro fuel
  induction fuel with
  | zero => intro w x h; simp [chunkStarts] at h
  | succ fuel ih =>
    intro w x h
    by_cases hw : w < length
    · simp only [chunkStarts, hw, if_true, List.mem_cons] at h
      rcases h with h | h
      · omega
      · have := ih _ _ h
        omega
    · simp [chunkStarts, hw] at h

theorem chunkStarts_length (start length : Nat) :
    ∀ (fuel w : Nat), length - w ≤ fuel → w < length →
      (chunkStarts start length fuel w).length = ((start + w) % 8 + (length - w) + 7) / 8 := by
  intro fuel
  induction fuel with
  | zero => intro w h hw; omega
  | succ fuel ih =>
    intro w h hw
    have hpos := chunkLen_pos start hw
    have hrem := chunkLen_le_rem start length w
    have hpage := chunkLen_le_page start length w
    simp only [chunkStarts, hw, if_true, List.length_cons]
    by_cases hnext : w + chunkLen start length w < length
    · rw [ih _ (by omega) hnext]
      have hfull : chunkLen start length w = 8 - (start + w) % 8 := by
        unfold chunkLen at hnext ⊢; simp only [EEPROM_24C02_PAGE_SIZE] at hnext ⊢; omega
      omega
    · have hlast : chunkLen start length w = length - w := by omega
      cases fuel with
      | zero => simp only [chunkStarts, List.length_nil]; omega
      | succ f => simp only [chunkStarts, hnext, if_false, List.length_nil]; omega

theorem chunkStarts_getElem (start length : Nat) :
    ∀ (fuel w i x : Nat), (chunkStarts start length fuel w)[i]? = some x →
      x = w + (((chunkStarts start length fuel w).take i).map (chunkLen start length)).sum := by
  intro fuel
  induction fuel with
  | zero => intro w i x h; simp [chunkStarts] at h
  | succ fuel ih =>
    intro w i x h
    by_cases hw : w < length
    · simp only [chunkStarts, hw, if_true] at h ⊢
      cases i with
      | zero => simp at h; simp [h]
      | succ i =>
        simp only [List.getElem?_cons_succ] at h
        have := ih _ _ _ h
        simp only [List.take_succ_cons, List.map_cons, List.sum_cons]
        omega
    · simp [chunkStarts, hw] at h

theorem chunkStarts_data (start length : Nat) (buf : Nat → Nat) :
    ∀ (fuel w : Nat), length - w ≤ fuel →
      ((chunkStarts start length fuel w).map (fun x =>
          (List.range (chunkLen start length x)).map (fun i => buf (x + i)))).flatten =
        (List.range (length - w)).map (fun i => buf (w + i)) := by
  intro fuel
  induction fuel with
  | zero =>
    intro w h
    have : length - w = 0 := by omega
    simp [chunkStarts, this]
  | succ fuel ih =>
    intro w h
    by_cases hw : w < length
    · have hpos := chunkLen_pos start hw
      have hrem := chunkLen_le_rem start length w
      simp only [chunkStarts, hw, if_true, List.map_cons, List.flatten_cons]
      rw [ih _ (by omega)]
      have hsplit : length - w = chunkLen start length w + (length - (w + chunkLen start length w)) := by
        omega
      conv_rhs => rw [hsplit, List.range_add, List.map_append]
      congr 1
      simp only [List.map_map]
      apply List.map_congr_left
      intro i _
      simp [Nat.add_assoc]
    · have : length - w = 0 := by omega
      simp [chunkStarts, hw, this]

/-! ### `writeBytes` on a well-formed request -/

theorem writeBytes_eq_run (self : EEPROM24C02) (a n : Nat) (buf : Nat → Nat) (b : Bus)
    (ha : a < 256) (hn1 : 1 ≤ n) (hn : n < 256) :
    self.writeBytes a (some buf) n b =
      some (runChunks self a buf n (chunkStarts a n loopFuel 0) b) := by
  have h1 : u8 a = a := Nat.mod_eq_of_lt ha
  have h2 : u8 n = n := Nat.mod_eq_of_lt hn
  have h3 : n ≠ 0 := by omega
  simp only [EEPROM24C02.writeBytes, h1, h2, h3, if_false]
  exact writeBytesLoop_eq_run self a n buf hn loopFuel 0 b (by simp only [loopFuel]; omega)

/-- On a bus that acknowledges everything, a well-formed `writeBytes` returns
`true` and the transmitted payloads are those of the chunk list. -/
theorem writeBytes_ok (self : EEPROM24C02) (a n : Nat) (buf : Nat → Nat) (b : Bus)
    (ha : a < 256) (hn1 : 1 ≤ n) (hn : n < 256) (hok : ∀ k, b.outcome k = true) :
    ∃ b1, self.writeBytes a (some buf) n b = some (true, b1) ∧
      txPayloads (eventsSince b b1) =
        (chunkStarts a n loopFuel 0).map (chunkPayload a buf n) := by
  obtain ⟨r1, r2, _⟩ := runChunks_ok self a buf n (chunkStarts a n loopFuel 0) b hok
  refine ⟨(runChunks self a buf n (chunkStarts a n loopFuel 0) b).2, ?_, ?_⟩
  · rw [writeBytes_eq_run self a n buf b ha hn1 hn, ← r1]
  · rw [eventsSince_append _ _ _ r2, txPayloads_flatMap_chunkEvents]

/-! ## Page splitting of `writeBytes` -/

theorem chunkPayload_mem_shape (a n : Nat) (buf : Nat → Nat) (p : List Nat)
    (hp : p ∈ (chunkStarts a n loopFuel 0).map (chunkPayload a buf n)) :
    ∃ addr data, p = addr :: data ∧ 1 ≤ data.length ∧ data.length ≤ 8 ∧ addr < 256 ∧
      addr % 8 + data.length ≤ 8 := by
  obtain ⟨w, hw, rfl⟩ := List.mem_map.1 hp
  have hlt := (chunkStarts_mem a n _ _ _ hw).2
  have hpos := chunkLen_pos a hlt
  have hpage := chunkLen_le_page a n w
  refine ⟨(a + w) % 256, (List.range (chunkLen a n w)).map (fun i => buf (w + i)), rfl, ?_⟩
  simp only [List.length_map, List.length_range]
  omega

/-- C1: for a start address `a` in `0..255`, a length `n` in `1..255` and a bus
on which every transfer is acknowledged, `writeBytes` succeeds after exactly
`⌈((a mod 8) + n) / 8⌉` transmit transactions (the ceiling written
`((a mod 8) + n + 7) / 8`); every transaction is `[address, data...]` with 1 to 8
data bytes whose addresses stay inside one 8-byte page; and when
`8 - (a mod 8) < n` the first transaction carries exactly `8 - (a mod 8)` data
bytes. -/
theorem writeBytes_page_split (self : EEPROM24C02) (a n : Nat) (buf : Nat → Nat) (b : Bus)
    (ha : a < 256) (hn1 : 1 ≤ n) (hn : n < 256) (hok : ∀ k, b.outcome k = true) :
    ∃ b1, self.writeBytes a (some buf) n b = some (true, b1) ∧
      (txPayloads (eventsSince b b1)).length = (a % 8 + n + 7) / 8 ∧
      (∀ p ∈ txPayloads (eventsSince b b1), ∃ addr data, p = addr :: data ∧
        1 ≤ data.length ∧ data.length ≤ 8 ∧ addr < 256 ∧ addr % 8 + data.length ≤ 8 ∧
        ∀ i, i < data.length → (addr + i) / 8 = addr / 8) ∧
      (8 - a % 8 < n → ∃ addr data,
        (txPayloads (eventsSince b b1)).head? = some (addr :: data) ∧
        data.length = 8 - a % 8) := by
  obtain ⟨b1, hres, hpay⟩ := writeBytes_ok self a n buf b ha hn1 hn hok
  refine ⟨b1, hres, ?_, ?_, ?_⟩
  · rw [hpay, List.length_map,
      chunkStarts_length a n loopFuel 0 (by simp only [loopFuel]; omega) (by omega)]
    simp
  · intro p hp
    rw [hpay] at hp
    obtain ⟨addr, data, h1, h2, h3, h4, h5⟩ := chunkPayload_mem_shape a n buf p hp
    refine ⟨addr, data, h1, h2, h3, h4, h5, ?_⟩
    intro i hi
    omega
  · intro hlt
    rw [hpay]
    have h0 : (0 : Nat) < n := by omega
    refine ⟨(a + 0) % 256, (List.range (chunkLen a n 0)).map (fun i => buf (0 + i)), ?_, ?_⟩
    · rw [show loopFuel = 255 + 1 from rfl, chunkStarts_succ a n 255 0 h0]
      simp [chunkPayload]
    · simp only [List.length_map, List.length_range, chunkLen, EEPROM_24C02_PAGE_SIZE]
      simp only [Nat.add_zero, Nat.sub_zero]
      omega

theorem writeBytes_page_split_witness :
    ∃ b1, (EEPROM24C02.new 0x50).writeBytes 5 (some (fun i => i + 1)) 20
        (Bus.init (fun _ => 0) (fun _ => true)) = some (true, b1) ∧
      (txPayloads (eventsSince (Bus.init (fun _ => 0) (fun _ => true)) b1)).length
        = (5 % 8 + 20 + 7) / 8 ∧
      (∀ p ∈ txPayloads (eventsSince (Bus.init (fun _ => 0) (fun _ => true)) b1),
        ∃ addr data, p = addr :: data ∧
        1 ≤ data.length ∧ data.length ≤ 8 ∧ addr < 256 ∧ addr % 8 + data.length ≤ 8 ∧
        ∀ i, i < data.length → (addr + i) / 8 = addr / 8) ∧
      (8 - 5 % 8 < 20 → ∃ addr data,
        (txPayloads (eventsSince (Bus.init (fun _ => 0) (fun _ => true)) b1)).head?
          = some (addr :: data) ∧
        data.length = 8 - 5 % 8) :=
  writeBytes_page_split (EEPROM24C02.new 0x50) 5 20 (fun i => i + 1)
    (Bus.init (fun _ => 0) (fun _ => true)) (by decide) (by decide) (by decide) (fun _ => rfl)

/-! ## Framing of the chunks -/

theorem range_map_ofList (l : List Nat) : (List.range l.length).map (ofList l) = l := by
  apply List.ext_getElem
  · simp
  · intro i h1 h2
    simp [ofList, List.getD_eq_getElem?_getD, List.getElem?_eq_getElem h2]

/-- C3: for every start address, every length `n ≥ 1`, every `n`-byte buffer `l`
and a bus on which every transfer is acknowledged, the `i`-th transaction of
`writeBytes` is `[chunk_start_address, chunk_bytes...]` with
`chunk_start_address = (start + number of data bytes of the earlier
transactions) mod 256`, and the data bytes of all transactions, concatenated in
order, are exactly the buffer. -/
theorem writeBytes_chunk_framing (self : EEPROM24C02) (a : Nat) (l : List Nat) (b : Bus)
    (ha : a < 256) (hn1 : 1 ≤ l.length) (hn : l.length < 256)
    (hok : ∀ k, b.outcome k = true) :
    ∃ b1, self.writeBytes a (some (ofList l)) l.length b = some (true, b1) ∧
      (∀ i p, (txPayloads (eventsSince b b1))[i]? = some p →
        p.head? = some ((a + (((txPayloads (eventsSince b b1)).take i).map
          (fun q => q.length - 1)).sum) % 256) ∧ 1 ≤ p.tail.length) ∧
      ((txPayloads (eventsSince b b1)).map List.tail).flatten = l := by
  obtain ⟨b1, hres, hpay⟩ := writeBytes_ok self a l.length (ofList l) b ha hn1 hn hok
  refine ⟨b1, hres, ?_, ?_⟩
  · intro i p hp
    rw [hpay] at hp ⊢
    rw [List.getElem?_map] at hp
    cases hw : (chunkStarts a l.length loopFuel 0)[i]? with
    | none => simp [hw] at hp
    | some w =>
      simp only [hw, Option.map_some', Option.some.injEq] at hp
      subst hp
      have hpos := chunkStarts_getElem a l.length _ _ _ _ hw
      have hlt := (chunkStarts_mem a l.length _ _ _ (List.getElem?_mem hw)).2
      have hcl := chunkLen_pos a hlt
      have hlen : (fun q : List Nat => q.length - 1) ∘ chunkPayload a (ofList l) l.length
          = chunkLen a l.length := by
        funext x; simp [chunkPayload]
      rw [← List.map_take, List.map_map, hlen]
      constructor
      · simp only [chunkPayload, List.head?_cons]
        rw [hpos]; simp
      · simp [chunkPayload]; omega
  · rw [hpay, List.map_map]
    have htail : List.tail ∘ chunkPayload a (ofList l) l.length = fun x =>
        (List.range (chunkLen a l.length x)).map (fun i => ofList l (x + i)) := by
      funext x; simp [chunkPayload]
    rw [htail, chunkStarts_data a l.length (ofList l) loopFuel 0 (by simp only [loopFuel]; omega)]
    simp only [Nat.sub_zero, Nat.zero_add]
    exact range_map_ofList l

theorem writeBytes_chunk_framing_witness :
    ∃ b1, (EEPROM24C02.new 0x50).writeBytes 250 (some (ofList [1, 2, 3, 4, 5, 6, 7, 8, 9, 10]))
        [1, 2, 3, 4, 5, 6, 7, 8, 9, 10].length
        (Bus.init (fun _ => 0) (fun _ => true)) = some (true, b1) ∧
      (∀ i p, (txPayloads (eventsSince (Bus.init (fun _ => 0) (fun _ => true)) b1))[i]? = some p →
        p.head? = some ((250 + (((txPayloads (eventsSince
          (Bus.init (fun _ => 0) (fun _ => true)) b1)).take i).map
          (fun q => q.length - 1)).sum) % 256) ∧ 1 ≤ p.tail.length) ∧
      ((txPayloads (eventsSince (Bus.init (fun _ => 0) (fun _ => true)) b1)).map
        List.tail).flatten = [1, 2, 3, 4, 5, 6, 7, 8, 9, 10] :=
  writeBytes_chunk_framing (EEPROM24C02.new 0x50) 250 [1, 2, 3, 4, 5, 6, 7, 8, 9, 10]
    (Bus.init (fun _ => 0) (fun _ => true)) (by decide) (by decide) (by decide) (fun _ => rfl)

/-! ## Bus failures during `writeBytes` -/

theorem transferOks_append (l1 l2 : List Event) :
    transferOks (l1 ++ l2) = transferOks l1 ++ transferOks l2 := by
  induction l1 with
  | nil => rfl
  | cons e es ih => cases e <;> simp [transferOks, ih]

/-- Shape of the log of a run over a chunk list under arbitrary bus outcomes:
the acknowledgement flags are the outcomes of the bus in order; either the run
succeeds and every flag is `true`, or it fails and the flags are `true ... true,
false`, the failing transmit being followed by the release only. -/
theorem runChunks_shape (self : EEPROM24C02) (start : Nat) (buf : Nat → Nat) (length : Nat) :
    ∀ (ws : List Nat) (b : Bus), ∃ evs,
      (runChunks self start buf length ws b).2.log = b.log ++ evs ∧
      (∀ i ok, (transferOks evs)[i]? = some ok → ok = b.outcome (b.count + i)) ∧
      (((runChunks self start buf length ws b).1 = true ∧
          transferOks evs = List.replicate ws.length true) ∨
       ((runChunks self start buf length ws b).1 = false ∧
          ∃ k pre addr p, k < ws.length ∧
            transferOks evs = List.replicate k true ++ [false] ∧
            evs = pre ++ [Event.tx addr p I2cBegin.FuriHalI2cBeginStart
              I2cEnd.FuriHalI2cEndStop false, Event.release])) := by
  intro ws
  induction ws with
  | nil =>
    intro b
    exact ⟨[], by simp [runChunks], by simp [transferOks], Or.inl ⟨rfl, rfl⟩⟩
  | cons w ws ih =>
    intro b
    by_cases hok : b.outcome b.count = true
    · obtain ⟨evs, hlog, horacle, hshape⟩ :=
        ih (furi_delay_ms 10 (chunkBus self (chunkPayload start buf length w) b))
      have hcount : (furi_delay_ms 10 (chunkBus self (chunkPayload start buf length w) b)).count
          = b.count + 1 := by simp [furi_delay_ms, chunkBus_count]
      have hout : (furi_delay_ms 10 (chunkBus self (chunkPayload start buf length w) b)).outcome
          = b.outcome := by simp [furi_delay_ms, chunkBus_outcome]
      have hoks : transferOks (chunkEvents self (chunkPayload start buf length w) ++ evs)
          = true :: transferOks evs := by
        rw [transferOks_append]; simp [chunkEvents, transferOks]
      refine ⟨chunkEvents self (chunkPayload start buf length w) ++ evs, ?_, ?_, ?_⟩
      · simp only [runChunks, hok, if_true]
        rw [hlog]
        simp [furi_delay_ms, chunkBus_log, hok, chunkEvents]
      · intro i ok hi
        rw [hoks] at hi
        cases i with
        | zero => simp at hi; simp [← hi, hok]
        | succ i =>
          simp only [List.getElem?_cons_succ] at hi
          have := horacle i ok hi
          rw [hcount, hout] at this
          rw [this]; congr 1; omega
      · simp only [runChunks, hok, if_true]
        rcases hshape with ⟨h1, h2⟩ | ⟨h1, k, pre, addr, p, hk, h2, h3⟩
        · left
          exact ⟨h1, by rw [hoks, h2]; rfl⟩
        · right
          refine ⟨h1, k + 1, chunkEvents self (chunkPayload start buf length w) ++ pre, addr, p,
            by simp only [List.length_cons]; omega, ?_, ?_⟩
          · rw [hoks, h2]; rfl
          · rw [h3, List.append_assoc]
    · have hno : b.outcome b.count = false := by simpa using hok
      refine ⟨[Event.acquire, Event.tx self._i2c_addr_8bit (chunkPayload start buf length w)
        I2cBegin.FuriHalI2cBeginStart I2cEnd.FuriHalI2cEndStop false, Event.release], ?_, ?_, ?_⟩
      · simp [runChunks, hno, chunkBus_log]
      · intro i ok hi
        cases i with
        | zero => simp [transferOks] at hi; simp [← hi, hno]
        | succ i => simp [transferOks] at hi
      · right
        refine ⟨by simp [runChunks, hno], 0, [Event.acquire], self._i2c_addr_8bit,
          chunkPayload start buf length w, by simp, by simp [transferOks], by simp⟩

/-- C4: for every `writeBytes` call with a non-null buffer and a length in
`1..255`, under any pattern of bus outcomes, the call returns; it returns `true`
exactly when every transfer it issued was acknowledged; the acknowledgement flags
in its log are the outcomes of the bus in order; and a transfer that is not
acknowledged (index `j`, counted from 0) is the last one: the call returns
`false`, exactly `j + 1` transfers were issued, all earlier ones were
acknowledged, and after the failing transmit the log holds the release only (no
further transfer, no settle delay). -/
theorem writeBytes_failure_aborts (self : EEPROM24C02) (a n : Nat) (buf : Nat → Nat) (b : Bus)
    (ha : a < 256) (hn1 : 1 ≤ n) (hn : n < 256) :
    ∃ r b1, self.writeBytes a (some buf) n b = some (r, b1) ∧
      (r = true ↔ ∀ ok ∈ transferOks (eventsSince b b1), ok = true) ∧
      (∀ i ok, (transferOks (eventsSince b b1))[i]? = some ok → ok = b.outcome (b.count + i)) ∧
      (∀ j, (transferOks (eventsSince b b1))[j]? = some false →
        r = false ∧ (transferOks (eventsSince b b1)).length = j + 1 ∧
        (∀ i, i < j → (transferOks (eventsSince b b1))[i]? = some true) ∧
        ∃ pre addr p, eventsSince b b1 = pre ++ [Event.tx addr p I2cBegin.FuriHalI2cBeginStart
          I2cEnd.FuriHalI2cEndStop false, Event.release]) := by
  obtain ⟨evs, hlog, horacle, hshape⟩ :=
    runChunks_shape self a buf n (chunkStarts a n loopFuel 0) b
  refine ⟨(runChunks self a buf n (chunkStarts a n loopFuel 0) b).1,
    (runChunks self a buf n (chunkStarts a n loopFuel 0) b).2,
    writeBytes_eq_run self a n buf b ha hn1 hn, ?_⟩
  rw [eventsSince_append _ _ _ hlog]
  rcases hshape with ⟨h1, h2⟩ | ⟨h1, k, pre, addr, p, _, h2, h3⟩
  · refine ⟨?_, horacle, ?_⟩
    · rw [h1, h2]
      simp only [true_iff]
      intro ok hmem
      exact (List.mem_replicate.1 hmem).2
    · intro j hj
      rw [h2] at hj
      have := List.getElem?_mem hj
      simp [List.mem_replicate] at this
  · refine ⟨?_, horacle, ?_⟩
    · rw [h1, h2]
      simp
    · intro j hj
      rw [h2] at hj ⊢
      have hjk : j = k := by
        by_contra hne
        rcases Nat.lt_or_gt_of_ne hne with hlt | hgt
        · rw [List.getElem?_append_left (by simpa using hlt)] at hj
          have := List.getElem?_mem hj
          simp [List.mem_replicate] at this
        · rw [List.getElem?_append_right (by simp; omega)] at hj
          simp only [List.length_replicate] at hj
          have : j - k = (j - k - 1) + 1 := by omega
          rw [this] at hj
          simp at hj
      subst hjk
      refine ⟨h1, by simp, ?_, pre, addr, p, h3⟩
      intro i hi
      rw [List.getElem?_append_left (by simpa using hi)]
      simp [List.getElem?_replicate, hi]

theorem writeBytes_failure_aborts_witness :
    ∃ r b1, (EEPROM24C02.new 0x50).writeBytes 5 (some (fun i => i + 1)) 20
        (Bus.init (fun _ => 0) (fun k => decide (k ≠ 2))) = some (r, b1) ∧
      (r = true ↔ ∀ ok ∈ transferOks
        (eventsSince (Bus.init (fun _ => 0) (fun k => decide (k ≠ 2))) b1), ok = true) ∧
      (∀ i ok, (transferOks
        (eventsSince (Bus.init (fun _ => 0) (fun k => decide (k ≠ 2))) b1))[i]? = some ok →
        ok = (Bus.init (fun _ => 0) (fun k => decide (k ≠ 2))).outcome
          ((Bus.init (fun _ => 0) (fun k => decide (k ≠ 2))).count + i)) ∧
      (∀ j, (transferOks
        (eventsSince (Bus.init (fun _ => 0) (fun k => decide (k ≠ 2))) b1))[j]? = some false →
        r = false ∧ (transferOks
          (eventsSince (Bus.init (fun _ => 0) (fun k => decide (k ≠ 2))) b1)).length = j + 1 ∧
        (∀ i, i < j → (transferOks
          (eventsSince (Bus.init (fun _ => 0) (fun k => decide (k ≠ 2))) b1))[i]? = some true) ∧
        ∃ pre addr p, eventsSince (Bus.init (fun _ => 0) (fun k => decide (k ≠ 2))) b1 =
          pre ++ [Event.tx addr p I2cBegin.FuriHalI2cBeginStart
            I2cEnd.FuriHalI2cEndStop false, Event.release]) :=
  writeBytes_failure_aborts (EEPROM24C02.new 0x50) 5 20 (fun i => i + 1)
    (Bus.init (fun _ => 0) (fun k => decide (k ≠ 2))) (by decide) (by decide) (by decide)

/-! ## The chip's memory after a write -/

theorem pageInc_of_lt (p : Nat) (h : p % 8 < 7) : pageInc p = p + 1 := by
  unfold pageInc; simp only [EEPROM_24C02_PAGE_SIZE]; omega

/-- A page write that stays inside its page stores the data bytes at consecutive
addresses and leaves every other cell alone. -/
theorem deviceStore_spec : ∀ (ds : List Nat) (m : Nat → Nat) (p : Nat),
    p % 8 + ds.length ≤ 8 → ∀ x,
      (deviceStore ds (m, p)).1 x =
        if p ≤ x ∧ x < p + ds.length then ds.getD (x - p) 0 else m x := by
  intro ds
  induction ds with
  | nil =>
    intro m p _ x
    have : ¬ (p ≤ x ∧ x < p) := by omega
    simp [deviceStore, this]
  | cons d ds ih =>
    intro m p h x
    simp only [deviceStore]
    cases ds with
    | nil =>
      simp only [deviceStore, List.length_singleton]
      by_cases hx : x = p
      · subst hx; simp
      · have : ¬ (p ≤ x ∧ x < p + 1) := by omega
        simp [hx, this]
    | cons e es =>
      simp only [List.length_cons] at h
      have hp : pageInc p = p + 1 := pageInc_of_lt p (by omega)
      rw [hp, ih _ _ (by simp only [List.length_cons]; omega) x]
      simp only [List.length_cons]
      by_cases hx : x = p
      · subst hx
        have : ¬ (x + 1 ≤ x ∧ x < x + 1 + (es.length + 1)) := by omega
        simp [this]
      · by_cases hr : p + 1 ≤ x ∧ x < p + 1 + (es.length + 1)
        · have hr2 : p ≤ x ∧ x < p + (es.length + 1 + 1) := by omega
          have hsub : x - p = (x - (p + 1)) + 1 := by omega
          simp only [hr, hr2, and_self, if_true]
          rw [hsub, List.getD_cons_succ]
        · have hr2 : ¬ (p ≤ x ∧ x < p + (es.length + 1 + 1)) := by omega
          simp [hr, hr2, hx]

theorem chunk_mem (self : EEPROM24C02) (a n w : Nat) (buf : Nat → Nat) (b : Bus)
    (hok : b.outcome b.count = true) (hw : w < n) (hcap : a + n ≤ 256) (x : Nat) :
    (furi_delay_ms 10 (chunkBus self (chunkPayload a buf n w) b)).mem x =
      if a + w ≤ x ∧ x < a + w + chunkLen a n w then buf (x - a) else b.mem x := by
  have hpage := chunkLen_le_page a n w
  have hmod : (a + w) % 256 = a + w := Nat.mod_eq_of_lt (by omega)
  have hmem : (furi_delay_ms 10 (chunkBus self (chunkPayload a buf n w) b)).mem =
      (chunkBus self (chunkPayload a buf n w) b).mem := rfl
  rw [hmem]
  unfold chunkPayload
  rw [chunkBus_mem self _ _ b hok, Nat.mod_mod, hmod,
    deviceStore_spec _ _ _ (by simp only [List.length_map, List.length_range]; omega)]
  simp only [List.length_map, List.length_range]
  by_cases hr : a + w ≤ x ∧ x < a + w + chunkLen a n w
  · simp only [hr, and_self, if_true]
    rw [List.getD_eq_getElem?_getD, List.getElem?_map,
      List.getElem?_range (by omega)]
    simp only [Option.map_some', Option.getD_some]
    congr 1; omega
  · simp [hr]

/-- After a successful run of the whole loop over a range that ends inside the
memory, the cells of the range hold the buffer and all other cells are
unchanged. -/
theorem runChunks_mem (self : EEPROM24C02) (a n : Nat) (buf : Nat → Nat) (hcap : a + n ≤ 256) :
    ∀ (fuel w : Nat) (b : Bus), n - w ≤ fuel → (∀ k, b.outcome k = true) → ∀ x,
      (runChunks self a buf n (chunkStarts a n fuel w) b).2.mem x =
        if a + w ≤ x ∧ x < a + n then buf (x - a) else b.mem x := by
  intro fuel
  induction fuel with
  | zero =>
    intro w b h _ x
    have : ¬ (a + w ≤ x ∧ x < a + n) := by omega
    simp [chunkStarts, runChunks, this]
  | succ fuel ih =>
    intro w b h hok x
    by_cases hw : w < n
    · have hpos := chunkLen_pos a hw
      have hrem := chunkLen_le_rem a n w
      have hout : (furi_delay_ms 10 (chunkBus self (chunkPayload a buf n w) b)).outcome
          = b.outcome := by simp [furi_delay_ms, chunkBus_outcome]
      rw [chunkStarts_succ a n fuel w hw]
      simp only [runChunks, hok b.count, if_true]
      rw [ih _ _ (by omega) (by intro k; rw [hout]; exact hok k) x,
        chunk_mem self a n w buf b (hok _) hw hcap x]
      by_cases h1 : a + (w + chunkLen a n w) ≤ x ∧ x < a + n
      · have h2 : a + w ≤ x ∧ x < a + n := by omega
        simp [h1, h2]
      · by_cases h3 : a + w ≤ x ∧ x < a + w + chunkLen a n w
        · have h2 : a + w ≤ x ∧ x < a + n := by omega
          simp [h1, h2, h3]
        · have h2 : ¬ (a + w ≤ x ∧ x < a + n) := by omega
          simp [h1, h2, h3]
    · have : ¬ (a + w ≤ x ∧ x < a + n) := by omega
      simp [chunkStarts, runChunks, hw, this]

/-- A well-formed `readBytes` on a bus that acknowledges everything returns the
`n` consecutive cells from `a` on (rolling over at the end of the memory). -/
theorem readBytes_ok (self : EEPROM24C02) (a n : Nat) (b : Bus)
    (ha : a < 256) (hn1 : 1 ≤ n) (hn : n < 256) (hok : ∀ k, b.outcome k = true) :
    (self.readBytes a false n b).1 =
      (true, (List.range n).map (fun i => b.mem ((a + i) % 256))) := by
  have h1 : u8 a = a := Nat.mod_eq_of_lt ha
  have h2 : u8 n = n := Nat.mod_eq_of_lt hn
  have h3 : n ≠ 0 := by omega
  have h4 : a % 256 = a := Nat.mod_eq_of_lt ha
  simp [EEPROM24C02.readBytes, h1, h2, h3, furi_hal_i2c_tx_ext, furi_hal_i2c_rx_ext,
    furi_hal_i2c_acquire, furi_hal_i2c_release, hok, deviceWrite, deviceStore, deviceRead, h4]

/-- C2 (counterexample): address 0 and a buffer of 256 bytes, all `7`, on a chip
holding `0x00` and a bus that acknowledges everything.  The request lies in the
range `n ≥ 1`, `a + n ≤ 256`, but the `uint8_t` length parameter receives
`256 mod 256 = 0`: `writeBytes` returns `false` and `readBytes` returns `false`
with no byte delivered, both without touching the bus, and cell 0 still holds
`0x00`. -/
theorem writeBytes_readBytes_capacity_fails :
    (1 ≤ (List.replicate 256 7).length ∧ 0 + (List.replicate 256 7).length ≤ 256) ∧
    (EEPROM24C02.new 0x50).writeBytes 0 (some (ofList (List.replicate 256 7)))
        (List.replicate 256 7).length (Bus.init (fun _ => 0) (fun _ => true)) =
      some (false, Bus.init (fun _ => 0) (fun _ => true)) ∧
    (EEPROM24C02.new 0x50).readBytes 0 false (List.replicate 256 7).length
        (Bus.init (fun _ => 0) (fun _ => true)) =
      ((false, []), Bus.init (fun _ => 0) (fun _ => true)) ∧
    (Bus.init (fun _ => 0) (fun _ => true)).mem 0 = 0 ∧
    (Bus.init (fun _ => 0) (fun _ => true)).log = [] := by
  rw [show (List.replicate 256 7).length = 256 from List.length_replicate 256 7]
  exact ⟨⟨by decide, by decide⟩, rfl, rfl, rfl, rfl⟩

/-- C2 (amended): on the modelled chip (page write with the column counter
wrapping inside the 8-byte page, sequential read from the transmitted address),
for every address `a`, every buffer `l` of `n` bytes with `1 ≤ n ≤ 255` (the
lengths the `uint8_t` parameter can carry) and `a + n ≤ 256`, on a bus that
acknowledges everything, `writeBytes(a, l, n)` succeeds and `readBytes(a, n)`
afterwards succeeds and returns exactly `l`.  The length 256 cannot be passed:
for every buffer, `writeBytes` and `readBytes` called with it return `false` on
an unchanged bus. -/
theorem writeBytes_readBytes_roundtrip (self : EEPROM24C02) (a : Nat) (l : List Nat) (b : Bus)
    (hn1 : 1 ≤ l.length) (hn : l.length < 256) (hcap : a + l.length ≤ 256)
    (hok : ∀ k, b.outcome k = true) :
    (∃ b1, self.writeBytes a (some (ofList l)) l.length b = some (true, b1) ∧
      (self.readBytes a false l.length b1).1 = (true, l)) ∧
    (∀ buf : Nat → Nat,
      self.writeBytes 0 (some buf) EEPROM_24C02_SIZE b = some (false, b) ∧
      self.readBytes 0 false EEPROM_24C02_SIZE b = ((false, []), b)) := by
  have ha : a < 256 := by omega
  obtain ⟨r1, _, r3⟩ := runChunks_ok self a (ofList l) l.length (chunkStarts a l.length loopFuel 0) b hok
  refine ⟨⟨(runChunks self a (ofList l) l.length (chunkStarts a l.length loopFuel 0) b).2, ?_, ?_⟩,
    fun _ => ⟨rfl, rfl⟩⟩
  · rw [writeBytes_eq_run self a l.length (ofList l) b ha hn1 hn, ← r1]
  · rw [readBytes_ok self a l.length _ ha hn1 hn (by intro k; rw [r3]; exact hok k)]
    congr 1
    conv_rhs => rw [← range_map_ofList l]
    apply List.map_congr_left
    intro i hi
    have hi2 : i < l.length := List.mem_range.1 hi
    rw [Nat.mod_eq_of_lt (by omega),
      runChunks_mem self a l.length (ofList l) hcap loopFuel 0 b
        (by simp only [loopFuel]; omega) hok (a + i)]
    have : a + 0 ≤ a + i ∧ a + i < a + l.length := by omega
    simp [this]

theorem writeBytes_readBytes_roundtrip_witness :
    (∃ b1, (EEPROM24C02.new 0x50).writeBytes 246 (some (ofList [1, 2, 3, 4, 5, 6, 7, 8, 9, 10]))
        [1, 2, 3, 4, 5, 6, 7, 8, 9, 10].length
        (Bus.init (fun _ => 0) (fun _ => true)) = some (true, b1) ∧
      ((EEPROM24C02.new 0x50).readBytes 246 false [1, 2, 3, 4, 5, 6, 7, 8, 9, 10].length b1).1
        = (true, [1, 2, 3, 4, 5, 6, 7, 8, 9, 10])) ∧
    (∀ buf : Nat → Nat,
      (EEPROM24C02.new 0x50).writeBytes 0 (some buf) EEPROM_24C02_SIZE
        (Bus.init (fun _ => 0) (fun _ => true)) =
        some (false, Bus.init (fun _ => 0) (fun _ => true)) ∧
      (EEPROM24C02.new 0x50).readBytes 0 false EEPROM_24C02_SIZE
        (Bus.init (fun _ => 0) (fun _ => true)) =
        ((false, []), Bus.init (fun _ => 0) (fun _ => true))) :=
  writeBytes_readBytes_roundtrip (EEPROM24C02.new 0x50) 246 [1, 2, 3, 4, 5, 6, 7, 8, 9, 10]
    (Bus.init (fun _ => 0) (fun _ => true)) (by decide) (by decide) (by decide) (fun _ => rfl)

/-! ## `eraseRange` -/

theorem chunkStarts_sum (start length : Nat) :
    ∀ (fuel w : Nat), length - w ≤ fuel →
      ((chunkStarts start length fuel w).map (chunkLen start length)).sum = length - w := by
  intro fuel
  induction fuel with
  | zero => intro w h; simp [chunkStarts]; omega
  | succ fuel ih =>
    intro w h
    by_cases hw : w < length
    · have hpos := chunkLen_pos start hw
      have hrem := chunkLen_le_rem start length w
      rw [chunkStarts_succ start length fuel w hw]
      simp only [List.map_cons, List.sum_cons]
      rw [ih _ (by omega)]
      omega
    · simp [chunkStarts, hw]; omega

theorem dataBytes_chunks (a n : Nat) (buf : Nat → Nat) (ws : List Nat) :
    dataBytes (ws.map (chunkPayload a buf n)) = (ws.map (chunkLen a n)).sum := by
  unfold dataBytes
  rw [List.map_map]
  congr 1
  apply List.map_congr_left
  intro w _
  simp [chunkPayload]

/-- The range check of `eraseRange`: the length handed to `writeBytes` is
`min(n, 256 - a)`. -/
theorem eraseRange_eq_writeBytes (self : EEPROM24C02) (beyond : Nat → Nat) (a n : Nat) (b : Bus)
    (ha : a < 256) (hn1 : 1 ≤ n) (hn : n < 256) :
    self.eraseRange beyond a n b =
      self.writeBytes a (some (erase_buffer beyond)) (min n (256 - a)) b := by
  have h1 : u8 a = a := Nat.mod_eq_of_lt ha
  have h2 : u8 n = n := Nat.mod_eq_of_lt hn
  have h3 : n ≠ 0 := by omega
  have h4 : u16 (a + n) = a + n := Nat.mod_eq_of_lt (by omega)
  simp only [EEPROM24C02.eraseRange, h1, h2, h3, h4, if_false, EEPROM_24C02_SIZE]
  by_cases hov : a + n > 256
  · have h5 : u8 (256 - a) = 256 - a := Nat.mod_eq_of_lt (by omega)
    have h6 : min n (256 - a) = 256 - a := by omega
    simp only [hov, if_true, h5, h6]
  · have h6 : min n (256 - a) = n := by omega
    simp only [hov, if_false, h6]

/-- C5 (failing input): `eraseRange(0, 9)` on a bus that acknowledges everything.
The ninth data byte is read from index 8 of the 8-byte `erase_buffer`, that is
from the memory behind the array: the second transaction carries `beyond 0`,
whatever that byte is, and not `0xFF`. -/
theorem eraseRange_reads_past_erase_buffer (self : EEPROM24C02) (beyond : Nat → Nat) :
    (self.eraseRange beyond 0 9 (Bus.init (fun _ => 0) (fun _ => true))).map
        (fun r => (r.1, txPayloads r.2.log, r.2.mem 8)) =
      some (true, [[0, 0xFF, 0xFF, 0xFF, 0xFF, 0xFF, 0xFF, 0xFF, 0xFF], [8, beyond 0]],
        beyond 0) := by
  rfl

/-- C6: for every start address `a` and every length `n ≥ 1` (both `uint8_t`), on
a bus that acknowledges everything, `eraseRange(a, n)` succeeds and transmits
`min(n, 256 - a)` data bytes in total; no transaction is addressed below `a` or
reaches beyond address 255, and the 16-bit sum `a + n` does not overflow. -/
theorem eraseRange_truncates (self : EEPROM24C02) (beyond : Nat → Nat) (a n : Nat) (b : Bus)
    (ha : a < 256) (hn1 : 1 ≤ n) (hn : n < 256) (hok : ∀ k, b.outcome k = true) :
    ∃ b1, self.eraseRange beyond a n b = some (true, b1) ∧
      dataBytes (txPayloads (eventsSince b b1)) = min n (256 - a) ∧
      (∀ p ∈ txPayloads (eventsSince b b1), ∃ addr data, p = addr :: data ∧
        a ≤ addr ∧ addr + data.length ≤ 256) ∧
      u16 (a + n) = a + n := by
  have hm1 : 1 ≤ min n (256 - a) := by omega
  have hm2 : min n (256 - a) < 256 := by omega
  obtain ⟨b1, hres, hpay⟩ :=
    writeBytes_ok self a (min n (256 - a)) (erase_buffer beyond) b ha hm1 hm2 hok
  refine ⟨b1, by rw [eraseRange_eq_writeBytes self beyond a n b ha hn1 hn, hres], ?_, ?_,
    Nat.mod_eq_of_lt (by omega)⟩
  · rw [hpay, dataBytes_chunks,
      chunkStarts_sum a _ loopFuel 0 (by simp only [loopFuel]; omega)]
    simp
  · intro p hp
    rw [hpay] at hp
    obtain ⟨w, hw, rfl⟩ := List.mem_map.1 hp
    have hlt := (chunkStarts_mem a _ _ _ _ hw).2
    have hrem := chunkLen_le_rem a (min n (256 - a)) w
    refine ⟨(a + w) % 256, (List.range (chunkLen a (min n (256 - a)) w)).map
      (fun i => erase_buffer beyond (w + i)), rfl, ?_⟩
    simp only [List.length_map, List.length_range]
    omega

theorem eraseRange_truncates_witness :
    ∃ b1, (EEPROM24C02.new 0x50).eraseRange (fun _ => 0) 250 100
        (Bus.init (fun _ => 0) (fun _ => true)) = some (true, b1) ∧
      dataBytes (txPayloads (eventsSince (Bus.init (fun _ => 0) (fun _ => true)) b1))
        = min 100 (256 - 250) ∧
      (∀ p ∈ txPayloads (eventsSince (Bus.init (fun _ => 0) (fun _ => true)) b1),
        ∃ addr data, p = addr :: data ∧ 250 ≤ addr ∧ addr + data.length ≤ 256) ∧
      u16 (250 + 100) = 250 + 100 :=
  eraseRange_truncates (EEPROM24C02.new 0x50) (fun _ => 0) 250 100
    (Bus.init (fun _ => 0) (fun _ => true)) (by decide) (by decide) (by decide) (fun _ => rfl)

/-! ## `writeBytes` past the end of the memory -/

/-- Every page boundary inside the request starts a chunk. -/
theorem chunkStarts_boundary (start length : Nat) :
    ∀ (fuel w x : Nat), length - w ≤ fuel → w ≤ x → x < length → (start + x) % 8 = 0 →
      x ∈ chunkStarts start length fuel w := by
  intro fuel
  induction fuel with
  | zero => intro w x h h1 h2 _; omega
  | succ fuel ih =>
    intro w x h h1 h2 h3
    have hw : w < length := by omega
    have hpos := chunkLen_pos start hw
    rw [chunkStarts_succ start length fuel w hw]
    by_cases hx : x = w
    · simp [hx]
    · refine List.mem_cons_of_mem _ (ih _ _ (by omega) ?_ h2 h3)
      have hle : chunkLen start length w ≤ 8 - (start + w) % 8 := by
        unfold chunkLen; exact Nat.min_le_right _ _
      omega

/-- C7 (counterexample): `writeBytes(250, buffer, 10)` overruns the capacity by 4
bytes.  On a bus that acknowledges everything it transmits all 10 data bytes (not
`256 - 250 = 6`), the second transaction being addressed to memory address 0,
below the start address 250, where it overwrites cells 0..3. -/
theorem writeBytes_overrun_wraps :
    ((EEPROM24C02.new 0x50).writeBytes 250 (some (ofList [1, 2, 3, 4, 5, 6, 7, 8, 9, 10])) 10
        (Bus.init (fun _ => 0) (fun _ => true))).map
      (fun r => (r.1, txPayloads r.2.log, dataBytes (txPayloads r.2.log),
        (List.range 4).map r.2.mem)) =
      some (true, [[250, 1, 2, 3, 4, 5, 6], [0, 7, 8, 9, 10]], 10, [7, 8, 9, 10]) := by
  decide

/-- C7 (amended): `writeBytes` has no capacity check.  For a request with
`start_address + length > 256` (both `uint8_t`, length at least 1), on a bus that
acknowledges everything, it succeeds and transmits exactly `length` data bytes;
one of its transactions is addressed to memory address 0, the address counter
`start_addr + bytes_written` having wrapped modulo 256. -/
theorem writeBytes_overrun_not_truncated (self : EEPROM24C02) (a n : Nat) (buf : Nat → Nat)
    (b : Bus) (ha : a < 256) (hn : n < 256) (hov : 256 < a + n)
    (hok : ∀ k, b.outcome k = true) :
    ∃ b1, self.writeBytes a (some buf) n b = some (true, b1) ∧
      dataBytes (txPayloads (eventsSince b b1)) = n ∧
      ∃ data, data ≠ [] ∧ (0 :: data) ∈ txPayloads (eventsSince b b1) := by
  obtain ⟨b1, hres, hpay⟩ := writeBytes_ok self a n buf b ha (by omega) hn hok
  refine ⟨b1, hres, ?_, ?_⟩
  · rw [hpay, dataBytes_chunks,
      chunkStarts_sum a n loopFuel 0 (by simp only [loopFuel]; omega)]
    simp
  · have hmem := chunkStarts_boundary a n loopFuel 0 (256 - a)
      (by simp only [loopFuel]; omega) (by omega) (by omega) (by omega)
    have hpos := chunkLen_pos a (show 256 - a < n by omega)
    refine ⟨(List.range (chunkLen a n (256 - a))).map (fun i => buf (256 - a + i)), ?_, ?_⟩
    · intro h
      have := congrArg List.length h
      simp at this
      omega
    · rw [hpay]
      refine List.mem_map.2 ⟨256 - a, hmem, ?_⟩
      have : (a + (256 - a)) % 256 = 0 := by
        have : a + (256 - a) = 256 := by omega
        rw [this]
      simp [chunkPayload, this]

theorem writeBytes_overrun_not_truncated_witness :
    ∃ b1, (EEPROM24C02.new 0x50).writeBytes 250 (some (fun i => i + 1)) 10
        (Bus.init (fun _ => 0) (fun _ => true)) = some (true, b1) ∧
      dataBytes (txPayloads (eventsSince (Bus.init (fun _ => 0) (fun _ => true)) b1)) = 10 ∧
      ∃ data, data ≠ [] ∧
        (0 :: data) ∈ txPayloads (eventsSince (Bus.init (fun _ => 0) (fun _ => true)) b1) :=
  writeBytes_overrun_not_truncated (EEPROM24C02.new 0x50) 250 10 (fun i => i + 1)
    (Bus.init (fun _ => 0) (fun _ => true)) (by decide) (by decide) (by decide) (fun _ => rfl)

/-! ## `eraseAll` -/

theorem chunkLen_page (p : Nat) (hp : p < 32) : chunkLen 0 256 (8 * p) = 8 := by
  unfold chunkLen; simp only [EEPROM_24C02_PAGE_SIZE]; omega

theorem chunkPayload_page (p : Nat) (hp : p < 32) :
    chunkPayload 0 (fun _ => 0xFF) 256 (8 * p) = pagePayload p := by
  unfold chunkPayload pagePayload
  rw [chunkLen_page p hp, Nat.zero_add, Nat.mod_eq_of_lt (by omega)]
  rfl

theorem chunkPayload_erase_buffer (beyond : Nat → Nat) (p : Nat) (hp : p < 32) :
    chunkPayload (8 * p) (erase_buffer beyond) 8 0 = pagePayload p := by
  have hlen : chunkLen (8 * p) 8 0 = 8 := by
    unfold chunkLen; simp only [EEPROM_24C02_PAGE_SIZE]; omega
  unfold chunkPayload pagePayload
  rw [hlen, Nat.add_zero, Nat.mod_eq_of_lt (by omega)]
  rfl

/-- One page write of `eraseAll`, under any bus outcome. -/
theorem writeBytes_page (self : EEPROM24C02) (beyond : Nat → Nat) (p : Nat) (b : Bus)
    (hp : p < 32) :
    self.writeBytes (8 * p) (some (erase_buffer beyond)) 8 b =
      some (runChunks self 0 (fun _ => 0xFF) 256 [8 * p] b) := by
  have hlen : chunkLen (8 * p) 8 0 = 8 := by
    unfold chunkLen; simp only [EEPROM_24C02_PAGE_SIZE]; omega
  have hstarts : chunkStarts (8 * p) 8 loopFuel 0 = [0] := by
    rw [show loopFuel = 254 + 1 + 1 from rfl, chunkStarts_succ _ _ _ _ (by omega), hlen]
    simp [chunkStarts]
  rw [writeBytes_eq_run self (8 * p) 8 _ b (by omega) (by omega) (by omega), hstarts]
  simp only [runChunks, chunkPayload_page p hp, chunkPayload_erase_buffer beyond p hp]

/-- The page loop of `eraseAll` is the run over the page starts `8 * page, ...,
248`. -/
theorem eraseAllLoop_eq_run (self : EEPROM24C02) (beyond : Nat → Nat) :
    ∀ (fuel page : Nat) (b : Bus), page ≤ 32 → 32 - page ≤ fuel →
      self.eraseAllLoop beyond fuel page b =
        some (runChunks self 0 (fun _ => 0xFF) 256 (chunkStarts 0 256 fuel (8 * page)) b) := by
  intro fuel
  induction fuel with
  | zero =>
    intro page b h1 h2
    have : page = 32 := by omega
    subst this
    have hcond : ¬ 32 < EEPROM_24C02_SIZE / EEPROM_24C02_PAGE_SIZE := by decide
    simp [EEPROM24C02.eraseAllLoop, chunkStarts, runChunks, hcond]
  | succ fuel ih =>
    intro page b h1 h2
    by_cases hp : page < 32
    · have hu1 : u8 (page * EEPROM_24C02_PAGE_SIZE) = 8 * page := by
        unfold u8; simp only [EEPROM_24C02_PAGE_SIZE]; omega
      have hu2 : u8 (page + 1) = page + 1 := Nat.mod_eq_of_lt (by omega)
      have hcond : page < EEPROM_24C02_SIZE / EEPROM_24C02_PAGE_SIZE := hp
      rw [EEPROM24C02.eraseAllLoop]
      simp only [hcond, if_true, hu1, hu2]
      rw [writeBytes_page self beyond page b hp,
        chunkStarts_succ 0 256 fuel (8 * page) (by omega), chunkLen_page page hp,
        show 8 * page + 8 = 8 * (page + 1) by omega]
      simp only [runChunks]
      by_cases hok : b.outcome b.count = true
      · simp only [hok, if_true, Bool.not_true, Bool.false_eq_true, if_false]
        exact ih _ _ (by omega) (by omega)
      · simp [hok]
    · have : page = 32 := by omega
      subst this
      have hcond : ¬ 32 < EEPROM_24C02_SIZE / EEPROM_24C02_PAGE_SIZE := by decide
      simp [EEPROM24C02.eraseAllLoop, chunkStarts, runChunks, hcond]

theorem eraseAll_eq_run (self : EEPROM24C02) (beyond : Nat → Nat) (b : Bus) :
    self.eraseAll beyond b =
      some (runChunks self 0 (fun _ => 0xFF) 256 (chunkStarts 0 256 loopFuel 0) b) :=
  eraseAllLoop_eq_run self beyond loopFuel 0 b (by omega) (by simp only [loopFuel]; omega)

/-- On a bus that acknowledges everything `eraseAll` returns `true`. -/
theorem eraseAll_ok (self : EEPROM24C02) (beyond : Nat → Nat) (b : Bus)
    (hok : ∀ k, b.outcome k = true) :
    self.eraseAll beyond b =
      some (true, (runChunks self 0 (fun _ => 0xFF) 256 (chunkStarts 0 256 loopFuel 0) b).2) := by
  rw [eraseAll_eq_run,
    ← (runChunks_ok self 0 (fun _ => 0xFF) 256 (chunkStarts 0 256 loopFuel 0) b hok).1]

theorem pageStarts_eq : chunkStarts 0 256 loopFuel 0 = (List.range 32).map (fun j => 8 * j) := by
  decide

theorem pagePayloads_eq :
    (chunkStarts 0 256 loopFuel 0).map (chunkPayload 0 (fun _ => 0xFF) 256) =
      (List.range 32).map pagePayload := by
  decide

/-- C9: on a bus that acknowledges everything, `eraseAll` returns `true` after
exactly 32 transmit transactions; transaction `j` (`j = 0..31`) is addressed to
memory address `8 * j` and carries exactly 8 data bytes, all `0xFF`. -/
theorem eraseAll_pages (self : EEPROM24C02) (beyond : Nat → Nat) (b : Bus)
    (hok : ∀ k, b.outcome k = true) :
    ∃ b1, self.eraseAll beyond b = some (true, b1) ∧
      (txPayloads (eventsSince b b1)).length = 32 ∧
      txPayloads (eventsSince b b1) =
        (List.range 32).map (fun j => (8 * j) :: List.replicate 8 0xFF) := by
  obtain ⟨r1, r2, _⟩ :=
    runChunks_ok self 0 (fun _ => 0xFF) 256 (chunkStarts 0 256 loopFuel 0) b hok
  have hpay : txPayloads (eventsSince b
      (runChunks self 0 (fun _ => 0xFF) 256 (chunkStarts 0 256 loopFuel 0) b).2) =
      (List.range 32).map (fun j => (8 * j) :: List.replicate 8 0xFF) := by
    rw [eventsSince_append _ _ _ r2, txPayloads_flatMap_chunkEvents, pagePayloads_eq]
    rfl
  refine ⟨_, ?_, ?_, hpay⟩
  · rw [eraseAll_eq_run, ← r1]
  · rw [hpay]; simp

theorem eraseAll_pages_witness :
    ∃ b1, (EEPROM24C02.new 0x50).eraseAll (fun _ => 0)
        (Bus.init (fun _ => 0) (fun _ => true)) = some (true, b1) ∧
      (txPayloads (eventsSince (Bus.init (fun _ => 0) (fun _ => true)) b1)).length = 32 ∧
      txPayloads (eventsSince (Bus.init (fun _ => 0) (fun _ => true)) b1) =
        (List.range 32).map (fun j => (8 * j) :: List.replicate 8 0xFF) :=
  eraseAll_pages (EEPROM24C02.new 0x50) (fun _ => 0) (Bus.init (fun _ => 0) (fun _ => true))
    (fun _ => rfl)

/-- The call `readBytes` with the length 256: the conversion to `uint8_t` gives 0 and the
request is rejected before the bus is touched. -/
theorem readBytes_capacity (self : EEPROM24C02) (a : Nat) (b : Bus) :
    self.readBytes a false EEPROM_24C02_SIZE b = ((false, []), b) := by
  simp [EEPROM24C02.readBytes, u8]

/-- C8 (counterexample): after a successful `eraseAll`, `readBytes(0, capacity)`
with `capacity = 256` fails and delivers no byte: the `uint8_t` length parameter
receives `256 mod 256 = 0`, which `readBytes` rejects. -/
theorem eraseAll_readBytes_capacity_fails :
    ((EEPROM24C02.new 0x50).eraseAll (fun _ => 0) (Bus.init (fun _ => 0) (fun _ => true))).map
      (fun r => (r.1, ((EEPROM24C02.new 0x50).readBytes 0 false EEPROM_24C02_SIZE r.2).1)) =
      some (true, (false, [])) := by
  rw [eraseAll_ok _ _ _ (fun _ => rfl)]
  simp [readBytes_capacity]

/-- C8 (amended): for arbitrary initial contents and a bus that acknowledges
everything, `eraseAll` succeeds and leaves `0xFF` in each of the 256 cells; a
following `readBytes(0, n)` with any length the 8-bit parameter can carry
(`1 ≤ n ≤ 255`) succeeds and returns `n` bytes, all `0xFF`. -/
theorem eraseAll_then_readBytes (self : EEPROM24C02) (beyond : Nat → Nat) (b : Bus) (n : Nat)
    (hn1 : 1 ≤ n) (hn : n < 256) (hok : ∀ k, b.outcome k = true) :
    ∃ b1, self.eraseAll beyond b = some (true, b1) ∧
      (∀ x, x < EEPROM_24C02_SIZE → b1.mem x = 0xFF) ∧
      (self.readBytes 0 false n b1).1 = (true, List.replicate n 0xFF) := by
  obtain ⟨r1, _, r3⟩ :=
    runChunks_ok self 0 (fun _ => 0xFF) 256 (chunkStarts 0 256 loopFuel 0) b hok
  have hmem : ∀ x, x < 256 →
      (runChunks self 0 (fun _ => 0xFF) 256 (chunkStarts 0 256 loopFuel 0) b).2.mem x = 0xFF := by
    intro x hx
    rw [runChunks_mem self 0 256 (fun _ => 0xFF) (by omega) loopFuel 0 b
      (by simp only [loopFuel]; omega) hok x]
    have : 0 + 0 ≤ x ∧ x < 0 + 256 := by omega
    simp [this]
  refine ⟨_, ?_, hmem, ?_⟩
  · rw [eraseAll_eq_run, ← r1]
  · rw [readBytes_ok self 0 n _ (by omega) hn1 hn (by intro k; rw [r3]; exact hok k)]
    congr 1
    have hcell : ∀ i ∈ List.range n,
        (runChunks self 0 (fun _ => 0xFF) 256 (chunkStarts 0 256 loopFuel 0) b).2.mem
          ((0 + i) % 256) = 0xFF :=
      fun i _ => hmem _ (Nat.mod_lt _ (by omega))
    rw [List.map_congr_left hcell, List.map_const', List.length_range]

theorem eraseAll_then_readBytes_witness :
    ∃ b1, (EEPROM24C02.new 0x50).eraseAll (fun _ => 0)
        (Bus.init (fun x => x % 7) (fun _ => true)) = some (true, b1) ∧
      (∀ x, x < EEPROM_24C02_SIZE → b1.mem x = 0xFF) ∧
      ((EEPROM24C02.new 0x50).readBytes 0 false 255 b1).1 = (true, List.replicate 255 0xFF) :=
  eraseAll_then_readBytes (EEPROM24C02.new 0x50) (fun _ => 0)
    (Bus.init (fun x => x % 7) (fun _ => true)) 255 (by decide) (by decide) (fun _ => rfl)

/-! ### Failure during `eraseAll` -/

/-- A run whose first `m` transfers are acknowledged and whose next transfer is
not: it fails after exactly `m + 1` transactions, those of the first `m + 1`
chunks. -/
theorem runChunks_fail (self : EEPROM24C02) (start : Nat) (buf : Nat → Nat) (length : Nat) :
    ∀ (ws : List Nat) (b : Bus) (m : Nat), m < ws.length →
      (∀ i, i < m → b.outcome (b.count + i) = true) → b.outcome (b.count + m) = false →
      (runChunks self start buf length ws b).1 = false ∧
      ∃ evs, (runChunks self start buf length ws b).2.log = b.log ++ evs ∧
        txPayloads evs = (ws.take (m + 1)).map (chunkPayload start buf length) ∧
        transferOks evs = List.replicate m true ++ [false] := by
  intro ws
  induction ws with
  | nil => intro b m h; simp at h
  | cons w ws ih =>
    intro b m hm hpre hfail
    cases m with
    | zero =>
      have hno : b.outcome b.count = false := by simpa using hfail
      refine ⟨by simp [runChunks, hno], [Event.acquire,
        Event.tx self._i2c_addr_8bit (chunkPayload start buf length w)
          I2cBegin.FuriHalI2cBeginStart I2cEnd.FuriHalI2cEndStop false, Event.release], ?_, ?_, ?_⟩
      · simp [runChunks, hno, chunkBus_log]
      · simp [txPayloads]
      · simp [transferOks]
    | succ m =>
      have hok : b.outcome b.count = true := by simpa using hpre 0 (by omega)
      have hcount : (furi_delay_ms 10 (chunkBus self (chunkPayload start buf length w) b)).count
          = b.count + 1 := by simp [furi_delay_ms, chunkBus_count]
      have hout : (furi_delay_ms 10 (chunkBus self (chunkPayload start buf length w) b)).outcome
          = b.outcome := by simp [furi_delay_ms, chunkBus_outcome]
      obtain ⟨h1, evs, h2, h3, h4⟩ :=
        ih (furi_delay_ms 10 (chunkBus self (chunkPayload start buf length w) b)) m
          (by simp only [List.length_cons] at hm; omega)
          (by
            intro i hi
            rw [hcount, hout, show b.count + 1 + i = b.count + (i + 1) by omega]
            exact hpre (i + 1) (by omega))
          (by
            rw [hcount, hout, show b.count + 1 + m = b.count + (m + 1) by omega]
            exact hfail)
      simp only [runChunks, hok, if_true]
      refine ⟨h1, chunkEvents self (chunkPayload start buf length w) ++ evs, ?_, ?_, ?_⟩
      · rw [h2]
        simp [furi_delay_ms, chunkBus_log, hok, chunkEvents]
      · rw [txPayloads_append, h3]
        simp [chunkEvents, txPayloads]
      · rw [transferOks_append, h4]
        simp [chunkEvents, transferOks, List.replicate_succ]

/-- C10: for every `k` in `1..32`, on a bus whose first `k - 1` transfers are
acknowledged and whose `k`-th transfer is not, `eraseAll` returns `false` having
issued exactly `k` transactions, those of pages `0..k-1`: no page after the
failing one is attempted. -/
theorem eraseAll_aborts_at_failure (self : EEPROM24C02) (beyond : Nat → Nat) (b : Bus) (k : Nat)
    (hk1 : 1 ≤ k) (hk : k ≤ 32)
    (hpre : ∀ i, i < k - 1 → b.outcome (b.count + i) = true)
    (hfail : b.outcome (b.count + (k - 1)) = false) :
    ∃ b1, self.eraseAll beyond b = some (false, b1) ∧
      (txPayloads (eventsSince b b1)).length = k ∧
      txPayloads (eventsSince b b1) =
        (List.range k).map (fun j => (8 * j) :: List.replicate 8 0xFF) ∧
      transferOks (eventsSince b b1) = List.replicate (k - 1) true ++ [false] := by
  have hlen : (chunkStarts 0 256 loopFuel 0).length = 32 := by rw [pageStarts_eq]; simp
  obtain ⟨h1, evs, h2, h3, h4⟩ :=
    runChunks_fail self 0 (fun _ => 0xFF) 256 (chunkStarts 0 256 loopFuel 0) b (k - 1)
      (by omega) hpre hfail
  have hpay : txPayloads evs = (List.range k).map (fun j => (8 * j) :: List.replicate 8 0xFF) := by
    rw [h3, show k - 1 + 1 = k by omega, List.map_take, pagePayloads_eq, ← List.map_take,
      List.take_range, Nat.min_eq_left hk]
    rfl
  refine ⟨(runChunks self 0 (fun _ => 0xFF) 256 (chunkStarts 0 256 loopFuel 0) b).2,
    ?_, ?_, ?_, ?_⟩
  · rw [eraseAll_eq_run, ← h1]
  · rw [eventsSince_append _ _ _ h2, hpay]; simp
  · rw [eventsSince_append _ _ _ h2, hpay]
  · rw [eventsSince_append _ _ _ h2, h4]

theorem eraseAll_aborts_at_failure_witness :
    ∃ b1, (EEPROM24C02.new 0x50).eraseAll (fun _ => 0)
        (Bus.init (fun _ => 0) (fun i => decide (i ≠ 2))) = some (false, b1) ∧
      (txPayloads (eventsSince (Bus.init (fun _ => 0) (fun i => decide (i ≠ 2))) b1)).length = 3 ∧
      txPayloads (eventsSince (Bus.init (fun _ => 0) (fun i => decide (i ≠ 2))) b1) =
        (List.range 3).map (fun j => (8 * j) :: List.replicate 8 0xFF) ∧
      transferOks (eventsSince (Bus.init (fun _ => 0) (fun i => decide (i ≠ 2))) b1) =
        List.replicate (3 - 1) true ++ [false] :=
  eraseAll_aborts_at_failure (EEPROM24C02.new 0x50) (fun _ => 0)
    (Bus.init (fun _ => 0) (fun i => decide (i ≠ 2))) 3 (by decide) (by decide)
    (by decide) (by decide)

/-! ## Single-byte operations, usage errors and the slave address -/

/-- C11 (counterexample): `writeByte(0x10, 0xAB)` on a bus that does not
acknowledge the transfer: the log is acquire, transmit, release; no settle delay
follows the failed transaction. -/
theorem writeByte_failure_no_delay :
    eventsSince (Bus.init (fun _ => 0) (fun _ => false))
        ((EEPROM24C02.new 0x50).writeByte 0x10 0xAB (Bus.init (fun _ => 0) (fun _ => false))).2 =
      [Event.acquire,
       Event.tx 0xA0 [0x10, 0xAB] I2cBegin.FuriHalI2cBeginStart I2cEnd.FuriHalI2cEndStop false,
       Event.release] ∧
    ((EEPROM24C02.new 0x50).writeByte 0x10 0xAB (Bus.init (fun _ => 0) (fun _ => false))).1
      = false := by
  decide

/-- C11 (amended): for every address, every value and every outcome of the bus,
`writeByte` issues a single start...stop transaction transmitting exactly the two
bytes `[address, value]` and returns its outcome; the settle delay of 10 ms is
performed after the release exactly when the transaction was acknowledged. -/
theorem writeByte_single_transaction (self : EEPROM24C02) (memory_addr data : Nat) (b : Bus)
    (ha : memory_addr < 256) (hd : data < 256) :
    (self.writeByte memory_addr data b).1 = b.outcome b.count ∧
    eventsSince b (self.writeByte memory_addr data b).2 =
      [Event.acquire,
       Event.tx self._i2c_addr_8bit [memory_addr, data] I2cBegin.FuriHalI2cBeginStart
         I2cEnd.FuriHalI2cEndStop (b.outcome b.count),
       Event.release] ++ (if b.outcome b.count = true then [Event.delay 10] else []) := by
  have h1 : u8 memory_addr = memory_addr := Nat.mod_eq_of_lt ha
  have h2 : u8 data = data := Nat.mod_eq_of_lt hd
  cases h : b.outcome b.count <;>
    simp [EEPROM24C02.writeByte, eventsSince, furi_hal_i2c_tx_ext, furi_hal_i2c_acquire,
      furi_hal_i2c_release, furi_delay_ms, h, h1, h2]

theorem writeByte_single_transaction_witness :
    ((EEPROM24C02.new 0x50).writeByte 0x10 0xAB (Bus.init (fun _ => 0) (fun _ => true))).1 =
      (Bus.init (fun _ => 0) (fun _ => true)).outcome (Bus.init (fun _ => 0) (fun _ => true)).count ∧
    eventsSince (Bus.init (fun _ => 0) (fun _ => true))
        ((EEPROM24C02.new 0x50).writeByte 0x10 0xAB (Bus.init (fun _ => 0) (fun _ => true))).2 =
      [Event.acquire,
       Event.tx (EEPROM24C02.new 0x50)._i2c_addr_8bit [0x10, 0xAB] I2cBegin.FuriHalI2cBeginStart
         I2cEnd.FuriHalI2cEndStop
         ((Bus.init (fun _ => 0) (fun _ => true)).outcome
           (Bus.init (fun _ => 0) (fun _ => true)).count),
       Event.release] ++
      (if (Bus.init (fun _ => 0) (fun _ => true)).outcome
          (Bus.init (fun _ => 0) (fun _ => true)).count = true then [Event.delay 10] else []) :=
  writeByte_single_transaction (EEPROM24C02.new 0x50) 0x10 0xAB
    (Bus.init (fun _ => 0) (fun _ => true)) (by decide) (by decide)


/-- C12: for `readByte`, and for `readBytes` with a length in `1..255` and a
non-null buffer, under any outcome of the bus: the address phase transmits
exactly one byte, the memory address (start, no stop); the receive phase
(1 byte, respectively `length` bytes, restart...stop) is in the log exactly when
the address phase was acknowledged; and the operation returns `true` exactly when
both phases were acknowledged. -/
theorem read_two_phase (self : EEPROM24C02) (memory_addr n : Nat) (b : Bus)
    (ha : memory_addr < 256) (hn1 : 1 ≤ n) (hn : n < 256) :
    (eventsSince b (self.readByte memory_addr b).2 =
        readEvents self._i2c_addr_8bit memory_addr 1 (b.outcome b.count)
          (b.outcome (b.count + 1)) ∧
      ((self.readByte memory_addr b).1.1 = true ↔
        b.outcome b.count = true ∧ b.outcome (b.count + 1) = true)) ∧
    (eventsSince b (self.readBytes memory_addr false n b).2 =
        readEvents self._i2c_addr_8bit memory_addr n (b.outcome b.count)
          (b.outcome (b.count + 1)) ∧
      ((self.readBytes memory_addr false n b).1.1 = true ↔
        b.outcome b.count = true ∧ b.outcome (b.count + 1) = true)) := by
  have h1 : u8 memory_addr = memory_addr := Nat.mod_eq_of_lt ha
  have h2 : u8 n = n := Nat.mod_eq_of_lt hn
  have h3 : n ≠ 0 := by omega
  cases hx : b.outcome b.count <;> cases hy : b.outcome (b.count + 1) <;>
    simp [EEPROM24C02.readByte, EEPROM24C02.readBytes, readEvents, eventsSince,
      furi_hal_i2c_tx_ext, furi_hal_i2c_rx_ext, furi_hal_i2c_acquire, furi_hal_i2c_release,
      hx, hy, h1, h2, h3, deviceWrite, deviceStore]

theorem read_two_phase_witness :
    (eventsSince (Bus.init (fun _ => 7) (fun k => decide (k ≠ 1)))
        ((EEPROM24C02.new 0x50).readByte 0x20 (Bus.init (fun _ => 7) (fun k => decide (k ≠ 1)))).2 =
        readEvents (EEPROM24C02.new 0x50)._i2c_addr_8bit 0x20 1
          ((Bus.init (fun _ => 7) (fun k => decide (k ≠ 1))).outcome
            (Bus.init (fun _ => 7) (fun k => decide (k ≠ 1))).count)
          ((Bus.init (fun _ => 7) (fun k => decide (k ≠ 1))).outcome
            ((Bus.init (fun _ => 7) (fun k => decide (k ≠ 1))).count + 1)) ∧
      (((EEPROM24C02.new 0x50).readByte 0x20
          (Bus.init (fun _ => 7) (fun k => decide (k ≠ 1)))).1.1 = true ↔
        (Bus.init (fun _ => 7) (fun k => decide (k ≠ 1))).outcome
          (Bus.init (fun _ => 7) (fun k => decide (k ≠ 1))).count = true ∧
        (Bus.init (fun _ => 7) (fun k => decide (k ≠ 1))).outcome
          ((Bus.init (fun _ => 7) (fun k => decide (k ≠ 1))).count + 1) = true)) ∧
    (eventsSince (Bus.init (fun _ => 7) (fun k => decide (k ≠ 1)))
        ((EEPROM24C02.new 0x50).readBytes 0x20 false 16
          (Bus.init (fun _ => 7) (fun k => decide (k ≠ 1)))).2 =
        readEvents (EEPROM24C02.new 0x50)._i2c_addr_8bit 0x20 16
          ((Bus.init (fun _ => 7) (fun k => decide (k ≠ 1))).outcome
            (Bus.init (fun _ => 7) (fun k => decide (k ≠ 1))).count)
          ((Bus.init (fun _ => 7) (fun k => decide (k ≠ 1))).outcome
            ((Bus.init (fun _ => 7) (fun k => decide (k ≠ 1))).count + 1)) ∧
      (((EEPROM24C02.new 0x50).readBytes 0x20 false 16
          (Bus.init (fun _ => 7) (fun k => decide (k ≠ 1)))).1.1 = true ↔
        (Bus.init (fun _ => 7) (fun k => decide (k ≠ 1))).outcome
          (Bus.init (fun _ => 7) (fun k => decide (k ≠ 1))).count = true ∧
        (Bus.init (fun _ => 7) (fun k => decide (k ≠ 1))).outcome
          ((Bus.init (fun _ => 7) (fun k => decide (k ≠ 1))).count + 1) = true)) :=
  read_two_phase (EEPROM24C02.new 0x50) 0x20 16 (Bus.init (fun _ => 7) (fun k => decide (k ≠ 1)))
    (by decide) (by decide) (by decide)

/-- C13: a request with length 0 or with a null buffer never reaches the bus:
`readBytes` and `writeBytes` with length 0 or with `nullptr`, and `eraseRange`
with length 0, return `false` and leave the bus and its log exactly as they were
(no acquire, no transfer, no delay). -/
theorem usage_errors_leave_bus (self : EEPROM24C02) (a n : Nat) (buf beyond : Nat → Nat)
    (b : Bus) :
    self.readBytes a false 0 b = ((false, []), b) ∧
    self.readBytes a true n b = ((false, []), b) ∧
    self.writeBytes a (some buf) 0 b = some (false, b) ∧
    self.writeBytes a none n b = some (false, b) ∧
    self.eraseRange beyond a 0 b = some (false, b) := by
  refine ⟨?_, ?_, ?_, ?_, ?_⟩ <;>
    simp [EEPROM24C02.readBytes, EEPROM24C02.writeBytes, EEPROM24C02.eraseRange, u8]

theorem shift_roundtrip (a : Nat) (ha : a ≤ 127) : u8 (u8 (u8 a <<< 1) >>> 1) = a := by
  simp only [u8, Nat.shiftLeft_eq, Nat.shiftRight_eq_div_pow]
  omega

theorem shift_eq_double (a : Nat) (ha : a ≤ 127) : u8 (u8 a <<< 1) = 2 * a := by
  simp only [u8, Nat.shiftLeft_eq]
  omega

/-- C14: for every 7-bit slave address `a` (`0 ≤ a ≤ 127`), `getAddress` returns
`a` after `setAddress(a)` on any driver object, and returns `a` on a driver
constructed with `a`. -/
theorem getAddress_setAddress (self : EEPROM24C02) (a : Nat) (ha : a ≤ 127) :
    (self.setAddress a).getAddress = a ∧ (EEPROM24C02.new a).getAddress = a := by
  exact ⟨shift_roundtrip a ha, shift_roundtrip a ha⟩

theorem getAddress_setAddress_witness :
    ((EEPROM24C02.new 0x50).setAddress 0x57).getAddress = 0x57 ∧
      (EEPROM24C02.new 0x57).getAddress = 0x57 :=
  getAddress_setAddress (EEPROM24C02.new 0x50) 0x57 (by decide)

/-- C15: for every previously configured driver and every 7-bit address `a`,
`isAvailable` called right after `setAddress(a)` performs exactly one one-byte
receive addressed to the bus address `2 * a`, between acquire and release,
returns whether that receive was acknowledged, and the configured address read
back by `getAddress` is `a`. -/
theorem isAvailable_after_setAddress (self : EEPROM24C02) (a : Nat) (b : Bus) (ha : a ≤ 127) :
    ((self.setAddress a).isAvailable b).1 = b.outcome b.count ∧
    eventsSince b ((self.setAddress a).isAvailable b).2 =
      [Event.acquire,
       Event.rx (2 * a) 1 I2cBegin.FuriHalI2cBeginStart I2cEnd.FuriHalI2cEndStop
         (b.outcome b.count),
       Event.release] ∧
    (self.setAddress a).getAddress = a := by
  refine ⟨?_, ?_, shift_roundtrip a ha⟩
  · simp [EEPROM24C02.isAvailable, furi_hal_i2c_rx, furi_hal_i2c_rx_ext, furi_hal_i2c_acquire]
  · simp [EEPROM24C02.isAvailable, EEPROM24C02.setAddress, furi_hal_i2c_rx, furi_hal_i2c_rx_ext,
      furi_hal_i2c_acquire, furi_hal_i2c_release, eventsSince, shift_eq_double a ha]

theorem isAvailable_after_setAddress_witness :
    (((EEPROM24C02.new 0x50).setAddress 0x57).isAvailable
        (Bus.init (fun _ => 0) (fun _ => true))).1 =
      (Bus.init (fun _ => 0) (fun _ => true)).outcome
        (Bus.init (fun _ => 0) (fun _ => true)).count ∧
    eventsSince (Bus.init (fun _ => 0) (fun _ => true))
        (((EEPROM24C02.new 0x50).setAddress 0x57).isAvailable
          (Bus.init (fun _ => 0) (fun _ => true))).2 =
      [Event.acquire,
       Event.rx (2 * 0x57) 1 I2cBegin.FuriHalI2cBeginStart I2cEnd.FuriHalI2cEndStop
         ((Bus.init (fun _ => 0) (fun _ => true)).outcome
           (Bus.init (fun _ => 0) (fun _ => true)).count),
       Event.release] ∧
    ((EEPROM24C02.new 0x50).setAddress 0x57).getAddress = 0x57 :=
  isAvailable_after_setAddress (EEPROM24C02.new 0x50) 0x57
    (Bus.init (fun _ => 0) (fun _ => true)) (by decide)

/-! ## The progressive operations of the application -/

/-- C16: when `current_time - last_update` (modulo `2^32`) is below the minimum
interval, 30 ticks for `process_read_step` and 50 ticks for
`process_erase_step`, the step returns the application state unchanged (cursor,
running flag, progress value, last-step time and everything else) and the
environment unchanged but for the clock having been read once: the bus and its
log are untouched. -/
theorem step_not_due_unchanged (app : EEPROMApp) (e : Env) :
    (sub32 (u32 (e.tick e.ticks_read)) app.read_last_update < 30 →
      process_read_step app e = (app, { e with ticks_read := e.ticks_read + 1 })) ∧
    (sub32 (u32 (e.tick e.ticks_read)) app.erase_last_update < 50 →
      process_erase_step app e = some (app, { e with ticks_read := e.ticks_read + 1 })) := by
  constructor
  · intro h
    have h2 : ¬ sub32 (u32 (e.tick e.ticks_read)) app.read_last_update ≥ 30 := by omega
    simp [process_read_step, furi_get_tick, h2]
  · intro h
    have h2 : ¬ sub32 (u32 (e.tick e.ticks_read)) app.erase_last_update ≥ 50 := by omega
    simp [process_erase_step, furi_get_tick, h2]

theorem step_not_due_unchanged_witness :
    (sub32 (u32 ((Env.init (fun _ => 0) (fun _ => true) (fun _ => 120)).tick
          (Env.init (fun _ => 0) (fun _ => true) (fun _ => 120)).ticks_read))
        sampleBusy.read_last_update < 30 ∧
      process_read_step sampleBusy (Env.init (fun _ => 0) (fun _ => true) (fun _ => 120)) =
        (sampleBusy, { Env.init (fun _ => 0) (fun _ => true) (fun _ => 120) with
           ticks_read := (Env.init (fun _ => 0) (fun _ => true) (fun _ => 120)).ticks_read + 1 })) ∧
    (sub32 (u32 ((Env.init (fun _ => 0) (fun _ => true) (fun _ => 120)).tick
          (Env.init (fun _ => 0) (fun _ => true) (fun _ => 120)).ticks_read))
        sampleBusy.erase_last_update < 50 ∧
      process_erase_step sampleBusy (Env.init (fun _ => 0) (fun _ => true) (fun _ => 120)) =
        some (sampleBusy, { Env.init (fun _ => 0) (fun _ => true) (fun _ => 120) with
           ticks_read := (Env.init (fun _ => 0) (fun _ => true) (fun _ => 120)).ticks_read + 1 })) :=
  ⟨⟨by decide, (step_not_due_unchanged sampleBusy
      (Env.init (fun _ => 0) (fun _ => true) (fun _ => 120))).1 (by decide)⟩,
   ⟨by decide, (step_not_due_unchanged sampleBusy
      (Env.init (fun _ => 0) (fun _ => true) (fun _ => 120))).2 (by decide)⟩⟩

/-! ### One due step -/

theorem readBytes_outcome (self : EEPROM24C02) (a n : Nat) (null : Bool) (b : Bus) :
    (self.readBytes a null n b).2.outcome = b.outcome := by
  unfold EEPROM24C02.readBytes
  simp only [furi_hal_i2c_tx_ext, furi_hal_i2c_rx_ext, furi_hal_i2c_acquire,
    furi_hal_i2c_release, deviceWrite]
  split
  · rfl
  · split <;> rfl

/-- The log of a well-formed `readBytes` on a bus that acknowledges everything. -/
theorem readBytes_log_ok (self : EEPROM24C02) (a n : Nat) (b : Bus)
    (ha : a < 256) (hn1 : 1 ≤ n) (hn : n < 256) (hok : ∀ k, b.outcome k = true) :
    (self.readBytes a false n b).2.log =
      b.log ++ readEvents self._i2c_addr_8bit a n true true := by
  have h1 : u8 a = a := Nat.mod_eq_of_lt ha
  have h2 : u8 n = n := Nat.mod_eq_of_lt hn
  have h3 : n ≠ 0 := by omega
  simp [EEPROM24C02.readBytes, readEvents, furi_hal_i2c_tx_ext, furi_hal_i2c_rx_ext,
    furi_hal_i2c_acquire, furi_hal_i2c_release, hok, h1, h2, h3, deviceWrite, deviceStore]

/-- A due `process_read_step` with the cursor below the total: one `readBytes`
of `min(16, total - cursor)` bytes at the cursor, then either the progress
update or the failure report. -/
theorem process_read_step_due (app : EEPROMApp) (e : Env)
    (hdue : sub32 (u32 (e.tick e.ticks_read)) app.read_last_update ≥ 30)
    (hc : app.read_current_addr < app.read_total_bytes) (ht : app.read_total_bytes < 256) :
    process_read_step app e =
      if (app.eeprom.readBytes app.read_current_addr false
          (min 16 (app.read_total_bytes - app.read_current_addr)) e.bus).1.1 = true then
        ({ app with
            memory_data := storeAt app.memory_data app.read_current_addr
              (app.eeprom.readBytes app.read_current_addr false
                (min 16 (app.read_total_bytes - app.read_current_addr)) e.bus).1.2,
            read_current_addr :=
              app.read_current_addr + min 16 (app.read_total_bytes - app.read_current_addr),
            progress_value :=
              app.read_current_addr + min 16 (app.read_total_bytes - app.read_current_addr),
            read_last_update := u32 (e.tick e.ticks_read) },
         { e with ticks_read := e.ticks_read + 1,
                  bus := (app.eeprom.readBytes app.read_current_addr false
                    (min 16 (app.read_total_bytes - app.read_current_addr)) e.bus).2 })
      else
        show_message
          { app with
              memory_data := storeAt app.memory_data app.read_current_addr
                (app.eeprom.readBytes app.read_current_addr false
                  (min 16 (app.read_total_bytes - app.read_current_addr)) e.bus).1.2,
              reading := false, show_progress := false }
          "Read Failed!" false
          { e with ticks_read := e.ticks_read + 1,
                   bus := (app.eeprom.readBytes app.read_current_addr false
                     (min 16 (app.read_total_bytes - app.read_current_addr)) e.bus).2 } := by
  have hnot : ¬ app.read_current_addr ≥ app.read_total_bytes := by omega
  have hchunk : u8 (if app.read_current_addr + 16 ≤ app.read_total_bytes then 16
      else app.read_total_bytes - app.read_current_addr) =
      min 16 (app.read_total_bytes - app.read_current_addr) := by
    unfold u8; split <;> omega
  have hnext : u8 (app.read_current_addr +
      min 16 (app.read_total_bytes - app.read_current_addr)) =
      app.read_current_addr + min 16 (app.read_total_bytes - app.read_current_addr) := by
    unfold u8; omega
  simp only [process_read_step, furi_get_tick, hdue, hnot, if_true, if_false, hchunk, hnext]
  cases (app.eeprom.readBytes app.read_current_addr false
      (min 16 (app.read_total_bytes - app.read_current_addr)) e.bus).1.1 <;> simp

/-- A due `process_erase_step` with the cursor below 255: one `writeBytes` of
`min(8, 255 - cursor)` bytes of `0xFF` at the cursor, then either the progress
update or the failure report. -/
theorem process_erase_step_due (app : EEPROMApp) (e : Env)
    (hdue : sub32 (u32 (e.tick e.ticks_read)) app.erase_last_update ≥ 50)
    (hc : app.erase_current_addr < 255) :
    process_erase_step app e =
      match app.eeprom.writeBytes app.erase_current_addr
          (some (erase_data e.stack (min 8 (255 - app.erase_current_addr))))
          (min 8 (255 - app.erase_current_addr)) e.bus with
      | none => none
      | some (success, bus) =>
        if success = true then
          some ({ app with
              erase_current_addr := app.erase_current_addr + min 8 (255 - app.erase_current_addr),
              progress_value := app.erase_current_addr + min 8 (255 - app.erase_current_addr),
              erase_last_update := u32 (e.tick e.ticks_read) },
            { e with ticks_read := e.ticks_read + 1, bus := bus })
        else
          some (show_message { app with erasing := false, show_progress := false }
            "Erase Failed!" false { e with ticks_read := e.ticks_read + 1, bus := bus }) := by
  have hnot : ¬ app.erase_current_addr ≥ 255 := by omega
  have hchunk : u8 (if app.erase_current_addr + 8 ≤ 255 then 8
      else 255 - app.erase_current_addr) = min 8 (255 - app.erase_current_addr) := by
    unfold u8; split <;> omega
  have hnext : u8 (app.erase_current_addr + min 8 (255 - app.erase_current_addr)) =
      app.erase_current_addr + min 8 (255 - app.erase_current_addr) := by
    unfold u8; omega
  simp only [process_erase_step, furi_get_tick, hdue, hnot, if_true, if_false, hchunk, hnext]
  cases app.eeprom.writeBytes app.erase_current_addr
      (some (erase_data e.stack (min 8 (255 - app.erase_current_addr))))
      (min 8 (255 - app.erase_current_addr)) e.bus with
  | none => rfl
  | some r =>
    obtain ⟨success, bus⟩ := r
    cases success <;> simp

/-! ### Redraw ticks while nothing is running -/

theorem drawHexDump_bus (app : EEPROMApp) :
    ∀ (fuel i : Nat) (e : Env), (drawHexDump app fuel i e).bus = e.bus := by
  intro fuel
  induction fuel with
  | zero => intro i e; rfl
  | succ fuel ih =>
    intro i e
    simp only [drawHexDump]
    split
    · rw [ih]; rfl
    · rfl

theorem drawMessage_bus (app : EEPROMApp) (x y : Nat) (e : Env) :
    (drawMessage app x y e).bus = e.bus := by
  simp only [drawMessage, furi_get_tick, canvasCall]
  split
  · split <;> rfl
  · rfl

theorem draw_read_screen_idle (app : EEPROMApp) (e : Env) (h : app.reading = false) :
    ∃ e1, draw_read_screen app e = some (app, e1) ∧ e1.bus = e.bus := by
  simp only [draw_read_screen, h, Bool.false_eq_true, if_false, and_false]
  refine ⟨_, rfl, ?_⟩
  simp only [canvasCall, drawMessage_bus, drawHexDump_bus]

theorem draw_erase_screen_idle (app : EEPROMApp) (e : Env) (h : app.erasing = false) :
    ∃ e1, draw_erase_screen app e = some (app, e1) ∧ e1.bus = e.bus := by
  by_cases hp : app.show_progress = true
  · simp only [draw_erase_screen, h, Bool.false_eq_true, if_false, hp, if_true]
    refine ⟨_, rfl, ?_⟩
    simp only [canvasCall]
    split <;> rfl
  · simp only [draw_erase_screen, h, Bool.false_eq_true, if_false, hp]
    refine ⟨_, rfl, ?_⟩
    simp only [canvasCall, drawMessage_bus]

theorem readRedraws_idle (app : EEPROMApp) (h : app.reading = false) :
    ∀ (n : Nat) (e : Env), ∃ e1, readRedraws n app e = some (app, e1) ∧ e1.bus = e.bus := by
  intro n
  induction n with
  | zero => intro e; exact ⟨e, rfl, rfl⟩
  | succ n ih =>
    intro e
    obtain ⟨e1, h1, h2⟩ := draw_read_screen_idle app e h
    obtain ⟨e2, h3, h4⟩ := ih e1
    exact ⟨e2, by simp only [readRedraws, h1, h3], by rw [h4, h2]⟩

theorem eraseRedraws_idle (app : EEPROMApp) (h : app.erasing = false) :
    ∀ (n : Nat) (e : Env), ∃ e1, eraseRedraws n app e = some (app, e1) ∧ e1.bus = e.bus := by
  intro n
  induction n with
  | zero => intro e; exact ⟨e, rfl, rfl⟩
  | succ n ih =>
    intro e
    obtain ⟨e1, h1, h2⟩ := draw_erase_screen_idle app e h
    obtain ⟨e2, h3, h4⟩ := ih e1
    exact ⟨e2, by simp only [eraseRedraws, h1, h3], by rw [h4, h2]⟩

/-! ### Runs of the progressive read -/

theorem readSteps_add : ∀ (n m : Nat) (app : EEPROMApp) (e : Env),
    readSteps (n + m) app e = readSteps m (readSteps n app e).1 (readSteps n app e).2 := by
  intro n
  induction n with
  | zero => intro m app e; simp [readSteps]
  | succ n ih =>
    intro m app e
    rw [show n + 1 + m = (n + m) + 1 by omega]
    simp only [readSteps]
    exact ih m _ _

theorem readSteps_succ_last (n : Nat) (app : EEPROMApp) (e : Env) :
    readSteps (n + 1) app e =
      process_read_step (readSteps n app e).1 (readSteps n app e).2 := by
  rw [readSteps_add]
  rfl

theorem readStepsDue_add : ∀ (n m : Nat) (app : EEPROMApp) (e : Env),
    readStepsDue (n + m) app e =
      (readStepsDue n app e && readStepsDue m (readSteps n app e).1 (readSteps n app e).2) := by
  intro n
  induction n with
  | zero => intro m app e; simp [readSteps, readStepsDue]
  | succ n ih =>
    intro m app e
    rw [show n + 1 + m = (n + m) + 1 by omega]
    simp only [readStepsDue, readSteps]
    rw [ih m _ _, Bool.and_assoc]

theorem rxSizes_append (l1 l2 : List Event) : rxSizes (l1 ++ l2) = rxSizes l1 ++ rxSizes l2 := by
  induction l1 with
  | nil => rfl
  | cons x xs ih => cases x <;> simp [rxSizes, ih]

/-- The progressive read of 255 bytes on a bus that acknowledges everything:
after `j` due steps (`j ≤ 16`) the cursor is `min(16 j, 255)`, the read is still
running, and the log holds the `j` reads of `min(16, 255 - 16 i)` bytes at the
addresses `16 i`. -/
theorem readSteps_run (base : List Event) :
    ∀ (n j : Nat) (app : EEPROMApp) (e : Env), j + n ≤ 16 →
      app.reading = true → app.read_total_bytes = 255 →
      app.read_current_addr = min (16 * j) 255 → (∀ k, e.bus.outcome k = true) →
      (∃ evs, e.bus.log = base ++ evs ∧
        rxSizes evs = (List.range j).map (fun i => min 16 (255 - 16 * i)) ∧
        txPayloads evs = (List.range j).map (fun i => [16 * i])) →
      readStepsDue n app e = true →
      (readSteps n app e).1.reading = true ∧
      (readSteps n app e).1.read_total_bytes = 255 ∧
      (readSteps n app e).1.read_current_addr = min (16 * (j + n)) 255 ∧
      (∀ k, (readSteps n app e).2.bus.outcome k = true) ∧
      (∃ evs, (readSteps n app e).2.bus.log = base ++ evs ∧
        rxSizes evs = (List.range (j + n)).map (fun i => min 16 (255 - 16 * i)) ∧
        txPayloads evs = (List.range (j + n)).map (fun i => [16 * i])) := by
  intro n
  induction n with
  | zero =>
    intro j app e _ h1 h2 h3 h4 h5 _
    exact ⟨h1, h2, h3, h4, h5⟩
  | succ n ih =>
    intro j app e hj h1 h2 h3 h4 h5 hdue
    simp only [readStepsDue, Bool.and_eq_true, decide_eq_true_eq, furi_get_tick] at hdue
    obtain ⟨hd1, hd2⟩ := hdue
    have hc : app.read_current_addr = 16 * j := by omega
    have hlen1 : 1 ≤ min 16 (app.read_total_bytes - app.read_current_addr) := by omega
    have hres := readBytes_ok app.eeprom app.read_current_addr
      (min 16 (app.read_total_bytes - app.read_current_addr)) e.bus (by omega) hlen1 (by omega) h4
    have hlog := readBytes_log_ok app.eeprom app.read_current_addr
      (min 16 (app.read_total_bytes - app.read_current_addr)) e.bus (by omega) hlen1 (by omega) h4
    have hout := readBytes_outcome app.eeprom app.read_current_addr
      (min 16 (app.read_total_bytes - app.read_current_addr)) false e.bus
    have hsucc : (app.eeprom.readBytes app.read_current_addr false
        (min 16 (app.read_total_bytes - app.read_current_addr)) e.bus).1.1 = true := by
      rw [hres]
    have hstep := process_read_step_due app e hd1 (by omega) (by omega)
    rw [if_pos hsucc] at hstep
    simp only [readSteps]
    rw [hstep] at hd2 ⊢
    rw [show j + (n + 1) = (j + 1) + n by omega]
    refine ih (j + 1) _ _ (by omega) h1 h2 (by simp only; omega) ?_ ?_ hd2
    · intro k
      simp only
      rw [hout]; exact h4 k
    · obtain ⟨evs, he1, he2, he3⟩ := h5
      refine ⟨evs ++ readEvents app.eeprom._i2c_addr_8bit app.read_current_addr
        (min 16 (app.read_total_bytes - app.read_current_addr)) true true, ?_, ?_, ?_⟩
      · simp only
        rw [hlog, he1, List.append_assoc]
      · rw [rxSizes_append, he2, List.range_succ, List.map_append]
        simp [readEvents, rxSizes, h2, hc]
      · rw [txPayloads_append, he3, List.range_succ, List.map_append]
        simp [readEvents, txPayloads, hc]

/-! ### The chunk of a due step -/

/-- C18: on a due step with the cursor below the total, `process_read_step`
performs exactly one `readBytes` at memory address `cursor` with length
`min(16, total - cursor)`, and `process_erase_step` exactly one `writeBytes` at
address `cursor` with length `min(8, 255 - cursor)`; when that transfer succeeds
the cursor (and the progress value) advance by exactly that length and the
last-step time becomes the current time.  For the read started by
`read_memory_range` (total 255) on a bus that acknowledges everything, the
lengths requested by the 16 due steps are fifteen times 16, then 15, at the
addresses `0, 16, ..., 240`. -/
theorem due_step_transfers_one_chunk (app : EEPROMApp) (e : Env) (app0 : EEPROMApp)
    (e0 : Env) :
    (sub32 (u32 (e.tick e.ticks_read)) app.read_last_update ≥ 30 →
      app.read_current_addr < app.read_total_bytes →
      app.read_total_bytes < 256 →
      ((process_read_step app e).2.bus = (app.eeprom.readBytes app.read_current_addr false
          (min 16 (app.read_total_bytes - app.read_current_addr)) e.bus).2 ∧
        ((app.eeprom.readBytes app.read_current_addr false
          (min 16 (app.read_total_bytes - app.read_current_addr)) e.bus).1.1 = true →
          (process_read_step app e).1.read_current_addr =
            app.read_current_addr + min 16 (app.read_total_bytes - app.read_current_addr) ∧
          (process_read_step app e).1.progress_value =
            app.read_current_addr + min 16 (app.read_total_bytes - app.read_current_addr) ∧
          (process_read_step app e).1.read_last_update = u32 (e.tick e.ticks_read)))) ∧
    (sub32 (u32 (e.tick e.ticks_read)) app.erase_last_update ≥ 50 →
      app.erase_current_addr < 255 →
      (∃ success bus1, app.eeprom.writeBytes app.erase_current_addr
          (some (erase_data e.stack (min 8 (255 - app.erase_current_addr))))
          (min 8 (255 - app.erase_current_addr)) e.bus = some (success, bus1) ∧
        ∃ app1 e1, process_erase_step app e = some (app1, e1) ∧ e1.bus = bus1 ∧
          (success = true →
            app1.erase_current_addr =
              app.erase_current_addr + min 8 (255 - app.erase_current_addr) ∧
            app1.progress_value =
              app.erase_current_addr + min 8 (255 - app.erase_current_addr) ∧
            app1.erase_last_update = u32 (e.tick e.ticks_read)))) ∧
    ((∀ k, e0.bus.outcome k = true) →
      readStepsDue 16 (read_memory_range app0 e0).1.2 (read_memory_range app0 e0).2 = true →
      (rxSizes (eventsSince e0.bus (readSteps 16 (read_memory_range app0 e0).1.2 (read_memory_range app0 e0).2).2.bus) =
          List.replicate 15 16 ++ [15] ∧
        txPayloads (eventsSince e0.bus (readSteps 16 (read_memory_range app0 e0).1.2 (read_memory_range app0 e0).2).2.bus) =
          (List.range 16).map (fun j => [16 * j]))) := by
  refine ⟨?_, ?_, ?_⟩
  · intro hdue hc ht
    rw [process_read_step_due app e hdue hc ht]
    constructor
    · split
      · rfl
      · rfl
    · intro hs
      rw [if_pos hs]
      exact ⟨rfl, rfl, rfl⟩
  · intro hdue hc
    rw [process_erase_step_due app e hdue hc,
      writeBytes_eq_run app.eeprom app.erase_current_addr (min 8 (255 - app.erase_current_addr))
        _ e.bus (by omega) (by omega) (by omega)]
    refine ⟨_, _, rfl, ?_⟩
    simp only
    split
    · next hs => exact ⟨_, _, rfl, rfl, fun _ => ⟨rfl, rfl, rfl⟩⟩
    · next hs => exact ⟨_, _, rfl, rfl, fun h => absurd h hs⟩
  · intro hok hdue
    obtain ⟨_, _, _, _, evs, h1, h2, h3⟩ :=
      readSteps_run e0.bus.log 16 0 (read_memory_range app0 e0).1.2
        (read_memory_range app0 e0).2 (by omega) rfl rfl rfl hok
        ⟨[], by simp [read_memory_range, furi_get_tick], rfl, rfl⟩ hdue
    rw [eventsSince_append _ _ _ h1, h2, h3]
    exact ⟨by decide, rfl⟩

theorem due_step_transfers_one_chunk_witness :
    (sub32 (u32 (sampleEnvOk.tick sampleEnvOk.ticks_read)) sampleBusy.read_last_update ≥ 30 ∧
      sampleBusy.read_current_addr < sampleBusy.read_total_bytes ∧
      sampleBusy.read_total_bytes < 256 ∧
      ((process_read_step sampleBusy sampleEnvOk).2.bus = (sampleBusy.eeprom.readBytes sampleBusy.read_current_addr false
          (min 16 (sampleBusy.read_total_bytes - sampleBusy.read_current_addr)) sampleEnvOk.bus).2 ∧
        ((sampleBusy.eeprom.readBytes sampleBusy.read_current_addr false
          (min 16 (sampleBusy.read_total_bytes - sampleBusy.read_current_addr)) sampleEnvOk.bus).1.1 = true →
          (process_read_step sampleBusy sampleEnvOk).1.read_current_addr =
            sampleBusy.read_current_addr + min 16 (sampleBusy.read_total_bytes - sampleBusy.read_current_addr) ∧
          (process_read_step sampleBusy sampleEnvOk).1.progress_value =
            sampleBusy.read_current_addr + min 16 (sampleBusy.read_total_bytes - sampleBusy.read_current_addr) ∧
          (process_read_step sampleBusy sampleEnvOk).1.read_last_update = u32 (sampleEnvOk.tick sampleEnvOk.ticks_read)))) ∧
    (sub32 (u32 (sampleEnvOk.tick sampleEnvOk.ticks_read)) sampleBusy.erase_last_update ≥ 50 ∧
      sampleBusy.erase_current_addr < 255 ∧
      (∃ success bus1, sampleBusy.eeprom.writeBytes sampleBusy.erase_current_addr
          (some (erase_data sampleEnvOk.stack (min 8 (255 - sampleBusy.erase_current_addr))))
          (min 8 (255 - sampleBusy.erase_current_addr)) sampleEnvOk.bus = some (success, bus1) ∧
        ∃ app1 e1, process_erase_step sampleBusy sampleEnvOk = some (app1, e1) ∧ e1.bus = bus1 ∧
          (success = true →
            app1.erase_current_addr =
              sampleBusy.erase_current_addr + min 8 (255 - sampleBusy.erase_current_addr) ∧
            app1.progress_value =
              sampleBusy.erase_current_addr + min 8 (255 - sampleBusy.erase_current_addr) ∧
            app1.erase_last_update = u32 (sampleEnvOk.tick sampleEnvOk.ticks_read)))) ∧
    ((∀ k, sampleEnvOk.bus.outcome k = true) ∧
      readStepsDue 16 (read_memory_range sampleApp sampleEnvOk).1.2 (read_memory_range sampleApp sampleEnvOk).2 = true ∧
      (rxSizes (eventsSince sampleEnvOk.bus (readSteps 16 (read_memory_range sampleApp sampleEnvOk).1.2 (read_memory_range sampleApp sampleEnvOk).2).2.bus) =
          List.replicate 15 16 ++ [15] ∧
        txPayloads (eventsSince sampleEnvOk.bus (readSteps 16 (read_memory_range sampleApp sampleEnvOk).1.2 (read_memory_range sampleApp sampleEnvOk).2).2.bus) =
          (List.range 16).map (fun j => [16 * j]))) :=
  ⟨⟨by decide, by decide, by decide,
    (due_step_transfers_one_chunk sampleBusy sampleEnvOk sampleApp sampleEnvOk).1
      (by decide) (by decide) (by decide)⟩,
   ⟨by decide, by decide,
    (due_step_transfers_one_chunk sampleBusy sampleEnvOk sampleApp sampleEnvOk).2.1
      (by decide) (by decide)⟩,
   ⟨fun _ => rfl, by decide,
    (due_step_transfers_one_chunk sampleBusy sampleEnvOk sampleApp sampleEnvOk).2.2
      (fun _ => rfl) (by decide)⟩⟩

/-! ### Failure of a chunk -/

theorem show_message_fields (app : EEPROMApp) (message : String) (success : Bool) (e : Env) :
    (show_message app message success e).1.reading = app.reading ∧
    (show_message app message success e).1.erasing = app.erasing ∧
    (show_message app message success e).1.operation_success = success ∧
    (show_message app message success e).1.show_message = true ∧
    (show_message app message success e).1.read_current_addr = app.read_current_addr ∧
    (show_message app message success e).1.erase_current_addr = app.erase_current_addr ∧
    (show_message app message success e).2.bus = e.bus :=
  ⟨rfl, rfl, rfl, rfl, rfl, rfl, rfl⟩

/-- C19: when the transfer of a due step fails, `process_read_step`
(respectively `process_erase_step`) has issued that one transfer only, clears the
running flag, reports failure (`operation_success = false`, message shown) and
leaves the cursor at its value before the step; any number `n` of later redraw
ticks of the screen leaves the application state and the bus untouched (the
chunk is not retried); starting the operation again sets the cursor to 0. -/
theorem failed_chunk_is_fatal (app : EEPROMApp) (e : Env) (n : Nat) :
    (sub32 (u32 (e.tick e.ticks_read)) app.read_last_update ≥ 30 →
      app.read_current_addr < app.read_total_bytes →
      app.read_total_bytes < 256 →
      (app.eeprom.readBytes app.read_current_addr false
          (min 16 (app.read_total_bytes - app.read_current_addr)) e.bus).1.1 = false →
      ((process_read_step app e).1.reading = false ∧
        (process_read_step app e).1.operation_success = false ∧
        (process_read_step app e).1.show_message = true ∧
        (process_read_step app e).1.read_current_addr = app.read_current_addr ∧
        (process_read_step app e).2.bus = (app.eeprom.readBytes app.read_current_addr false
          (min 16 (app.read_total_bytes - app.read_current_addr)) e.bus).2 ∧
        (∃ e1, readRedraws n (process_read_step app e).1 (process_read_step app e).2 = some ((process_read_step app e).1, e1) ∧
          e1.bus = (process_read_step app e).2.bus) ∧
        (read_memory_range (process_read_step app e).1 (process_read_step app e).2).1.2.read_current_addr = 0 ∧
        (read_memory_range (process_read_step app e).1 (process_read_step app e).2).1.2.reading = true)) ∧
    (sub32 (u32 (e.tick e.ticks_read)) app.erase_last_update ≥ 50 →
      app.erase_current_addr < 255 →
      (app.eeprom.writeBytes app.erase_current_addr
          (some (erase_data e.stack (min 8 (255 - app.erase_current_addr))))
          (min 8 (255 - app.erase_current_addr)) e.bus).map Prod.fst = some false →
      (∃ app1 e1, process_erase_step app e = some (app1, e1) ∧
        app1.erasing = false ∧ app1.operation_success = false ∧ app1.show_message = true ∧
        app1.erase_current_addr = app.erase_current_addr ∧
        (app.eeprom.writeBytes app.erase_current_addr
          (some (erase_data e.stack (min 8 (255 - app.erase_current_addr))))
          (min 8 (255 - app.erase_current_addr)) e.bus).map Prod.snd = some e1.bus ∧
        (∃ e2, eraseRedraws n app1 e1 = some (app1, e2) ∧ e2.bus = e1.bus) ∧
        (erase_memory_range app1 0 255 e1).1.2.erase_current_addr = 0 ∧
        (erase_memory_range app1 0 255 e1).1.2.erasing = true)) := by
  refine ⟨?_, ?_⟩
  · intro hdue hc ht hfail
    have hstep := process_read_step_due app e hdue hc ht
    rw [if_neg (by rw [hfail]; decide)] at hstep
    rw [hstep]
    refine ⟨rfl, rfl, rfl, rfl, rfl, ?_, rfl, rfl⟩
    exact readRedraws_idle _ rfl n _
  · intro hdue hc hfail
    have hstep := process_erase_step_due app e hdue hc
    cases hw : app.eeprom.writeBytes app.erase_current_addr
        (some (erase_data e.stack (min 8 (255 - app.erase_current_addr))))
        (min 8 (255 - app.erase_current_addr)) e.bus with
    | none => rw [hw] at hfail; simp at hfail
    | some r =>
      obtain ⟨success, bus⟩ := r
      rw [hw] at hfail hstep
      simp only [Option.map_some', Option.some.injEq] at hfail
      subst hfail
      simp only [Bool.false_eq_true, if_false] at hstep
      refine ⟨_, _, hstep, rfl, rfl, rfl, rfl, rfl, ?_, rfl, rfl⟩
      exact eraseRedraws_idle _ rfl n _

theorem failed_chunk_is_fatal_witness :
    (sub32 (u32 (sampleEnvFail.tick sampleEnvFail.ticks_read)) sampleBusy.read_last_update ≥ 30 ∧
      sampleBusy.read_current_addr < sampleBusy.read_total_bytes ∧
      sampleBusy.read_total_bytes < 256 ∧
      (sampleBusy.eeprom.readBytes sampleBusy.read_current_addr false
          (min 16 (sampleBusy.read_total_bytes - sampleBusy.read_current_addr)) sampleEnvFail.bus).1.1 = false ∧
      ((process_read_step sampleBusy sampleEnvFail).1.reading = false ∧
        (process_read_step sampleBusy sampleEnvFail).1.operation_success = false ∧
        (process_read_step sampleBusy sampleEnvFail).1.show_message = true ∧
        (process_read_step sampleBusy sampleEnvFail).1.read_current_addr = sampleBusy.read_current_addr ∧
        (process_read_step sampleBusy sampleEnvFail).2.bus = (sampleBusy.eeprom.readBytes sampleBusy.read_current_addr false
          (min 16 (sampleBusy.read_total_bytes - sampleBusy.read_current_addr)) sampleEnvFail.bus).2 ∧
        (∃ e1, readRedraws 3 (process_read_step sampleBusy sampleEnvFail).1 (process_read_step sampleBusy sampleEnvFail).2 = some ((process_read_step sampleBusy sampleEnvFail).1, e1) ∧
          e1.bus = (process_read_step sampleBusy sampleEnvFail).2.bus) ∧
        (read_memory_range (process_read_step sampleBusy sampleEnvFail).1 (process_read_step sampleBusy sampleEnvFail).2).1.2.read_current_addr = 0 ∧
        (read_memory_range (process_read_step sampleBusy sampleEnvFail).1 (process_read_step sampleBusy sampleEnvFail).2).1.2.reading = true)) ∧
    (sub32 (u32 (sampleEnvFail.tick sampleEnvFail.ticks_read)) sampleBusy.erase_last_update ≥ 50 ∧
      sampleBusy.erase_current_addr < 255 ∧
      (sampleBusy.eeprom.writeBytes sampleBusy.erase_current_addr
          (some (erase_data sampleEnvFail.stack (min 8 (255 - sampleBusy.erase_current_addr))))
          (min 8 (255 - sampleBusy.erase_current_addr)) sampleEnvFail.bus).map Prod.fst = some false ∧
      (∃ app1 e1, process_erase_step sampleBusy sampleEnvFail = some (app1, e1) ∧
        app1.erasing = false ∧ app1.operation_success = false ∧ app1.show_message = true ∧
        app1.erase_current_addr = sampleBusy.erase_current_addr ∧
        (sampleBusy.eeprom.writeBytes sampleBusy.erase_current_addr
          (some (erase_data sampleEnvFail.stack (min 8 (255 - sampleBusy.erase_current_addr))))
          (min 8 (255 - sampleBusy.erase_current_addr)) sampleEnvFail.bus).map Prod.snd = some e1.bus ∧
        (∃ e2, eraseRedraws 3 app1 e1 = some (app1, e2) ∧ e2.bus = e1.bus) ∧
        (erase_memory_range app1 0 255 e1).1.2.erase_current_addr = 0 ∧
        (erase_memory_range app1 0 255 e1).1.2.erasing = true)) :=
  ⟨⟨by decide, by decide, by decide, by decide,
    (failed_chunk_is_fatal sampleBusy sampleEnvFail 3).1
      (by decide) (by decide) (by decide) (by decide)⟩,
   ⟨by decide, by decide, by decide,
    (failed_chunk_is_fatal sampleBusy sampleEnvFail 3).2 (by decide) (by decide) (by decide)⟩⟩

/-! ### Completion of the progressive read -/

theorem process_read_step_done (app : EEPROMApp) (e : Env)
    (hdue : sub32 (u32 (e.tick e.ticks_read)) app.read_last_update ≥ 30)
    (hc : app.read_current_addr ≥ app.read_total_bytes) :
    process_read_step app e =
      show_message { app with reading := false, show_progress := false } "" true
        { e with ticks_read := e.ticks_read + 1 } := by
  simp only [process_read_step, furi_get_tick, hdue, hc, if_true]

/-- C17 (counterexample): the read started by `read_memory_range` on a bus that
acknowledges everything, every call of `process_read_step` being due.  After 16
due calls the cursor is 255 but `reading` is still `true` and no success has been
reported; the completed state is reached by the 17th due call. -/
theorem progressive_read_running_after_16 :
    readStepsDue 17 (read_memory_range sampleApp sampleEnvOk).1.2
        (read_memory_range sampleApp sampleEnvOk).2 = true ∧
    (readSteps 16 (read_memory_range sampleApp sampleEnvOk).1.2
        (read_memory_range sampleApp sampleEnvOk).2).1.reading = true ∧
    (readSteps 16 (read_memory_range sampleApp sampleEnvOk).1.2
        (read_memory_range sampleApp sampleEnvOk).2).1.operation_success = false ∧
    (readSteps 16 (read_memory_range sampleApp sampleEnvOk).1.2
        (read_memory_range sampleApp sampleEnvOk).2).1.read_current_addr = 255 ∧
    (readSteps 17 (read_memory_range sampleApp sampleEnvOk).1.2
        (read_memory_range sampleApp sampleEnvOk).2).1.reading = false := by
  decide

/-- C17 (amended): a progressive read started by `read_memory_range` (total 255,
chunks of 16) on a bus that never fails has transferred everything after exactly
16 due calls of `process_read_step`: after `k ≤ 16` due calls the cursor is
`min(16 k, 255)` and `reading` is still `true`.  The completed state (`reading`
false, success reported) is reached by the 17th due call, which finds the cursor
at the total and transfers nothing. -/
theorem progressive_read_completion (app0 : EEPROMApp) (e0 : Env)
    (hok : ∀ k, e0.bus.outcome k = true)
    (hdue : readStepsDue 17 (read_memory_range app0 e0).1.2 (read_memory_range app0 e0).2 = true) :
    (∀ k, k ≤ 16 →
      (readSteps k (read_memory_range app0 e0).1.2 (read_memory_range app0 e0).2).1.reading = true ∧
      (readSteps k (read_memory_range app0 e0).1.2 (read_memory_range app0 e0).2).1.read_current_addr = min (16 * k) 255) ∧
    (readSteps 17 (read_memory_range app0 e0).1.2 (read_memory_range app0 e0).2).1.reading = false ∧
    (readSteps 17 (read_memory_range app0 e0).1.2 (read_memory_range app0 e0).2).1.operation_success = true ∧
    (readSteps 17 (read_memory_range app0 e0).1.2 (read_memory_range app0 e0).2).1.show_message = true ∧
    (readSteps 17 (read_memory_range app0 e0).1.2 (read_memory_range app0 e0).2).1.read_current_addr = 255 ∧
    (readSteps 17 (read_memory_range app0 e0).1.2 (read_memory_range app0 e0).2).2.bus = (readSteps 16 (read_memory_range app0 e0).1.2 (read_memory_range app0 e0).2).2.bus := by
  have hrun : ∀ k, k ≤ 16 →
      (readSteps k (read_memory_range app0 e0).1.2 (read_memory_range app0 e0).2).1.reading = true ∧
      (readSteps k (read_memory_range app0 e0).1.2 (read_memory_range app0 e0).2).1.read_total_bytes = 255 ∧
      (readSteps k (read_memory_range app0 e0).1.2 (read_memory_range app0 e0).2).1.read_current_addr = min (16 * k) 255 := by
    intro k hk
    have hsplit := readStepsDue_add k (17 - k) (read_memory_range app0 e0).1.2
      (read_memory_range app0 e0).2
    rw [show k + (17 - k) = 17 by omega, hdue] at hsplit
    have hduek : readStepsDue k (read_memory_range app0 e0).1.2 (read_memory_range app0 e0).2 = true := by
      have := hsplit.symm
      simp only [Bool.and_eq_true] at this
      exact this.1
    obtain ⟨h1, h2, h3, _, _⟩ :=
      readSteps_run e0.bus.log k 0 (read_memory_range app0 e0).1.2
        (read_memory_range app0 e0).2 (by omega) rfl rfl rfl hok
        ⟨[], by simp [read_memory_range, furi_get_tick], rfl, rfl⟩ hduek
    exact ⟨h1, h2, by simpa using h3⟩
  refine ⟨fun k hk => ⟨(hrun k hk).1, (hrun k hk).2.2⟩, ?_⟩
  obtain ⟨h1, h2, h3⟩ := hrun 16 (by omega)
  have hsplit := readStepsDue_add 16 1 (read_memory_range app0 e0).1.2
    (read_memory_range app0 e0).2
  rw [show 16 + 1 = 17 by omega, hdue] at hsplit
  have hlast : readStepsDue 1 (readSteps 16 (read_memory_range app0 e0).1.2 (read_memory_range app0 e0).2).1 (readSteps 16 (read_memory_range app0 e0).1.2 (read_memory_range app0 e0).2).2 = true := by
    have := hsplit.symm
    simp only [Bool.and_eq_true] at this
    exact this.2
  simp only [readStepsDue, Bool.and_true, decide_eq_true_eq, furi_get_tick] at hlast
  have h17 := readSteps_succ_last 16 (read_memory_range app0 e0).1.2
    (read_memory_range app0 e0).2
  rw [show 16 + 1 = 17 from rfl] at h17
  rw [h17]
  generalize readSteps 16 (read_memory_range app0 e0).1.2 (read_memory_range app0 e0).2 = s16
    at h1 h2 h3 hlast
  rw [process_read_step_done s16.1 s16.2 hlast (by rw [h2, h3]; omega)]
  exact ⟨rfl, rfl, rfl, h3, rfl⟩

theorem progressive_read_completion_witness :
    (∀ k, k ≤ 16 →
      (readSteps k (read_memory_range sampleApp sampleEnvOk).1.2
        (read_memory_range sampleApp sampleEnvOk).2).1.reading = true ∧
      (readSteps k (read_memory_range sampleApp sampleEnvOk).1.2
        (read_memory_range sampleApp sampleEnvOk).2).1.read_current_addr = min (16 * k) 255) ∧
    (readSteps 17 (read_memory_range sampleApp sampleEnvOk).1.2
      (read_memory_range sampleApp sampleEnvOk).2).1.reading = false ∧
    (readSteps 17 (read_memory_range sampleApp sampleEnvOk).1.2
      (read_memory_range sampleApp sampleEnvOk).2).1.operation_success = true ∧
    (readSteps 17 (read_memory_range sampleApp sampleEnvOk).1.2
      (read_memory_range sampleApp sampleEnvOk).2).1.show_message = true ∧
    (readSteps 17 (read_memory_range sampleApp sampleEnvOk).1.2
      (read_memory_range sampleApp sampleEnvOk).2).1.read_current_addr = 255 ∧
    (readSteps 17 (read_memory_range sampleApp sampleEnvOk).1.2
      (read_memory_range sampleApp sampleEnvOk).2).2.bus =
      (readSteps 16 (read_memory_range sampleApp sampleEnvOk).1.2
        (read_memory_range sampleApp sampleEnvOk).2).2.bus :=
  progressive_read_completion sampleApp sampleEnvOk (fun _ => rfl) (by decide)

/-! ### Starting a progressive operation -/

/-- C20: from every prior state, `read_memory_range` puts the read in the
running state with cursor 0, progress 0, last-step time equal to the current tick
and the positive total 255; `erase_memory_range` (whatever its arguments) puts
the erase in the running state with cursor 0, progress 0 and last-step time equal
to the current tick.  The first due step that follows transfers a chunk of 16
bytes at address 0 for the read and of the page size 8 at address 0 for the
erase. -/
theorem start_resets_operation (app : EEPROMApp) (e : Env) (start_addr length : Nat) :
    (read_memory_range app e).1.2.reading = true ∧
    (read_memory_range app e).1.2.read_current_addr = 0 ∧
    (read_memory_range app e).1.2.progress_value = 0 ∧
    (read_memory_range app e).1.2.read_last_update = u32 (e.tick e.ticks_read) ∧
    (read_memory_range app e).1.2.read_total_bytes = 255 ∧
    0 < (read_memory_range app e).1.2.read_total_bytes ∧
    (erase_memory_range app start_addr length e).1.2.erasing = true ∧
    (erase_memory_range app start_addr length e).1.2.erase_current_addr = 0 ∧
    (erase_memory_range app start_addr length e).1.2.progress_value = 0 ∧
    (erase_memory_range app start_addr length e).1.2.erase_last_update = u32 (e.tick e.ticks_read) ∧
    (sub32 (u32 (e.tick (e.ticks_read + 1))) (u32 (e.tick e.ticks_read)) ≥ 30 →
      (process_read_step (read_memory_range app e).1.2 (read_memory_range app e).2).2.bus =
        (app.eeprom.readBytes 0 false 16 e.bus).2) ∧
    (sub32 (u32 (e.tick (e.ticks_read + 1))) (u32 (e.tick e.ticks_read)) ≥ 50 →
      (∃ app1 e1, process_erase_step (erase_memory_range app start_addr length e).1.2 (erase_memory_range app start_addr length e).2 = some (app1, e1) ∧
        (app.eeprom.writeBytes 0 (some (erase_data e.stack 8)) 8 e.bus).map Prod.snd =
          some e1.bus)) := by
  refine ⟨rfl, rfl, rfl, rfl, rfl, show (0 : Nat) < 255 by decide, rfl, rfl, rfl, rfl, ?_, ?_⟩
  · intro hdue
    rw [process_read_step_due (read_memory_range app e).1.2 (read_memory_range app e).2
      hdue (show (0 : Nat) < 255 by decide) (show (255 : Nat) < 256 by decide)]
    split <;> rfl
  · intro hdue
    have hstep := process_erase_step_due (erase_memory_range app start_addr length e).1.2
      (erase_memory_range app start_addr length e).2 hdue (show (0 : Nat) < 255 by decide)
    have hw := writeBytes_eq_run app.eeprom 0 8 (erase_data e.stack 8) e.bus
      (by omega) (by omega) (by omega)
    have hw2 : (erase_memory_range app start_addr length e).1.2.eeprom.writeBytes
        (erase_memory_range app start_addr length e).1.2.erase_current_addr
        (some (erase_data (erase_memory_range app start_addr length e).2.stack
          (min 8 (255 - (erase_memory_range app start_addr length e).1.2.erase_current_addr))))
        (min 8 (255 - (erase_memory_range app start_addr length e).1.2.erase_current_addr))
        (erase_memory_range app start_addr length e).2.bus =
        app.eeprom.writeBytes 0 (some (erase_data e.stack 8)) 8 e.bus := rfl
    rw [hw2, hw] at hstep
    rw [hw, hstep]
    simp only
    split
    · exact ⟨_, _, rfl, rfl⟩
    · exact ⟨_, _, rfl, rfl⟩

theorem start_resets_operation_witness :
    (read_memory_range sampleBusy sampleEnvOk).1.2.reading = true ∧
    (read_memory_range sampleBusy sampleEnvOk).1.2.read_current_addr = 0 ∧
    (read_memory_range sampleBusy sampleEnvOk).1.2.progress_value = 0 ∧
    (read_memory_range sampleBusy sampleEnvOk).1.2.read_last_update = u32 (sampleEnvOk.tick sampleEnvOk.ticks_read) ∧
    (read_memory_range sampleBusy sampleEnvOk).1.2.read_total_bytes = 255 ∧
    0 < (read_memory_range sampleBusy sampleEnvOk).1.2.read_total_bytes ∧
    (erase_memory_range sampleBusy 7 9 sampleEnvOk).1.2.erasing = true ∧
    (erase_memory_range sampleBusy 7 9 sampleEnvOk).1.2.erase_current_addr = 0 ∧
    (erase_memory_range sampleBusy 7 9 sampleEnvOk).1.2.progress_value = 0 ∧
    (erase_memory_range sampleBusy 7 9 sampleEnvOk).1.2.erase_last_update = u32 (sampleEnvOk.tick sampleEnvOk.ticks_read) ∧
    (sub32 (u32 (sampleEnvOk.tick (sampleEnvOk.ticks_read + 1))) (u32 (sampleEnvOk.tick sampleEnvOk.ticks_read)) ≥ 30 ∧
      (process_read_step (read_memory_range sampleBusy sampleEnvOk).1.2 (read_memory_range sampleBusy sampleEnvOk).2).2.bus =
        (sampleBusy.eeprom.readBytes 0 false 16 sampleEnvOk.bus).2) ∧
    (sub32 (u32 (sampleEnvOk.tick (sampleEnvOk.ticks_read + 1))) (u32 (sampleEnvOk.tick sampleEnvOk.ticks_read)) ≥ 50 ∧
      (∃ app1 e1, process_erase_step (erase_memory_range sampleBusy 7 9 sampleEnvOk).1.2 (erase_memory_range sampleBusy 7 9 sampleEnvOk).2 = some (app1, e1) ∧
        (sampleBusy.eeprom.writeBytes 0 (some (erase_data sampleEnvOk.stack 8)) 8 sampleEnvOk.bus).map Prod.snd =
          some e1.bus)) :=
  ⟨rfl, rfl, rfl, rfl, rfl, by decide, rfl, rfl, rfl, rfl,
   ⟨by decide, (start_resets_operation sampleBusy sampleEnvOk 7 9).2.2.2.2.2.2.2.2.2.2.1
      (by decide)⟩,
   ⟨by decide, (start_resets_operation sampleBusy sampleEnvOk 7 9).2.2.2.2.2.2.2.2.2.2.2
      (by decide)⟩⟩

/-! ## Termination of the `writeBytes` loop -/

theorem chunkStarts_fuel (start length : Nat) :
    ∀ (f1 f2 w : Nat), length - w ≤ f1 → length - w ≤ f2 →
      chunkStarts start length f1 w = chunkStarts start length f2 w := by
  intro f1
  induction f1 with
  | zero =>
    intro f2 w h1 _
    have hw : ¬ w < length := by omega
    cases f2 <;> simp [chunkStarts, hw]
  | succ f1 ih =>
    intro f2 w h1 h2
    by_cases hw : w < length
    · have hpos := chunkLen_pos start hw
      cases f2 with
      | zero => omega
      | succ f2 =>
        rw [chunkStarts_succ _ _ _ _ hw, chunkStarts_succ _ _ _ _ hw,
          ih f2 _ (by omega) (by omega)]
    · cases f2 <;> simp [chunkStarts, hw]

theorem chunkStarts_length_le (start length : Nat) :
    ∀ (fuel w : Nat), (chunkStarts start length fuel w).length ≤ fuel := by
  intro fuel
  induction fuel with
  | zero => intro w; simp [chunkStarts]
  | succ fuel ih =>
    intro w
    simp only [chunkStarts]
    split
    · simp only [List.length_cons]
      have := ih (w + chunkLen start length w)
      omega
    · simp

theorem runChunks_transfers_le (self : EEPROM24C02) (start : Nat) (buf : Nat → Nat)
    (length : Nat) (ws : List Nat) (b : Bus) :
    (transferOks (eventsSince b (runChunks self start buf length ws b).2)).length ≤ ws.length := by
  obtain ⟨evs, hlog, _, hshape⟩ := runChunks_shape self start buf length ws b
  rw [eventsSince_append _ _ _ hlog]
  rcases hshape with ⟨_, h2⟩ | ⟨_, k, _, _, _, hk, h2, _⟩
  · rw [h2]; simp
  · rw [h2]; simp; omega

theorem bytes_to_write_eq (a n w : Nat) :
    u8 (if n - w < u8 (EEPROM_24C02_PAGE_SIZE - u8 (u8 (a + w) % EEPROM_24C02_PAGE_SIZE))
        then n - w
        else u8 (EEPROM_24C02_PAGE_SIZE - u8 (u8 (a + w) % EEPROM_24C02_PAGE_SIZE))) =
      chunkLen a n w := by
  have hc1 := chunkLen_le_rem a n w
  unfold chunkLen u8
  simp only [EEPROM_24C02_PAGE_SIZE]
  split <;> omega

/-- C29: for every start address and length (both `uint8_t`), every buffer and
every pattern of bus outcomes, the loop of `writeBytes` returns within `length`
iterations: with the iteration bound `length` the loop returns a result, every
larger bound gives the same result, and it is the result of `writeBytes`; at most
`length` transactions are issued.  In an iteration entered with
`bytes_written = w < length`, `bytes_to_write` is at least 1 and at most
`length - w`, so the new value of the 8-bit counter is strictly larger than `w`,
at most `length`, and is not reduced modulo 256. -/
theorem writeBytes_terminates (self : EEPROM24C02) (a n : Nat) (buf : Nat → Nat) (b : Bus)
    (ha : a < 256) (hn : n < 256) :
    (∃ r b1, self.writeBytesLoop a buf n n 0 b = some (r, b1) ∧
      (∀ fuel, n ≤ fuel → self.writeBytesLoop a buf n fuel 0 b = some (r, b1)) ∧
      self.writeBytes a (some buf) n b = (if n = 0 then some (false, b) else some (r, b1)) ∧
      (transferOks (eventsSince b b1)).length ≤ n) ∧
    (∀ w, w < n →
      1 ≤ u8 (if n - w < u8 (EEPROM_24C02_PAGE_SIZE - u8 (u8 (a + w) % EEPROM_24C02_PAGE_SIZE))
        then n - w
        else u8 (EEPROM_24C02_PAGE_SIZE - u8 (u8 (a + w) % EEPROM_24C02_PAGE_SIZE))) ∧
      u8 (if n - w < u8 (EEPROM_24C02_PAGE_SIZE - u8 (u8 (a + w) % EEPROM_24C02_PAGE_SIZE))
        then n - w
        else u8 (EEPROM_24C02_PAGE_SIZE - u8 (u8 (a + w) % EEPROM_24C02_PAGE_SIZE))) ≤ n - w ∧
      u8 (w + u8 (if n - w <
          u8 (EEPROM_24C02_PAGE_SIZE - u8 (u8 (a + w) % EEPROM_24C02_PAGE_SIZE))
        then n - w
        else u8 (EEPROM_24C02_PAGE_SIZE - u8 (u8 (a + w) % EEPROM_24C02_PAGE_SIZE)))) =
        w + u8 (if n - w <
          u8 (EEPROM_24C02_PAGE_SIZE - u8 (u8 (a + w) % EEPROM_24C02_PAGE_SIZE))
        then n - w
        else u8 (EEPROM_24C02_PAGE_SIZE - u8 (u8 (a + w) % EEPROM_24C02_PAGE_SIZE)))) := by
  constructor
  · have hrun : ∀ fuel, n ≤ fuel → self.writeBytesLoop a buf n fuel 0 b =
        some (runChunks self a buf n (chunkStarts a n n 0) b) := by
      intro fuel hf
      rw [writeBytesLoop_eq_run self a n buf hn fuel 0 b (by omega),
        chunkStarts_fuel a n fuel n 0 (by omega) (by omega)]
    refine ⟨(runChunks self a buf n (chunkStarts a n n 0) b).1,
      (runChunks self a buf n (chunkStarts a n n 0) b).2, hrun n (Nat.le_refl n), hrun, ?_, ?_⟩
    · have h1 : u8 a = a := Nat.mod_eq_of_lt ha
      have h2 : u8 n = n := Nat.mod_eq_of_lt hn
      simp only [EEPROM24C02.writeBytes, h1, h2]
      split
      · rfl
      · exact hrun loopFuel (by simp only [loopFuel]; omega)
    · exact Nat.le_trans (runChunks_transfers_le self a buf n _ b) (chunkStarts_length_le a n n 0)
  · intro w hw
    rw [bytes_to_write_eq a n w]
    have hpos := chunkLen_pos a hw
    have hrem := chunkLen_le_rem a n w
    refine ⟨hpos, hrem, ?_⟩
    unfold u8; omega

theorem writeBytes_terminates_witness :
    (∃ r b1, (EEPROM24C02.new 0x50).writeBytesLoop 5 (fun i => i + 1) 20 20 0
        (Bus.init (fun _ => 0) (fun k => decide (k ≠ 2))) = some (r, b1) ∧
      (∀ fuel, 20 ≤ fuel → (EEPROM24C02.new 0x50).writeBytesLoop 5 (fun i => i + 1) 20 fuel 0
        (Bus.init (fun _ => 0) (fun k => decide (k ≠ 2))) = some (r, b1)) ∧
      (EEPROM24C02.new 0x50).writeBytes 5 (some (fun i => i + 1)) 20
        (Bus.init (fun _ => 0) (fun k => decide (k ≠ 2))) =
        (if 20 = 0 then some (false, Bus.init (fun _ => 0) (fun k => decide (k ≠ 2)))
          else some (r, b1)) ∧
      (transferOks (eventsSince (Bus.init (fun _ => 0) (fun k => decide (k ≠ 2))) b1)).length
        ≤ 20) ∧
    (∀ w, w < 20 →
      1 ≤ u8 (if 20 - w < u8 (EEPROM_24C02_PAGE_SIZE - u8 (u8 (5 + w) % EEPROM_24C02_PAGE_SIZE))
        then 20 - w
        else u8 (EEPROM_24C02_PAGE_SIZE - u8 (u8 (5 + w) % EEPROM_24C02_PAGE_SIZE))) ∧
      u8 (if 20 - w < u8 (EEPROM_24C02_PAGE_SIZE - u8 (u8 (5 + w) % EEPROM_24C02_PAGE_SIZE))
        then 20 - w
        else u8 (EEPROM_24C02_PAGE_SIZE - u8 (u8 (5 + w) % EEPROM_24C02_PAGE_SIZE))) ≤ 20 - w ∧
      u8 (w + u8 (if 20 - w <
          u8 (EEPROM_24C02_PAGE_SIZE - u8 (u8 (5 + w) % EEPROM_24C02_PAGE_SIZE))
        then 20 - w
        else u8 (EEPROM_24C02_PAGE_SIZE - u8 (u8 (5 + w) % EEPROM_24C02_PAGE_SIZE)))) =
        w + u8 (if 20 - w <
          u8 (EEPROM_24C02_PAGE_SIZE - u8 (u8 (5 + w) % EEPROM_24C02_PAGE_SIZE))
        then 20 - w
        else u8 (EEPROM_24C02_PAGE_SIZE - u8 (u8 (5 + w) % EEPROM_24C02_PAGE_SIZE)))) :=
  writeBytes_terminates (EEPROM24C02.new 0x50) 5 20 (fun i => i + 1)
    (Bus.init (fun _ => 0) (fun k => decide (k ≠ 2))) (by decide) (by decide)

/-! ## Bus discipline of the driver operations -/

theorem runChunks_trace (self : EEPROM24C02) (start : Nat) (buf : Nat → Nat) (length : Nat) :
    ∀ (ws : List Nat) (b : Bus), ∃ evs,
      (runChunks self start buf length ws b).2.log = b.log ++ evs ∧
      busDiscipline false evs = true ∧ oneChunkPerHold 0 evs = true := by
  intro ws
  induction ws with
  | nil => intro b; exact ⟨[], by simp [runChunks], rfl, rfl⟩
  | cons w ws ih =>
    intro b
    by_cases hok : b.outcome b.count = true
    · obtain ⟨evs, h1, h2, h3⟩ :=
        ih (furi_delay_ms 10 (chunkBus self (chunkPayload start buf length w) b))
      refine ⟨chunkEvents self (chunkPayload start buf length w) ++ evs, ?_, ?_, ?_⟩
      · simp only [runChunks, hok, if_true]
        rw [h1]
        simp [furi_delay_ms, chunkBus_log, hok, chunkEvents]
      · simpa [chunkEvents, busDiscipline] using h2
      · simpa [chunkEvents, oneChunkPerHold] using h3
    · have hno : b.outcome b.count = false := by simpa using hok
      refine ⟨[Event.acquire, Event.tx self._i2c_addr_8bit (chunkPayload start buf length w)
        I2cBegin.FuriHalI2cBeginStart I2cEnd.FuriHalI2cEndStop false, Event.release], ?_, ?_, ?_⟩
      · simp [runChunks, hno, chunkBus_log]
      · simp [busDiscipline]
      · simp [oneChunkPerHold]

/-- The log of `writeBytes`, for arbitrary arguments and bus outcomes. -/
theorem writeBytes_trace (self : EEPROM24C02) (a n : Nat) (buffer : Option (Nat → Nat))
    (b : Bus) :
    ∃ r b1, self.writeBytes a buffer n b = some (r, b1) ∧
      busDiscipline false (eventsSince b b1) = true ∧
      oneChunkPerHold 0 (eventsSince b b1) = true := by
  cases buffer with
  | none => exact ⟨false, b, rfl, by simp [eventsSince, busDiscipline],
      by simp [eventsSince, oneChunkPerHold]⟩
  | some buf =>
    by_cases h0 : u8 n = 0
    · refine ⟨false, b, by simp [EEPROM24C02.writeBytes, h0], by simp [eventsSince, busDiscipline],
        by simp [eventsSince, oneChunkPerHold]⟩
    · have hlt : u8 n < 256 := Nat.mod_lt _ (by decide)
      obtain ⟨evs, h1, h2, h3⟩ := runChunks_trace self (u8 a) buf (u8 n)
        (chunkStarts (u8 a) (u8 n) loopFuel 0) b
      refine ⟨(runChunks self (u8 a) buf (u8 n) (chunkStarts (u8 a) (u8 n) loopFuel 0) b).1,
        (runChunks self (u8 a) buf (u8 n) (chunkStarts (u8 a) (u8 n) loopFuel 0) b).2, ?_, ?_, ?_⟩
      · simp only [EEPROM24C02.writeBytes, h0, if_false]
        exact writeBytesLoop_eq_run self (u8 a) (u8 n) buf hlt loopFuel 0 b
          (by simp only [loopFuel]; omega)
      · rw [eventsSince_append _ _ _ h1]; exact h2
      · rw [eventsSince_append _ _ _ h1]; exact h3

/-- C24: in the log of every driver operation (`isAvailable`, `readByte`,
`readBytes`, `writeByte`, `writeBytes`, `eraseRange`, `eraseAll`), for all
arguments and under any bus outcomes, acquire and release alternate starting with
an acquire and ending with a release, every transmit or receive lies between an
acquire and its release, and every delay happens while the bus is released
(`busDiscipline`); `writeBytes`, `eraseRange` and `eraseAll` always return, and
each of their acquire/release pairs encloses exactly one transmit
(`oneChunkPerHold`). -/
theorem driver_bus_discipline (self : EEPROM24C02) (a v n : Nat) (null : Bool)
    (buffer : Option (Nat → Nat)) (beyond : Nat → Nat) (b : Bus) :
    busDiscipline false (eventsSince b (self.isAvailable b).2) = true ∧
    busDiscipline false (eventsSince b (self.readByte a b).2) = true ∧
    busDiscipline false (eventsSince b (self.readBytes a null n b).2) = true ∧
    busDiscipline false (eventsSince b (self.writeByte a v b).2) = true ∧
    (∃ r b1, self.writeBytes a buffer n b = some (r, b1) ∧
      busDiscipline false (eventsSince b b1) = true ∧
      oneChunkPerHold 0 (eventsSince b b1) = true) ∧
    (∃ r b1, self.eraseRange beyond a n b = some (r, b1) ∧
      busDiscipline false (eventsSince b b1) = true ∧
      oneChunkPerHold 0 (eventsSince b b1) = true) ∧
    (∃ r b1, self.eraseAll beyond b = some (r, b1) ∧
      busDiscipline false (eventsSince b b1) = true ∧
      oneChunkPerHold 0 (eventsSince b b1) = true) := by
  refine ⟨?_, ?_, ?_, ?_, writeBytes_trace self a n buffer b, ?_, ?_⟩
  · simp [EEPROM24C02.isAvailable, furi_hal_i2c_rx, furi_hal_i2c_rx_ext, furi_hal_i2c_acquire,
      furi_hal_i2c_release, eventsSince, busDiscipline]
  · cases hx : b.outcome b.count <;>
      simp [EEPROM24C02.readByte, furi_hal_i2c_tx_ext, furi_hal_i2c_rx_ext,
        furi_hal_i2c_acquire, furi_hal_i2c_release, eventsSince, busDiscipline, hx,
        deviceWrite, deviceStore]
  · by_cases h0 : u8 n = 0 ∨ null = true
    · simp [EEPROM24C02.readBytes, h0, eventsSince, busDiscipline]
    · cases hx : b.outcome b.count <;>
        simp [EEPROM24C02.readBytes, h0, furi_hal_i2c_tx_ext, furi_hal_i2c_rx_ext,
          furi_hal_i2c_acquire, furi_hal_i2c_release, eventsSince, busDiscipline, hx,
          deviceWrite, deviceStore]
  · cases hx : b.outcome b.count <;>
      simp [EEPROM24C02.writeByte, furi_hal_i2c_tx_ext, furi_hal_i2c_acquire,
        furi_hal_i2c_release, furi_delay_ms, eventsSince, busDiscipline, hx]
  · by_cases h0 : u8 n = 0
    · exact ⟨false, b, by simp [EEPROM24C02.eraseRange, h0],
        by simp [eventsSince, busDiscipline], by simp [eventsSince, oneChunkPerHold]⟩
    · simp only [EEPROM24C02.eraseRange, h0, if_false]
      exact writeBytes_trace self _ _ _ b
  · obtain ⟨evs, h1, h2, h3⟩ := runChunks_trace self 0 (fun _ => 0xFF) 256
      (chunkStarts 0 256 loopFuel 0) b
    exact ⟨(runChunks self 0 (fun _ => 0xFF) 256 (chunkStarts 0 256 loopFuel 0) b).1,
      (runChunks self 0 (fun _ => 0xFF) 256 (chunkStarts 0 256 loopFuel 0) b).2,
      eraseAll_eq_run self beyond b, by rw [eventsSince_append _ _ _ h1]; exact h2,
      by rw [eventsSince_append _ _ _ h1]; exact h3⟩

/-! ## The throttle across wraparound of the tick counter -/

theorem sub32_wrap (t d : Nat) (ht : t < 4294967296) (hd : d < 4294967296) :
    sub32 (u32 (t + d)) t = d := by
  unfold sub32 u32
  omega

theorem readBytes_true_count (self : EEPROM24C02) (a n : Nat) (null : Bool) (b : Bus)
    (h : (self.readBytes a null n b).1.1 = true) :
    (self.readBytes a null n b).2.count = b.count + 2 := by
  by_cases h0 : u8 n = 0 ∨ null = true
  · simp [EEPROM24C02.readBytes, h0] at h
  · cases hx : b.outcome b.count
    · simp [EEPROM24C02.readBytes, h0, furi_hal_i2c_tx_ext, furi_hal_i2c_acquire, hx] at h
    · simp [EEPROM24C02.readBytes, h0, furi_hal_i2c_tx_ext, furi_hal_i2c_rx_ext,
        furi_hal_i2c_acquire, furi_hal_i2c_release, hx, deviceWrite]

theorem tx_ext_count (address : Nat) (data : List Nat) (bg : I2cBegin) (en : I2cEnd) (b : Bus) :
    (furi_hal_i2c_tx_ext address data bg en b).2.count = b.count + 1 := rfl

theorem writeBytesLoop_count (self : EEPROM24C02) (start : Nat) (buf : Nat → Nat)
    (length : Nat) (hl : length < 256) :
    ∀ (fuel w : Nat) (b : Bus) (r : Bool) (b1 : Bus),
      self.writeBytesLoop start buf length fuel w b = some (r, b1) →
      b.count ≤ b1.count ∧ (w < length → b.count < b1.count) := by
  intro fuel
  induction fuel with
  | zero =>
    intro w b r b1 h
    by_cases hw : w < length
    · simp [EEPROM24C02.writeBytesLoop, hw] at h
    · simp only [EEPROM24C02.writeBytesLoop, hw, if_false, Option.some.injEq,
        Prod.mk.injEq] at h
      rw [← h.2]
      exact ⟨Nat.le_refl _, fun hlt => absurd hlt hw⟩
  | succ fuel ih =>
    intro w b r b1 h
    by_cases hw : w < length
    · rw [writeBytesLoop_step self start length fuel w buf b hl hw] at h
      by_cases hok : b.outcome b.count = true
      · rw [if_pos hok] at h
        have := (ih _ _ _ _ h).1
        simp only [furi_delay_ms, chunkBus_count] at this
        omega
      · rw [if_neg hok] at h
        simp only [Option.some.injEq, Prod.mk.injEq] at h
        rw [← h.2, chunkBus_count]
        omega
    · simp only [EEPROM24C02.writeBytesLoop, hw, if_false, Option.some.injEq,
        Prod.mk.injEq] at h
      rw [← h.2]
      exact ⟨Nat.le_refl _, fun hlt => absurd hlt hw⟩

theorem writeBytes_true_count (self : EEPROM24C02) (a n : Nat) (buffer : Option (Nat → Nat))
    (b b1 : Bus) (h : self.writeBytes a buffer n b = some (true, b1)) : b.count < b1.count := by
  cases buffer with
  | none => simp [EEPROM24C02.writeBytes] at h
  | some buf =>
    by_cases h0 : u8 n = 0
    · simp [EEPROM24C02.writeBytes, h0] at h
    · simp only [EEPROM24C02.writeBytes, h0, if_false] at h
      exact (writeBytesLoop_count self _ buf _ (Nat.mod_lt _ (by decide)) _ _ _ _ _ h).2
        (Nat.pos_of_ne_zero h0)

/-- A due `process_read_step` never returns the environment of a step that was
not due: it reads the clock a second time or performs a transfer. -/
theorem process_read_step_due_acts (app : EEPROMApp) (e : Env)
    (hdue : sub32 (u32 (e.tick e.ticks_read)) app.read_last_update ≥ 30) :
    process_read_step app e ≠ (app, { e with ticks_read := e.ticks_read + 1 }) := by
  intro heq
  simp only [process_read_step, furi_get_tick, hdue, if_true] at heq
  by_cases hc : app.read_current_addr ≥ app.read_total_bytes
  · simp only [hc, if_true] at heq
    have := congrArg (fun x => x.2.ticks_read) heq
    simp [show_message, furi_get_tick] at this
  · simp only [hc, if_false] at heq
    generalize u8 (if app.read_current_addr + 16 ≤ app.read_total_bytes then 16
      else app.read_total_bytes - app.read_current_addr) = cs at heq
    cases hs : (app.eeprom.readBytes app.read_current_addr false cs e.bus).1.1 with
    | false =>
      simp only [hs, Bool.not_false, if_true] at heq
      have := congrArg (fun x => x.2.ticks_read) heq
      simp [show_message, furi_get_tick] at this
    | true =>
      simp only [hs, Bool.not_true, Bool.false_eq_true, if_false] at heq
      have hcount := readBytes_true_count _ _ _ _ _ hs
      have := congrArg (fun x => x.2.bus.count) heq
      simp only at this
      omega

/-- A due `process_erase_step` never returns the state of a step that was not
due. -/
theorem process_erase_step_due_acts (app : EEPROMApp) (e : Env)
    (hdue : sub32 (u32 (e.tick e.ticks_read)) app.erase_last_update ≥ 50) :
    process_erase_step app e ≠ some (app, { e with ticks_read := e.ticks_read + 1 }) := by
  intro heq
  simp only [process_erase_step, furi_get_tick, hdue, if_true] at heq
  by_cases hc : app.erase_current_addr ≥ 255
  · simp only [hc, if_true, Option.some.injEq] at heq
    have := congrArg (fun x => x.2.ticks_read) heq
    simp [show_message, furi_get_tick] at this
  · simp only [hc, if_false] at heq
    generalize u8 (if app.erase_current_addr + 8 ≤ 255 then 8
      else 255 - app.erase_current_addr) = cs at heq
    cases hw : app.eeprom.writeBytes app.erase_current_addr (some (erase_data e.stack cs)) cs
        e.bus with
    | none => simp [hw] at heq
    | some r =>
      obtain ⟨success, bus⟩ := r
      cases success with
      | false =>
        simp only [hw, Bool.not_false, if_true, Option.some.injEq] at heq
        have := congrArg (fun x => x.2.ticks_read) heq
        simp [show_message, furi_get_tick] at this
      | true =>
        simp only [hw, Bool.not_true, Bool.false_eq_true, if_false, Option.some.injEq] at heq
        have hcount := writeBytes_true_count _ _ _ _ _ _ hw
        have := congrArg (fun x => x.2.bus.count) heq
        simp only at this
        omega

/-- C30: the throttle across wraparound of the 32-bit tick counter.  For every
last-step time `t` and every elapsed time `d` below `2^32`, when the clock
returns `(t + d) mod 2^32`, the difference `current_time - last_update` computed
by the step is `d`, so the test `>= 30` of `process_read_step` (respectively
`>= 50` of `process_erase_step`) holds exactly when `d >= 30` (`d >= 50`), and
the step returns as a step that is not due exactly when `d < 30` (`d < 50`). -/
theorem throttle_wraparound (app : EEPROMApp) (e : Env) (t d : Nat)
    (ht : t < 4294967296) (hd : d < 4294967296)
    (htick : u32 (e.tick e.ticks_read) = u32 (t + d)) :
    (app.read_last_update = t →
      sub32 (furi_get_tick e).1 app.read_last_update = d ∧
      (sub32 (furi_get_tick e).1 app.read_last_update ≥ 30 ↔ d ≥ 30) ∧
      (process_read_step app e = (app, { e with ticks_read := e.ticks_read + 1 }) ↔ d < 30)) ∧
    (app.erase_last_update = t →
      sub32 (furi_get_tick e).1 app.erase_last_update = d ∧
      (sub32 (furi_get_tick e).1 app.erase_last_update ≥ 50 ↔ d ≥ 50) ∧
      (process_erase_step app e = some (app, { e with ticks_read := e.ticks_read + 1 }) ↔
        d < 50)) := by
  have hsub : sub32 (u32 (e.tick e.ticks_read)) t = d := by
    rw [htick]; exact sub32_wrap t d ht hd
  constructor
  · intro hl
    have h1 : sub32 (furi_get_tick e).1 app.read_last_update = d := by
      rw [hl]; exact hsub
    refine ⟨h1, by rw [h1], ?_⟩
    constructor
    · intro heq
      by_contra hnot
      exact process_read_step_due_acts app e (by rw [hl, hsub]; omega) heq
    · intro hlt
      have h2 : ¬ sub32 (u32 (e.tick e.ticks_read)) app.read_last_update ≥ 30 := by
        rw [hl, hsub]; omega
      simp [process_read_step, furi_get_tick, h2]
  · intro hl
    have h1 : sub32 (furi_get_tick e).1 app.erase_last_update = d := by
      rw [hl]; exact hsub
    refine ⟨h1, by rw [h1], ?_⟩
    constructor
    · intro heq
      by_contra hnot
      exact process_erase_step_due_acts app e (by rw [hl, hsub]; omega) heq
    · intro hlt
      have h2 : ¬ sub32 (u32 (e.tick e.ticks_read)) app.erase_last_update ≥ 50 := by
        rw [hl, hsub]; omega
      simp [process_erase_step, furi_get_tick, h2]

theorem throttle_wraparound_witness :
    (sampleWrapped.read_last_update = 4294967290 ∧
      sub32 (furi_get_tick sampleEnvWrapped).1 sampleWrapped.read_last_update = 40 ∧
      (sub32 (furi_get_tick sampleEnvWrapped).1 sampleWrapped.read_last_update ≥ 30 ↔ 40 ≥ 30) ∧
      (process_read_step sampleWrapped sampleEnvWrapped =
          (sampleWrapped,
            { sampleEnvWrapped with ticks_read := sampleEnvWrapped.ticks_read + 1 }) ↔
        40 < 30)) ∧
    (sampleWrapped.erase_last_update = 4294967290 ∧
      sub32 (furi_get_tick sampleEnvWrapped).1 sampleWrapped.erase_last_update = 40 ∧
      (sub32 (furi_get_tick sampleEnvWrapped).1 sampleWrapped.erase_last_update ≥ 50 ↔ 40 ≥ 50) ∧
      (process_erase_step sampleWrapped sampleEnvWrapped =
          some (sampleWrapped,
            { sampleEnvWrapped with ticks_read := sampleEnvWrapped.ticks_read + 1 }) ↔
        40 < 50)) :=
  ⟨⟨rfl, (throttle_wraparound sampleWrapped sampleEnvWrapped 4294967290 40
      (by decide) (by decide) (by decide)).1 rfl⟩,
   ⟨rfl, (throttle_wraparound sampleWrapped sampleEnvWrapped 4294967290 40
      (by decide) (by decide) (by decide)).2 rfl⟩⟩

/-! ## The cursor of a progressive operation -/

theorem eventsSince_self (b : Bus) : eventsSince b b = [] := by
  simp [eventsSince]

/-- One `process_read_step`, due or not, successful or not: the total is kept
and the cursor does not decrease nor pass the total. -/
theorem process_read_step_cursor (app : EEPROMApp) (e : Env)
    (hc : app.read_current_addr ≤ app.read_total_bytes) (ht : app.read_total_bytes ≤ 255) :
    (process_read_step app e).1.read_total_bytes = app.read_total_bytes ∧
    app.read_current_addr ≤ (process_read_step app e).1.read_current_addr ∧
    (process_read_step app e).1.read_current_addr ≤ app.read_total_bytes := by
  by_cases hdue : sub32 (u32 (e.tick e.ticks_read)) app.read_last_update ≥ 30
  · by_cases hlt : app.read_current_addr < app.read_total_bytes
    · rw [process_read_step_due app e hdue hlt (by omega)]
      split
      · refine ⟨rfl, ?_, ?_⟩ <;> simp only <;> omega
      · exact ⟨rfl, Nat.le_refl _, hc⟩
    · rw [process_read_step_done app e hdue (by omega)]
      exact ⟨rfl, Nat.le_refl _, hc⟩
  · have h : process_read_step app e = (app, { e with ticks_read := e.ticks_read + 1 }) := by
      simp [process_read_step, furi_get_tick, hdue]
    rw [h]
    exact ⟨rfl, Nat.le_refl _, hc⟩

/-- The chunk list of an erase chunk: a single chunk when the cursor is page
aligned. -/
theorem chunkStarts_aligned_length (c len : Nat) (hc : c % 8 = 0) (h1 : 1 ≤ len)
    (h8 : len ≤ 8) : (chunkStarts c len loopFuel 0).length = 1 := by
  rw [chunkStarts_length c len loopFuel 0 (by simp only [loopFuel]; omega) (by omega)]
  omega

/-- One `process_erase_step`, due or not, under any bus outcome: it returns, the
cursor does not decrease nor pass 255, a cursor that is a multiple of 8 or 255
stays so, and in that case at most one transfer is issued. -/
theorem process_erase_step_cursor (app : EEPROMApp) (e : Env)
    (hc : app.erase_current_addr ≤ 255) :
    ∃ app1 e1, process_erase_step app e = some (app1, e1) ∧
      app.erase_current_addr ≤ app1.erase_current_addr ∧ app1.erase_current_addr ≤ 255 ∧
      (app.erase_current_addr % 8 = 0 ∨ app.erase_current_addr = 255 →
        (app1.erase_current_addr % 8 = 0 ∨ app1.erase_current_addr = 255) ∧
        (transferOks (eventsSince e.bus e1.bus)).length ≤ 1) := by
  by_cases hdue : sub32 (u32 (e.tick e.ticks_read)) app.erase_last_update ≥ 50
  · by_cases hlt : app.erase_current_addr < 255
    · have hstep := process_erase_step_due app e hdue hlt
      rw [writeBytes_eq_run app.eeprom app.erase_current_addr
        (min 8 (255 - app.erase_current_addr)) _ e.bus (by omega) (by omega) (by omega)] at hstep
      simp only at hstep
      have htr : app.erase_current_addr % 8 = 0 ∨ app.erase_current_addr = 255 →
          (transferOks (eventsSince e.bus (runChunks app.eeprom app.erase_current_addr
            (erase_data e.stack (min 8 (255 - app.erase_current_addr)))
            (min 8 (255 - app.erase_current_addr))
            (chunkStarts app.erase_current_addr (min 8 (255 - app.erase_current_addr))
              loopFuel 0) e.bus).2)).length ≤ 1 := by
        intro hal
        have hlen := chunkStarts_aligned_length app.erase_current_addr
          (min 8 (255 - app.erase_current_addr)) (by omega) (by omega) (by omega)
        have := runChunks_transfers_le app.eeprom app.erase_current_addr
          (erase_data e.stack (min 8 (255 - app.erase_current_addr)))
          (min 8 (255 - app.erase_current_addr))
          (chunkStarts app.erase_current_addr (min 8 (255 - app.erase_current_addr))
            loopFuel 0) e.bus
        omega
      split at hstep
      · refine ⟨_, _, hstep, ?_, ?_, fun hal => ⟨?_, htr hal⟩⟩ <;> simp only <;> omega
      · refine ⟨_, _, hstep, Nat.le_refl _, hc, fun hal => ⟨hal, htr hal⟩⟩
    · have h : process_erase_step app e =
          some (show_message { app with erasing := false, show_progress := false }
            "Erase Success!" true { e with ticks_read := e.ticks_read + 1 }) := by
        have hge : app.erase_current_addr ≥ 255 := by omega
        simp only [process_erase_step, furi_get_tick, hdue, hge, if_true]
      refine ⟨_, _, h, Nat.le_refl _, hc, fun hal => ⟨hal, ?_⟩⟩
      show (transferOks (eventsSince e.bus e.bus)).length ≤ 1
      rw [eventsSince_self]
      simp [transferOks]
  · have h : process_erase_step app e =
        some (app, { e with ticks_read := e.ticks_read + 1 }) := by
      simp [process_erase_step, furi_get_tick, hdue]
    refine ⟨_, _, h, Nat.le_refl _, hc, fun hal => ⟨hal, ?_⟩⟩
    simp [eventsSince, transferOks]

theorem eraseSteps_succ_last : ∀ (n : Nat) (app : EEPROMApp) (e : Env),
    eraseSteps (n + 1) app e =
      match eraseSteps n app e with
      | none => none
      | some (app1, e1) => process_erase_step app1 e1 := by
  intro n
  induction n with
  | zero =>
    intro app e
    simp only [eraseSteps]
    cases process_erase_step app e with
    | none => rfl
    | some r => rfl
  | succ n ih =>
    intro app e
    rw [eraseSteps]
    cases h : process_erase_step app e with
    | none => simp [eraseSteps, h]
    | some r =>
      obtain ⟨a1, e1⟩ := r
      simp only
      rw [ih a1 e1]
      simp [eraseSteps, h]

/-- Any number of erase steps, under any bus outcomes and clock: the steps
return, and a cursor that is at most 255 and a multiple of 8 or 255 stays so. -/
theorem eraseSteps_cursor : ∀ (n : Nat) (app : EEPROMApp) (e : Env),
    app.erase_current_addr ≤ 255 →
    (app.erase_current_addr % 8 = 0 ∨ app.erase_current_addr = 255) →
    ∃ app1 e1, eraseSteps n app e = some (app1, e1) ∧ app1.erase_current_addr ≤ 255 ∧
      (app1.erase_current_addr % 8 = 0 ∨ app1.erase_current_addr = 255) := by
  intro n
  induction n with
  | zero => intro app e h1 h2; exact ⟨app, e, rfl, h1, h2⟩
  | succ n ih =>
    intro app e h1 h2
    obtain ⟨a1, e1, hs, _, hle, hal⟩ := process_erase_step_cursor app e h1
    obtain ⟨a2, e2, hs2, h3, h4⟩ := ih a1 e1 hle (hal h2).1
    exact ⟨a2, e2, by simp only [eraseSteps, hs, hs2], h3, h4⟩

theorem readSteps_cursor : ∀ (n : Nat) (app : EEPROMApp) (e : Env),
    app.read_current_addr ≤ app.read_total_bytes → app.read_total_bytes ≤ 255 →
    (readSteps n app e).1.read_total_bytes = app.read_total_bytes ∧
    (readSteps n app e).1.read_current_addr ≤ app.read_total_bytes := by
  intro n
  induction n with
  | zero => intro app e h1 _; exact ⟨rfl, h1⟩
  | succ n ih =>
    intro app e h1 h2
    obtain ⟨h3, _, h5⟩ := process_read_step_cursor app e h1 h2
    have := ih (process_read_step app e).1 (process_read_step app e).2 (by rw [h3]; exact h5)
      (by rw [h3]; exact h2)
    simp only [readSteps]
    rw [h3] at this
    exact this

/-- C26: from the start of a progressive read (`read_memory_range`) or erase
(`erase_memory_range`), across any number `n` of steps, due or not, successful or
failed, under any bus outcomes and any clock: every step returns, the cursor
after step `n + 1` is at least the cursor after step `n`, and the cursor never
exceeds the total 255 (for the read the total stays 255), so the 8-bit addition
`cursor + chunk_size` never wraps. -/
theorem cursor_monotone (app0 : EEPROMApp) (e0 : Env) (start_addr length n : Nat) :
    ((readSteps n (read_memory_range app0 e0).1.2
          (read_memory_range app0 e0).2).1.read_current_addr ≤
        (readSteps (n + 1) (read_memory_range app0 e0).1.2
          (read_memory_range app0 e0).2).1.read_current_addr ∧
      (readSteps (n + 1) (read_memory_range app0 e0).1.2
          (read_memory_range app0 e0).2).1.read_current_addr ≤ 255 ∧
      (readSteps n (read_memory_range app0 e0).1.2
          (read_memory_range app0 e0).2).1.read_total_bytes = 255) ∧
    (∃ s s1,
      eraseSteps n (erase_memory_range app0 start_addr length e0).1.2
        (erase_memory_range app0 start_addr length e0).2 = some s ∧
      eraseSteps (n + 1) (erase_memory_range app0 start_addr length e0).1.2
        (erase_memory_range app0 start_addr length e0).2 = some s1 ∧
      s.1.erase_current_addr ≤ s1.1.erase_current_addr ∧
      s1.1.erase_current_addr ≤ 255) := by
  constructor
  · obtain ⟨h1, h2⟩ := readSteps_cursor n (read_memory_range app0 e0).1.2
      (read_memory_range app0 e0).2 (Nat.zero_le _) (Nat.le_refl _)
    rw [readSteps_succ_last]
    obtain ⟨h3, h4, h5⟩ := process_read_step_cursor
      (readSteps n (read_memory_range app0 e0).1.2 (read_memory_range app0 e0).2).1
      (readSteps n (read_memory_range app0 e0).1.2 (read_memory_range app0 e0).2).2
      (by rw [h1]; exact h2) (by rw [h1]; exact Nat.le_refl _)
    refine ⟨h4, ?_, h1⟩
    rw [h1] at h5
    exact h5
  · obtain ⟨a1, e1, hs, hle, _⟩ := eraseSteps_cursor n
      (erase_memory_range app0 start_addr length e0).1.2
      (erase_memory_range app0 start_addr length e0).2 (Nat.zero_le _) (Or.inl rfl)
    obtain ⟨a2, e2, hs2, h3, h4, _⟩ := process_erase_step_cursor a1 e1 hle
    refine ⟨(a1, e1), (a2, e2), hs, ?_, h3, h4⟩
    rw [eraseSteps_succ_last, hs]
    exact hs2

/-! ## Transactions per step -/

theorem readBytes_events_le (self : EEPROM24C02) (a n : Nat) (null : Bool) (b : Bus) :
    (txPayloads (eventsSince b (self.readBytes a null n b).2)).length ≤ 1 ∧
    (rxSizes (eventsSince b (self.readBytes a null n b).2)).length ≤ 1 := by
  by_cases h0 : u8 n = 0 ∨ null = true
  · simp [EEPROM24C02.readBytes, h0, eventsSince, txPayloads, rxSizes]
  · cases hx : b.outcome b.count <;>
      simp [EEPROM24C02.readBytes, h0, furi_hal_i2c_tx_ext, furi_hal_i2c_rx_ext,
        furi_hal_i2c_acquire, furi_hal_i2c_release, eventsSince, txPayloads, rxSizes, hx,
        deviceWrite, deviceStore]

/-- The bus after a `process_read_step` is the bus before it, or the bus after
one `readBytes` at the cursor. -/
theorem process_read_step_bus (app : EEPROMApp) (e : Env) :
    (process_read_step app e).2.bus = e.bus ∨
    ∃ cs, (process_read_step app e).2.bus =
      (app.eeprom.readBytes app.read_current_addr false cs e.bus).2 := by
  by_cases hdue : sub32 (u32 (e.tick e.ticks_read)) app.read_last_update ≥ 30
  · by_cases hc : app.read_current_addr ≥ app.read_total_bytes
    · left
      rw [process_read_step_done app e hdue hc]
      rfl
    · right
      simp only [process_read_step, furi_get_tick, hdue, hc, if_true, if_false]
      generalize u8 (if app.read_current_addr + 16 ≤ app.read_total_bytes then 16
        else app.read_total_bytes - app.read_current_addr) = cs
      refine ⟨cs, ?_⟩
      cases (app.eeprom.readBytes app.read_current_addr false cs e.bus).1.1 <;> rfl
  · left
    simp [process_read_step, furi_get_tick, hdue]

set_option maxRecDepth 100000 in
/-- C27 (counterexample): the erase started by `erase_memory_range` on a bus
that acknowledges everything, every step being due.  After 32 steps the erase is
still running (`erasing` is `true`) and its cursor is 255, which is not a
multiple of the page size 8. -/
theorem erase_cursor_255_while_running :
    (eraseSteps 32 (erase_memory_range sampleApp 0 255 sampleEnvZero).1.2
        (erase_memory_range sampleApp 0 255 sampleEnvZero).2).map
      (fun s => (s.1.erasing, s.1.erase_current_addr, s.1.erase_current_addr % 8)) =
      some (true, 255, 7) := by
  decide

/-- C27 (amended): every call of `process_read_step`, from any state and under
any bus outcomes, issues at most one two-phase read (at most one address transmit
and at most one receive).  After any number `n` of steps of an erase started by
`erase_memory_range`, under any bus outcomes and any clock, the cursor is a
multiple of the page size 8 or is 255; when it is below 255 the chunk of
`min(8, 255 - cursor)` bytes handed to `writeBytes` lies inside one page, and the
next call of `process_erase_step` returns having issued at most one
transaction. -/
theorem step_issues_one_transaction (app : EEPROMApp) (e : Env) (app0 : EEPROMApp) (e0 : Env)
    (start_addr length n : Nat) :
    ((txPayloads (eventsSince e.bus (process_read_step app e).2.bus)).length ≤ 1 ∧
      (rxSizes (eventsSince e.bus (process_read_step app e).2.bus)).length ≤ 1) ∧
    (∃ s, eraseSteps n (erase_memory_range app0 start_addr length e0).1.2
        (erase_memory_range app0 start_addr length e0).2 = some s ∧
      (s.1.erase_current_addr % 8 = 0 ∨ s.1.erase_current_addr = 255) ∧
      (s.1.erase_current_addr < 255 →
        s.1.erase_current_addr % 8 + min 8 (255 - s.1.erase_current_addr) ≤ 8) ∧
      ∃ s1, process_erase_step s.1 s.2 = some s1 ∧
        (transferOks (eventsSince s.2.bus s1.2.bus)).length ≤ 1) := by
  constructor
  · rcases process_read_step_bus app e with h | ⟨cs, h⟩
    · rw [h, eventsSince_self]
      simp [txPayloads, rxSizes]
    · rw [h]
      exact readBytes_events_le _ _ _ _ _
  · obtain ⟨a1, e1, hs, hle, hal⟩ := eraseSteps_cursor n
      (erase_memory_range app0 start_addr length e0).1.2
      (erase_memory_range app0 start_addr length e0).2 (Nat.zero_le _) (Or.inl rfl)
    obtain ⟨a2, e2, hs2, _, _, h5⟩ := process_erase_step_cursor a1 e1 hle
    refine ⟨(a1, e1), hs, hal, ?_, (a2, e2), hs2, (h5 hal).2⟩
    intro hlt
    simp only at hlt hal ⊢
    omega

set_option maxRecDepth 100000 in
theorem step_issues_one_transaction_witness :
    ∃ s, eraseSteps 2 (erase_memory_range sampleApp 0 255 sampleEnvZero).1.2
        (erase_memory_range sampleApp 0 255 sampleEnvZero).2 = some s ∧
      s.1.erase_current_addr < 255 ∧
      s.1.erase_current_addr % 8 + min 8 (255 - s.1.erase_current_addr) ≤ 8 := by
  obtain ⟨s, hs, _, himp, _⟩ :=
    (step_issues_one_transaction sampleApp sampleEnvZero sampleApp sampleEnvZero 0 255 2).2
  have hd : (eraseSteps 2 (erase_memory_range sampleApp 0 255 sampleEnvZero).1.2
      (erase_memory_range sampleApp 0 255 sampleEnvZero).2).map
      (fun s => decide (s.1.erase_current_addr < 255)) = some true := by
    decide
  rw [hs] at hd
  have hlt : s.1.erase_current_addr < 255 := by simpa using hd
  exact ⟨s, hs, hlt, himp hlt⟩

/-! ## Coverage of the progressive operations, file operations, screens -/

set_option maxRecDepth 100000 in
/-- C21 (failing input): a chip holding `0x00` everywhere, a bus that
acknowledges everything, every step due.  The progressive erase completes with
success after 33 steps; cell 254 then holds `0xFF` but cell 255 still holds
`0x00`.  The progressive read completes with success after 17 steps; byte 254 of
the memory window holds the chip's `0x00`, byte 255 still holds its old value
`0xFF`.  Address 255 is covered by neither operation. -/
theorem progressive_operations_skip_255 :
    (eraseSteps 33 (erase_memory_range sampleApp 0 255 sampleEnvZero).1.2
        (erase_memory_range sampleApp 0 255 sampleEnvZero).2).map
      (fun s => (s.1.erasing, s.1.operation_success, s.2.bus.mem 254, s.2.bus.mem 255)) =
      some (false, true, 0xFF, 0x00) ∧
    ((readSteps 17 (read_memory_range sampleApp sampleEnvZero).1.2
        (read_memory_range sampleApp sampleEnvZero).2).1.reading,
     (readSteps 17 (read_memory_range sampleApp sampleEnvZero).1.2
        (read_memory_range sampleApp sampleEnvZero).2).1.operation_success,
     (readSteps 17 (read_memory_range sampleApp sampleEnvZero).1.2
        (read_memory_range sampleApp sampleEnvZero).2).1.memory_data 254,
     (readSteps 17 (read_memory_range sampleApp sampleEnvZero).1.2
        (read_memory_range sampleApp sampleEnvZero).2).1.memory_data 255) =
      (false, true, 0x00, 0xFF) := by
  decide

set_option maxRecDepth 100000 in
/-- C22 (failing input): from the initial state, OK on the menu item Read (which
starts the read), one redraw tick (the read advances to cursor 16), Back, five
times Down, OK (the erase screen), one redraw tick.  No erase was ever started
(`erasing` is `false`, the erase cursor is 0), yet the erase screen draws a
progress bar and the percentage 6, computed from the progress value 16 left by
the read. -/
theorem erase_screen_shows_stale_progress :
    (runEvents traceReadThenEraseScreen (eeprom_app_alloc sampleApp sampleEnvOk).1
        (eeprom_app_alloc sampleApp sampleEnvOk).2).map
      (fun s => (s.1.current_state, s.1.erasing, s.1.erase_current_addr, s.1.progress_value,
        s.2.canvas.getLast?)) =
      some (AppState.AppState_Erase, false, 0, 16,
        some (CanvasOp.canvas_draw_str 54 46 (CanvasText.percent 6))) := by
  decide

set_option maxRecDepth 100000 in
/-- C23 (failing input): a successful `save_memory_to_file` on a chip whose cell
`N` holds `N`.  The file written is 255 bytes long, the values of the addresses
0 to 254; the value of address 255 is not in the file. -/
theorem save_memory_to_file_writes_255_bytes :
    ((save_memory_to_file { sampleApp with save_path := "/ext/24cxxprog/dump.bin" }
        sampleEnvOk).1.1,
     (save_memory_to_file { sampleApp with save_path := "/ext/24cxxprog/dump.bin" }
        sampleEnvOk).2.storage.files "/ext/24cxxprog/dump.bin") =
      (true, some (List.range 255)) := by
  decide

set_option maxRecDepth 100000 in
/-- C28 (failing input): `load_file_from_sd` on a file of 256 bytes, and on a
file of 300 bytes.  The call succeeds and sets `file_loaded`, but `file_size` is
0 (the limit 256 converted to `uint8_t`) and no byte is read into `file_data`;
confirming the load (Left, OK) then calls `writeBytes` with length 0, which fails
without any bus transfer.  A file of 255 bytes gives `file_size = 255`. -/
theorem load_file_of_256_bytes_gives_size_0 :
    ((load_file_from_sd { sampleApp with file_path := "/ext/24cxxprog/dump.bin" }
        (sampleEnvFile 256)).1.1,
     (load_file_from_sd { sampleApp with file_path := "/ext/24cxxprog/dump.bin" }
        (sampleEnvFile 256)).1.2.file_size,
     (load_file_from_sd { sampleApp with file_path := "/ext/24cxxprog/dump.bin" }
        (sampleEnvFile 256)).1.2.file_loaded,
     (load_file_from_sd { sampleApp with file_path := "/ext/24cxxprog/dump.bin" }
        (sampleEnvFile 256)).1.2.file_data 1) = (true, 0, true, 0) ∧
    (load_file_from_sd { sampleApp with file_path := "/ext/24cxxprog/dump.bin" }
        (sampleEnvFile 300)).1.2.file_size = 0 ∧
    (load_file_from_sd { sampleApp with file_path := "/ext/24cxxprog/dump.bin" }
        (sampleEnvFile 255)).1.2.file_size = 255 ∧
    (runEvents [UiEvent.press InputKey.InputKeyLeft, UiEvent.press InputKey.InputKeyOk]
        { (load_file_from_sd { sampleApp with file_path := "/ext/24cxxprog/dump.bin" }
            (sampleEnvFile 256)).1.2 with current_state := AppState.AppState_ConfirmLoad }
        (load_file_from_sd { sampleApp with file_path := "/ext/24cxxprog/dump.bin" }
            (sampleEnvFile 256)).2).map
      (fun s => (s.1.operation_success, s.1.message_text, s.2.bus.log)) =
      some (false, "Write failed!", []) := by
  decide

set_option maxRecDepth 100000 in
/-- C25 (counterexample): from the initial state, five times Down and OK (the
erase screen), OK (the erase starts), Back, five times Up and OK (the read
screen, which starts the read).  In the state reached `erasing` and `reading`
are both `true`. -/
theorem erasing_and_reading_both_true :
    (runEvents traceEraseThenRead (eeprom_app_alloc sampleApp sampleEnvOk).1
        (eeprom_app_alloc sampleApp sampleEnvOk).2).map
      (fun s => (s.1.current_state, s.1.erasing, s.1.reading)) =
      some (AppState.AppState_Read, true, true) := by
  decide

/-! ## One operation per redraw tick -/

theorem process_read_step_frame (app : EEPROMApp) (e : Env) :
    (process_read_step app e).1.erasing = app.erasing ∧
    (process_read_step app e).1.erase_current_addr = app.erase_current_addr ∧
    (process_read_step app e).1.erase_last_update = app.erase_last_update := by
  simp only [process_read_step, furi_get_tick]
  generalize u8 (if app.read_current_addr + 16 ≤ app.read_total_bytes then 16
    else app.read_total_bytes - app.read_current_addr) = cs
  by_cases hdue : sub32 (u32 (e.tick e.ticks_read)) app.read_last_update ≥ 30
  · by_cases hc : app.read_current_addr ≥ app.read_total_bytes
    · simp only [hdue, hc, if_true]
      exact ⟨rfl, rfl, rfl⟩
    · simp only [hdue, hc, if_true, if_false]
      cases (app.eeprom.readBytes app.read_current_addr false cs e.bus).1.1 <;>
        exact ⟨rfl, rfl, rfl⟩
  · simp only [hdue, if_false]
    exact ⟨trivial, trivial, trivial⟩

theorem process_erase_step_frame (app : EEPROMApp) (e : Env) (s : EEPROMApp × Env)
    (h : process_erase_step app e = some s) :
    s.1.reading = app.reading ∧ s.1.read_current_addr = app.read_current_addr ∧
    s.1.read_last_update = app.read_last_update ∧
    s.1.read_total_bytes = app.read_total_bytes := by
  simp only [process_erase_step, furi_get_tick] at h
  generalize u8 (if app.erase_current_addr + 8 ≤ 255 then 8
    else 255 - app.erase_current_addr) = cs at h
  by_cases hdue : sub32 (u32 (e.tick e.ticks_read)) app.erase_last_update ≥ 50
  · by_cases hc : app.erase_current_addr ≥ 255
    · simp only [hdue, hc, if_true, Option.some.injEq] at h
      rw [← h]
      exact ⟨rfl, rfl, rfl, rfl⟩
    · simp only [hdue, hc, if_true, if_false] at h
      cases hw : app.eeprom.writeBytes app.erase_current_addr (some (erase_data e.stack cs)) cs
          e.bus with
      | none => simp [hw] at h
      | some r =>
        obtain ⟨success, bus⟩ := r
        cases success with
        | false =>
          simp only [hw, Bool.not_false, if_true, Option.some.injEq] at h
          rw [← h]
          exact ⟨rfl, rfl, rfl, rfl⟩
        | true =>
          simp only [hw, Bool.not_true, Bool.false_eq_true, if_false, Option.some.injEq] at h
          rw [← h]
          exact ⟨rfl, rfl, rfl, rfl⟩
  · simp only [hdue, if_false, Option.some.injEq] at h
    rw [← h]
    exact ⟨rfl, rfl, rfl, rfl⟩

/-- A call of `readBytes` leaves the contents of the chip unchanged. -/
theorem readBytes_mem (self : EEPROM24C02) (a n : Nat) (null : Bool) (b : Bus) :
    (self.readBytes a null n b).2.mem = b.mem := by
  simp only [EEPROM24C02.readBytes, furi_hal_i2c_tx_ext, furi_hal_i2c_rx_ext,
    furi_hal_i2c_acquire, furi_hal_i2c_release, deviceWrite, deviceStore]
  split
  · rfl
  · cases b.outcome b.count <;> rfl

/-- A log made of blocks acquire, one transmit, release and of delays holds no
receive. -/
theorem oneChunkPerHold_rxSizes : ∀ (evs : List Event) (s : Nat),
    oneChunkPerHold s evs = true → rxSizes evs = [] := by
  intro evs
  induction evs with
  | nil => intro s _; rfl
  | cons ev evs ih =>
    intro s h
    match s, ev, h with
    | 0, Event.acquire, h => exact ih 1 (by simpa [oneChunkPerHold] using h)
    | 0, Event.delay _, h => exact ih 0 (by simpa [oneChunkPerHold] using h)
    | 1, Event.tx _ _ _ _ _, h => exact ih 2 (by simpa [oneChunkPerHold] using h)
    | 2, Event.release, h => exact ih 0 (by simpa [oneChunkPerHold] using h)
    | 0, Event.release, h => simp [oneChunkPerHold] at h
    | 0, Event.tx _ _ _ _ _, h => simp [oneChunkPerHold] at h
    | 0, Event.rx _ _ _ _ _, h => simp [oneChunkPerHold] at h
    | 1, Event.acquire, h => simp [oneChunkPerHold] at h
    | 1, Event.release, h => simp [oneChunkPerHold] at h
    | 1, Event.delay _, h => simp [oneChunkPerHold] at h
    | 1, Event.rx _ _ _ _ _, h => simp [oneChunkPerHold] at h
    | 2, Event.acquire, h => simp [oneChunkPerHold] at h
    | 2, Event.delay _, h => simp [oneChunkPerHold] at h
    | 2, Event.tx _ _ _ _ _, h => simp [oneChunkPerHold] at h
    | 2, Event.rx _ _ _ _ _, h => simp [oneChunkPerHold] at h
    | n + 3, Event.acquire, h => simp [oneChunkPerHold] at h
    | n + 3, Event.release, h => simp [oneChunkPerHold] at h
    | n + 3, Event.delay _, h => simp [oneChunkPerHold] at h
    | n + 3, Event.tx _ _ _ _ _, h => simp [oneChunkPerHold] at h
    | n + 3, Event.rx _ _ _ _ _, h => simp [oneChunkPerHold] at h

/-- A call of `writeBytes` issues no receive. -/
theorem writeBytes_rxSizes (self : EEPROM24C02) (a n : Nat) (buffer : Option (Nat → Nat))
    (b b1 : Bus) (r : Bool) (h : self.writeBytes a buffer n b = some (r, b1)) :
    rxSizes (eventsSince b b1) = [] := by
  obtain ⟨r2, b2, h2, _, h3⟩ := writeBytes_trace self a n buffer b
  rw [h] at h2
  simp only [Option.some.injEq, Prod.mk.injEq] at h2
  rw [h2.2]
  exact oneChunkPerHold_rxSizes _ 0 h3

/-- The bus after a call of `process_erase_step` is the bus before it, or the bus
after one call of `writeBytes` at the erase cursor. -/
theorem process_erase_step_bus (app : EEPROMApp) (e : Env) (s : EEPROMApp × Env)
    (h : process_erase_step app e = some s) :
    s.2.bus = e.bus ∨
    ∃ cs r, app.eeprom.writeBytes app.erase_current_addr (some (erase_data e.stack cs)) cs
      e.bus = some (r, s.2.bus) := by
  simp only [process_erase_step, furi_get_tick] at h
  generalize u8 (if app.erase_current_addr + 8 ≤ 255 then 8
    else 255 - app.erase_current_addr) = cs at h
  by_cases hdue : sub32 (u32 (e.tick e.ticks_read)) app.erase_last_update ≥ 50
  · by_cases hc : app.erase_current_addr ≥ 255
    · simp only [hdue, hc, if_true, Option.some.injEq] at h
      rw [← h]
      exact Or.inl rfl
    · simp only [hdue, hc, if_true, if_false] at h
      cases hw : app.eeprom.writeBytes app.erase_current_addr (some (erase_data e.stack cs)) cs
          e.bus with
      | none => simp [hw] at h
      | some r =>
        obtain ⟨success, bus⟩ := r
        cases success with
        | false =>
          simp only [hw, Bool.not_false, if_true, Option.some.injEq] at h
          rw [← h]
          exact Or.inr ⟨cs, false, hw⟩
        | true =>
          simp only [hw, Bool.not_true, Bool.false_eq_true, if_false, Option.some.injEq] at h
          rw [← h]
          exact Or.inr ⟨cs, true, hw⟩
  · simp only [hdue, if_false, Option.some.injEq] at h
    rw [← h]
    exact Or.inl rfl

/-- One redraw of the read screen: the application state and the bus it returns
are those after the optional call of `process_read_step`, made on an environment
with the bus of the start. -/
theorem draw_read_screen_step (app : EEPROMApp) (e : Env) (s : EEPROMApp × Env)
    (h : draw_read_screen app e = some s) :
    ∃ e1, e1.bus = e.bus ∧
      s.1 = (if app.reading = true then process_read_step app e1 else (app, e1)).1 ∧
      s.2.bus = (if app.reading = true then process_read_step app e1 else (app, e1)).2.bus := by
  simp only [draw_read_screen] at h
  refine ⟨canvasCall (CanvasOp.canvas_draw_str 2 10 (CanvasText.lit "Read Memory"))
    (canvasCall (CanvasOp.canvas_set_font true) (canvasCall CanvasOp.canvas_clear e)), rfl, ?_⟩
  generalize canvasCall (CanvasOp.canvas_draw_str 2 10 (CanvasText.lit "Read Memory"))
    (canvasCall (CanvasOp.canvas_set_font true) (canvasCall CanvasOp.canvas_clear e)) = e1 at h ⊢
  generalize (if app.reading = true then process_read_step app e1 else (app, e1)) = st at h ⊢
  split at h
  · exact absurd h (by simp)
  · rename_i e2 heq
    simp only [Option.some.injEq] at h
    rw [← h]
    refine ⟨rfl, ?_⟩
    show e2.bus = st.2.bus
    split at heq
    · split at heq
      · simp only [Option.some.injEq] at heq
        rw [← heq]
        simp only [canvasCall]
        split <;> rfl
      · exact absurd heq (by simp)
    · simp only [Option.some.injEq] at heq
      rw [← heq]
      simp only [canvasCall, drawMessage_bus, drawHexDump_bus]

/-- One redraw of the erase screen: the application state and the bus it returns
are those after the optional call of `process_erase_step`, made on an environment
with the bus and the stack of the start. -/
theorem draw_erase_screen_step (app : EEPROMApp) (e : Env) (s : EEPROMApp × Env)
    (h : draw_erase_screen app e = some s) :
    ∃ e1 st, e1.bus = e.bus ∧ e1.stack = e.stack ∧
      (if app.erasing = true then process_erase_step app e1 else some (app, e1)) = some st ∧
      s.1 = st.1 ∧ s.2.bus = st.2.bus := by
  simp only [draw_erase_screen] at h
  generalize he1 : canvasCall (CanvasOp.canvas_draw_str 2 24 (CanvasText.lit "Erase all to 0xFF"))
    (canvasCall (CanvasOp.canvas_set_font false)
      (canvasCall (CanvasOp.canvas_draw_str 2 10 (CanvasText.lit "Erase Memory"))
        (canvasCall (CanvasOp.canvas_set_font true) (canvasCall CanvasOp.canvas_clear e)))) = e1
    at h
  have hb : e1.bus = e.bus := by rw [← he1]; rfl
  have hk : e1.stack = e.stack := by rw [← he1]; rfl
  generalize hst : (if app.erasing = true then process_erase_step app e1 else some (app, e1)) =
    st at h
  cases st with
  | none => exact absurd h (by simp)
  | some r =>
    refine ⟨e1, r, hb, hk, hst, ?_⟩
    simp only at h
    split at h
    · simp only [Option.some.injEq] at h
      rw [← h]
      refine ⟨rfl, ?_⟩
      simp only [canvasCall]
      split <;> rfl
    · simp only [Option.some.injEq] at h
      rw [← h]
      refine ⟨rfl, ?_⟩
      simp only [canvasCall, drawMessage_bus]

/-- C25 (amended): the flags `erasing` and `reading` can both be true, because
`read_memory_range` leaves `erasing` as it is and `erase_memory_range` leaves
`reading` as it is.  In every state a redraw tick advances only the operation of
the screen drawn and only that operation uses the bus.  A redraw of the read
screen leaves the erase flag, cursor and last-step time unchanged; the bus after
it is the bus before it or the bus after one `readBytes` at the read cursor, and
the contents of the chip are unchanged (nothing is written).  A redraw of the
erase screen leaves the read flag, cursor, total and last-step time unchanged;
the bus after it is the bus before it or the bus after one `writeBytes` at the
erase cursor, and no receive is issued (nothing is read). -/
theorem redraw_advances_own_operation (app : EEPROMApp) (e : Env) (start_addr length : Nat) :
    (read_memory_range app e).1.2.erasing = app.erasing ∧
    (erase_memory_range app start_addr length e).1.2.reading = app.reading ∧
    (∀ s, draw_read_screen app e = some s →
      (s.1.erasing = app.erasing ∧ s.1.erase_current_addr = app.erase_current_addr ∧
        s.1.erase_last_update = app.erase_last_update) ∧
      (s.2.bus = e.bus ∨
        ∃ cs, s.2.bus = (app.eeprom.readBytes app.read_current_addr false cs e.bus).2) ∧
      s.2.bus.mem = e.bus.mem) ∧
    (∀ s, draw_erase_screen app e = some s →
      (s.1.reading = app.reading ∧ s.1.read_current_addr = app.read_current_addr ∧
        s.1.read_last_update = app.read_last_update ∧
        s.1.read_total_bytes = app.read_total_bytes) ∧
      (s.2.bus = e.bus ∨
        ∃ cs r, app.eeprom.writeBytes app.erase_current_addr
          (some (erase_data e.stack cs)) cs e.bus = some (r, s.2.bus)) ∧
      rxSizes (eventsSince e.bus s.2.bus) = []) := by
  refine ⟨rfl, rfl, ?_, ?_⟩
  · intro s h
    obtain ⟨e1, hb, h1, h2⟩ := draw_read_screen_step app e s h
    have hbus : s.2.bus = e.bus ∨
        ∃ cs, s.2.bus = (app.eeprom.readBytes app.read_current_addr false cs e.bus).2 := by
      rw [h2]
      split
      · rw [← hb]
        exact process_read_step_bus app e1
      · exact Or.inl hb
    refine ⟨?_, hbus, ?_⟩
    · rw [h1]
      split
      · exact process_read_step_frame app e1
      · exact ⟨rfl, rfl, rfl⟩
    · rcases hbus with hq | ⟨cs, hq⟩
      · rw [hq]
      · rw [hq]
        exact readBytes_mem _ _ _ _ _
  · intro s h
    obtain ⟨e1, st, hb, hk, hst, h1, h2⟩ := draw_erase_screen_step app e s h
    have hbus : s.2.bus = e.bus ∨
        ∃ cs r, app.eeprom.writeBytes app.erase_current_addr
          (some (erase_data e.stack cs)) cs e.bus = some (r, s.2.bus) := by
      rw [h2]
      by_cases he : app.erasing = true
      · rw [if_pos he] at hst
        rw [← hb, ← hk]
        exact process_erase_step_bus app e1 st hst
      · rw [if_neg he] at hst
        simp only [Option.some.injEq] at hst
        rw [← hst]
        exact Or.inl hb
    refine ⟨?_, hbus, ?_⟩
    · rw [h1]
      by_cases he : app.erasing = true
      · rw [if_pos he] at hst
        exact process_erase_step_frame app e1 st hst
      · rw [if_neg he] at hst
        simp only [Option.some.injEq] at hst
        rw [← hst]
        exact ⟨rfl, rfl, rfl, rfl⟩
    · rcases hbus with hq | ⟨cs, r, hq⟩
      · rw [hq, eventsSince_self]
        rfl
      · exact writeBytes_rxSizes _ _ _ _ _ _ _ hq

set_option maxRecDepth 100000 in
theorem redraw_advances_own_operation_witness :
    (read_memory_range sampleBusy sampleEnvOk).1.2.erasing = sampleBusy.erasing ∧
    (erase_memory_range sampleBusy 0 255 sampleEnvOk).1.2.reading = sampleBusy.reading ∧
    (∃ s, draw_read_screen sampleBusy sampleEnvOk = some s ∧
      (s.1.erasing = sampleBusy.erasing ∧
        s.1.erase_current_addr = sampleBusy.erase_current_addr ∧
        s.1.erase_last_update = sampleBusy.erase_last_update) ∧
      (s.2.bus = sampleEnvOk.bus ∨
        ∃ cs, s.2.bus =
          (sampleBusy.eeprom.readBytes sampleBusy.read_current_addr false cs sampleEnvOk.bus).2) ∧
      s.2.bus.mem = sampleEnvOk.bus.mem) ∧
    (∃ s, draw_erase_screen sampleBusy sampleEnvOk = some s ∧
      (s.1.reading = sampleBusy.reading ∧
        s.1.read_current_addr = sampleBusy.read_current_addr ∧
        s.1.read_last_update = sampleBusy.read_last_update ∧
        s.1.read_total_bytes = sampleBusy.read_total_bytes) ∧
      (s.2.bus = sampleEnvOk.bus ∨
        ∃ cs r, sampleBusy.eeprom.writeBytes sampleBusy.erase_current_addr
          (some (erase_data sampleEnvOk.stack cs)) cs sampleEnvOk.bus = some (r, s.2.bus)) ∧
      rxSizes (eventsSince sampleEnvOk.bus s.2.bus) = []) :=
  ⟨rfl, rfl,
   (Option.isSome_iff_exists.mp
      (show (draw_read_screen sampleBusy sampleEnvOk).isSome = true by decide)).elim
     (fun s hs => ⟨s, hs,
       (redraw_advances_own_operation sampleBusy sampleEnvOk 0 255).2.2.1 s hs⟩),
   (Option.isSome_iff_exists.mp
      (show (draw_erase_screen sampleBusy sampleEnvOk).isSome = true by decide)).elim
     (fun s hs => ⟨s, hs,
       (redraw_advances_own_operation sampleBusy sampleEnvOk 0 255).2.2.2 s hs⟩)⟩

end EEPROM
